import Mathlib

/-! FastLinkedList: a blocked singly linked list.

A shallow embedding of `src/LinkedList/FastLinkedList.c`.

Modelling conventions.

* A C `int` is a Lean `Int` (no wrap-around: the counters of this program only
  change by one per call and are bounded by the number of live nodes).
* A `Node*` is a natural number; `0` is `NULL`.  The heap is a list of cells,
  the cell at index `p` being the node at address `p`; a cell is `none` when the
  address is `NULL`, not yet allocated, or freed.  `malloc` hands out the next
  unused address and is assumed to succeed.
* A C array is a Lean list of the array's length; every array access goes
  through `rd` / `wr`, which fail (`none`) when the index is outside the array.
  Every dereference goes through `load` / `setNext`, which fail on an address
  that does not hold a live node.  A function of the model returns `none`
  exactly when the C code performs such an undefined access.
* A counted `for` loop is a recursion on its number of iterations.
-/

namespace FastLinkedList

/-! ## Data model -/

/-- Block capacity, `#define B 64`. -/
def B : Int := 64

/-- Initial capacity of the block array, `#define INIT_BLOCKS 16`. -/
def INIT_BLOCKS : Int := 16

/-- The `struct Node`: payload and successor pointer. -/
structure Node where
  data : Int
  next : Nat
deriving DecidableEq, Repr

/-- The heap of nodes, indexed by address. -/
abbrev Heap := List (Option Node)

/-- The `struct Block`: `Node* items[B]` and the number of valid pointers. -/
structure Block where
  items : List Nat
  cnt : Int
deriving DecidableEq, Repr

/-- The `struct FastList` together with the heap its pointers refer to. -/
structure FastList where
  head : Nat
  size : Int
  blocks : List Block
  nBlocks : Int
  capBlocks : Int
  mem : Heap
deriving DecidableEq, Repr

/-- A zero-filled block, as produced by `calloc` and `memset(.., 0, ..)`. -/
def zeroBlock : Block := { items := List.replicate 64 0, cnt := 0 }

/-! ## Memory access -/

/-- Array read `arr[i]`; fails outside the array. -/
def rd {α : Type} (arr : List α) (i : Int) : Option α :=
  if 0 ≤ i then arr[i.toNat]? else none

/-- Array write `arr[i] = x`; fails outside the array. -/
def wr {α : Type} (arr : List α) (i : Int) (x : α) : Option (List α) :=
  if 0 ≤ i ∧ i < arr.length then some (arr.set i.toNat x) else none

/-- Dereference `*p`; fails on `NULL`, unallocated and freed addresses. -/
def load (m : Heap) (p : Nat) : Option Node :=
  match m[p]? with
  | some (some n) => some n
  | _ => none

/-- The assignment `p->next = q`. -/
def setNext (m : Heap) (p q : Nat) : Option Heap :=
  match load m p with
  | some n => some (m.set p (some { n with next := q }))
  | none => none

/-- The call `new_node(v)`: a fresh node with `next = NULL`. -/
def new_node (m : Heap) (v : Int) : Nat × Heap :=
  (m.length, m ++ [some { data := v, next := 0 }])

/-- The call `free(p)`. -/
def free (m : Heap) (p : Nat) : Option Heap :=
  match load m p with
  | some _ => some (m.set p none)
  | none => none

/-! ## Loops shared by several functions -/

/-- The loop `for (i = i0; i > lo; i--) arr[i] = arr[i-1];` run for `k = i0 - lo`
iterations (`split_block` on the block array, `insert` on a block's items). -/
def shiftRightLoop {α : Type} : Nat → Int → List α → Option (List α)
  | 0, _, arr => some arr
  | k + 1, i, arr => do
      let x ← rd arr (i - 1)
      let arr1 ← wr arr i x
      shiftRightLoop k (i - 1) arr1

/-- The loop `for (i = i0; i < hi - 1; i++) arr[i] = arr[i+1];` run for
`k = hi - 1 - i0` iterations (`try_merge` and `removeAt` on the block array,
`removeAt` on a block's items). -/
def shiftLeftLoop {α : Type} : Nat → Int → List α → Option (List α)
  | 0, _, arr => some arr
  | k + 1, i, arr => do
      let x ← rd arr (i + 1)
      let arr1 ← wr arr i x
      shiftLeftLoop k (i + 1) arr1

/-- The loop `for (i = i0; i < n; i++) dst[dOff + i] = src[sOff + i];` run for
`k = n - i0` iterations (`split_block` and `try_merge`). -/
def copyLoop : Nat → Int → List Nat → Int → List Nat → Int → Option (List Nat)
  | 0, _, _, _, dst, _ => some dst
  | k + 1, i, src, sOff, dst, dOff => do
      let x ← rd src (sOff + i)
      let dst1 ← wr dst (dOff + i) x
      copyLoop k (i + 1) src sOff dst1 dOff

/-- The expression
`(i < nBlocks && blocks[i].cnt > 0) ? blocks[i].items[0] : NULL`. -/
def headOfBlock (blocks : List Block) (nBlocks : Int) (i : Int) : Option Nat :=
  if i < nBlocks then do
    let blk ← rd blocks i
    if blk.cnt > 0 then rd blk.items 0 else some 0
  else some 0

/-! ## The functions of `FastLinkedList.c` -/

/-- The loop `while (newCap < needBlocks) newCap *= 2;` with at most `k` rounds. -/
def growCap : Nat → Int → Int → Int
  | 0, c, _ => c
  | k + 1, c, need => if c < need then growCap k (c * 2) need else c

/-- The function `ensure_block_capacity`: `realloc` keeps the old blocks; the new
tail is uninitialised in C and zero here (it is written before it is read). -/
def ensure_block_capacity (L : FastList) (needBlocks : Int) : FastList :=
  if L.capBlocks ≥ needBlocks then L
  else
    let newCap := growCap needBlocks.toNat
      (if L.capBlocks > 0 then L.capBlocks else INIT_BLOCKS) needBlocks
    { L with
      blocks := L.blocks ++ List.replicate (newCap.toNat - L.blocks.length) zeroBlock
      capBlocks := newCap }

/-- The function `createList`. -/
def createList : FastList :=
  { head := 0
    size := 0
    blocks := List.replicate 16 zeroBlock
    nBlocks := 0
    capBlocks := INIT_BLOCKS
    mem := [none] }

/-- The first loop of `relink_local`:
`for (i = 0; i < cnt - 1; i++) items[i]->next = items[i+1];`. -/
def relinkLoop (items : List Nat) : Nat → Int → Heap → Option Heap
  | 0, _, m => some m
  | k + 1, i, m => do
      let p ← rd items i
      let q ← rd items (i + 1)
      let m1 ← setNext m p q
      relinkLoop items k (i + 1) m1

/-- The function `relink_local`. -/
def relink_local (blk : Block) (nextAfterBlock : Nat) (m : Heap) : Option Heap := do
  let m1 ← relinkLoop blk.items (blk.cnt - 1).toNat 0 m
  if blk.cnt > 0 then do
    let p ← rd blk.items (blk.cnt - 1)
    setNext m1 p nextAfterBlock
  else some m1

/-- The function `split_block`. -/
def split_block (L0 : FastList) (bIdx : Int) : Option FastList := do
  let L := ensure_block_capacity L0 (L0.nBlocks + 1)
  let blocks1 ← shiftRightLoop (L.nBlocks - (bIdx + 1)).toNat L.nBlocks L.blocks
  let nBlocks := L.nBlocks + 1
  let A ← rd blocks1 bIdx
  let blocks2 ← wr blocks1 (bIdx + 1) zeroBlock
  let move := A.cnt.tdiv 2
  let start := A.cnt - move
  let items2 ← copyLoop move.toNat 0 A.items start zeroBlock.items 0
  let B2 : Block := { items := items2, cnt := move }
  let A1 : Block := { A with cnt := start }
  let blocks3 ← wr blocks2 (bIdx + 1) B2
  let blocks4 ← wr blocks3 bIdx A1
  let nextAfterA ← (if B2.cnt > 0 then rd B2.items 0 else some 0)
  let m1 ← relink_local A1 nextAfterA L.mem
  let nextAfterB2 ← headOfBlock blocks4 nBlocks (bIdx + 2)
  let m2 ← relink_local B2 nextAfterB2 m1
  some { L with blocks := blocks4, nBlocks := nBlocks, mem := m2 }

/-- The function `try_merge`. -/
def try_merge (L : FastList) (bIdx : Int) : Option FastList :=
  if bIdx < 0 ∨ bIdx + 1 ≥ L.nBlocks then some L
  else do
    let A ← rd L.blocks bIdx
    let C ← rd L.blocks (bIdx + 1)
    if A.cnt + C.cnt > B then some L
    else do
      let base := A.cnt
      let itemsA ← copyLoop C.cnt.toNat 0 C.items 0 A.items base
      let A1 : Block := { items := itemsA, cnt := A.cnt + C.cnt }
      let blocks1 ← wr L.blocks bIdx A1
      let blocks2 ← shiftLeftLoop (L.nBlocks - 1 - (bIdx + 1)).toNat (bIdx + 1) blocks1
      let nBlocks := L.nBlocks - 1
      let nextAfterA ← headOfBlock blocks2 nBlocks (bIdx + 1)
      let A2 ← rd blocks2 bIdx
      let m1 ← relink_local A2 nextAfterA L.mem
      some { L with blocks := blocks2, nBlocks := nBlocks, mem := m1 }

/-- The function `locate`: the pair `(*outB, *outOff)`. -/
def locate (L : FastList) (pos : Int) : Int × Int :=
  let b := pos.tdiv B
  let off := pos.tmod B
  let b := if b ≥ L.nBlocks then L.nBlocks - 1 else b
  (b, off)

/-- The function `get` (on a non-null list). -/
def get (L : FastList) (pos : Int) : Option Int :=
  if pos < 0 ∨ pos ≥ L.size then some (-1)
  else do
    let (b, off) := locate L pos
    let blk ← rd L.blocks b
    let off := if off ≥ blk.cnt then blk.cnt - 1 else off
    let p ← rd blk.items off
    let n ← load L.mem p
    some n.data

/-- The branch `if (L->size == 0)` of `insert`. -/
def insertFirst (L : FastList) (value : Int) : Option FastList := do
  let (n, m) := new_node L.mem value
  let blk0 ← rd L.blocks 0
  let items ← wr blk0.items 0 n
  let blocks ← wr L.blocks 0 { items := items, cnt := 1 }
  some { L with head := n, nBlocks := 1, blocks := blocks, size := 1, mem := m }

/-- The end of the branch `if (pos == L->size)` of `insert`, from
`Node* n = new_node(value)` on: the new node becomes the last item of block `b`. -/
def appendToBlock (L : FastList) (b : Int) (value : Int) : Option FastList := do
  let (n, m) := new_node L.mem value
  let blk ← rd L.blocks b
  let nextAfter ← headOfBlock L.blocks L.nBlocks (b + 1)
  let m1 ← (if blk.cnt > 0 then do
      let last ← rd blk.items (blk.cnt - 1)
      setNext m last n
    else some m)
  let m2 ← setNext m1 n nextAfter
  let items ← wr blk.items blk.cnt n
  let blocks ← wr L.blocks b { items := items, cnt := blk.cnt + 1 }
  some { L with blocks := blocks, size := L.size + 1, mem := m2 }

/-- The branch `if (pos == L->size)` of `insert`: split the last block if it is
full, then append to the block that is last afterwards. -/
def insertAppend (L : FastList) (value : Int) : Option FastList := do
  let b := L.nBlocks - 1
  let blk ← rd L.blocks b
  if blk.cnt = B then do
    let L1 ← split_block L b
    appendToBlock L1 (L1.nBlocks - 1) value
  else appendToBlock L b value

/-- The end of `insert`, from `Block *blk = &L->blocks[b]` on: the new node goes
into block `b` at the offset `off` clamped to the block's count.  The first
branch below is the code's path through `pred` (`off > 0`, or `off == 0` with
`b != 0`); the second is its `b == 0` path, where the new node becomes the
head. -/
def insertIntoBlock (L : FastList) (b off0 : Int) (value : Int) : Option FastList := do
  let blk ← rd L.blocks b
  let off := if off0 > blk.cnt then blk.cnt else off0
  let (n, m) := new_node L.mem value
  let succ ← (if off < blk.cnt then rd blk.items off
    else headOfBlock L.blocks L.nBlocks (b + 1))
  if off > 0 ∨ b ≠ 0 then do
    let pred ← (if off > 0 then rd blk.items (off - 1)
      else do
        let prevBlk ← rd L.blocks (b - 1)
        rd prevBlk.items (prevBlk.cnt - 1))
    let m1 ← setNext m pred n
    let m2 ← setNext m1 n succ
    let items1 ← shiftRightLoop (blk.cnt - off).toNat blk.cnt blk.items
    let items2 ← wr items1 off n
    let blk1 : Block := { items := items2, cnt := blk.cnt + 1 }
    let blocks ← wr L.blocks b blk1
    let nextAfter ← headOfBlock blocks L.nBlocks (b + 1)
    let m3 ← relink_local blk1 nextAfter m2
    some { L with blocks := blocks, size := L.size + 1, mem := m3 }
  else do
    let m1 ← setNext m n L.head
    let items1 ← shiftRightLoop blk.cnt.toNat blk.cnt blk.items
    let items2 ← wr items1 0 n
    let blk1 : Block := { items := items2, cnt := blk.cnt + 1 }
    let blocks ← wr L.blocks b blk1
    let nextAfter ← headOfBlock blocks L.nBlocks (b + 1)
    let m2 ← relink_local blk1 nextAfter m1
    some { L with head := n, blocks := blocks, size := L.size + 1, mem := m2 }

/-- The general case of `insert`, from `locate(L, pos, &b, &off)` on: locate,
split the located block if it is full and locate again, then insert. -/
def insertInside (L : FastList) (pos : Int) (value : Int) : Option FastList := do
  let (b0, off0) := locate L pos
  let b := if b0 < 0 then 0 else b0
  let blk ← rd L.blocks b
  if blk.cnt = B then do
    let L1 ← split_block L b
    let (b1, off1) := locate L1 pos
    insertIntoBlock L1 b1 off1 value
  else insertIntoBlock L b off0 value

/-- The function `insert` (on a non-null list). -/
def insert (L : FastList) (pos : Int) (value : Int) : Option FastList :=
  if pos < 0 ∨ pos > L.size then some L
  else if L.size = 0 then insertFirst L value
  else if pos = L.size then insertAppend L value
  else insertInside L pos value

/-- The middle of `removeAt`, from `Block *blk = &L->blocks[b]` to the call of
`relink_local`: unlink and free the node at the clamped offset of block `b`.
The result is the removed value and the state before re-balancing. -/
def unlinkFromBlock (L : FastList) (pos b off0 : Int) : Option (Int × FastList) := do
  let blk ← rd L.blocks b
  let off := if off0 ≥ blk.cnt then blk.cnt - 1 else off0
  let toDel ← rd blk.items off
  let nd ← load L.mem toDel
  let val := nd.data
  let succ ← (if off + 1 < blk.cnt then rd blk.items (off + 1)
    else headOfBlock L.blocks L.nBlocks (b + 1))
  let (head, m1) ← (if pos = 0 then some (succ, L.mem)
    else do
      let pred ← (if off > 0 then rd blk.items (off - 1)
        else do
          let prevBlk ← rd L.blocks (b - 1)
          rd prevBlk.items (prevBlk.cnt - 1))
      let m ← setNext L.mem pred succ
      some (L.head, m))
  let items ← shiftLeftLoop (blk.cnt - 1 - off).toNat off blk.items
  let blk1 : Block := { items := items, cnt := blk.cnt - 1 }
  let blocks1 ← wr L.blocks b blk1
  let m2 ← free m1 toDel
  let nextAfter ← headOfBlock blocks1 L.nBlocks (b + 1)
  let m3 ← relink_local blk1 nextAfter m2
  some (val, { L with head := head, size := L.size - 1, blocks := blocks1, mem := m3 })

/-- The end of `removeAt`, from `if (blk->cnt == 0 && L->nBlocks > 1)` on: drop
block `b` if it is empty and not the only one, else try the two merges. -/
def rebalance (L : FastList) (b : Int) : Option FastList := do
  let blk ← rd L.blocks b
  if blk.cnt = 0 ∧ L.nBlocks > 1 then do
    let blocks ← shiftLeftLoop (L.nBlocks - 1 - b).toNat b L.blocks
    some { L with blocks := blocks, nBlocks := L.nBlocks - 1 }
  else do
    let L2 ← (if b > 0 then try_merge L (b - 1) else some L)
    try_merge L2 b

/-- The function `removeAt` (on a non-null list): the returned value and the
state after the call. -/
def removeAt (L : FastList) (pos : Int) : Option (Int × FastList) :=
  if pos < 0 ∨ pos ≥ L.size then some (-1, L)
  else do
    let (b0, off0) := locate L pos
    let b := if b0 < 0 then 0 else b0
    let (val, L1) ← unlinkFromBlock L pos b off0
    let L2 ← rebalance L1 b
    some (val, L2)

/-- The walk `for (cur = p; cur; cur = cur->next)` of `printList` and
`destroyList`: the addresses visited, with at most `fuel` steps. -/
def walk (m : Heap) : Nat → Nat → Option (List Nat)
  | 0, cur => if cur = 0 then some [] else none
  | fuel + 1, cur =>
    if cur = 0 then some []
    else do
      let n ← load m cur
      let rest ← walk m fuel n.next
      some (cur :: rest)

/-- The payload stored at an address (`0` when the address is not live). -/
def dataAt (m : Heap) (p : Nat) : Int :=
  match load m p with
  | some n => n.data
  | none => 0

/-- The nodes of the chain from `head`, in order.  A chain without a cycle has
fewer nodes than the heap has cells, so the fuel never runs out on it. -/
def chainNodes (L : FastList) : Option (List Nat) :=
  walk L.mem L.mem.length L.head

/-- The forward traversal: the values `printList` prints, in order. -/
def traverse (L : FastList) : Option (List Int) :=
  (chainNodes L).map (List.map (dataAt L.mem))

/-! ## Views of a state and the core invariants -/

/-- The valid pointers of a block, `items[0 .. cnt-1]`. -/
def Block.refs (blk : Block) : List Nat := blk.items.take blk.cnt.toNat

/-- The blocks in use, `blocks[0 .. nBlocks-1]`. -/
def FastList.used (L : FastList) : List Block := L.blocks.take L.nBlocks.toNat

/-- The valid pointers of every block in use, block by block. -/
def FastList.layout (L : FastList) : List (List Nat) := L.used.map Block.refs

/-- The block-referenced nodes in block order, then in-block order. -/
def FastList.refs (L : FastList) : List Nat := L.layout.flatten

/-- The values of the block-referenced nodes, in the same order. -/
def FastList.values (L : FastList) : List Int := L.refs.map (dataAt L.mem)

/-- A chain segment: starting at pointer `p`, following `next` visits exactly the
nodes `l`, all live, and the `next` of the last one is `q` (`p = q` when `l` is
empty). -/
def lseg (m : Heap) : List Nat → Nat → Nat → Prop
  | [], p, q => p = q
  | a :: t, p, q => p = a ∧ ∃ n, load m a = some n ∧ lseg m t n.next q

/-- Two heaps hold the same live addresses with the same payloads; only `next`
fields may differ. -/
def SameData (m m1 : Heap) : Prop :=
  m1.length = m.length ∧ ∀ a, (load m1 a).map Node.data = (load m a).map Node.data

/-- The heap `m1` is `m` with one more node, at the next unused address, holding
the payload `v`; the payloads of the other nodes are as in `m`. -/
def AllocData (m m1 : Heap) (v : Int) : Prop :=
  m1.length = m.length + 1 ∧
  (∀ a, a ≠ m.length → (load m1 a).map Node.data = (load m a).map Node.data) ∧
  (load m1 m.length).map Node.data = some v

/-- The heap `m1` is `m` with the node at `p` freed; the payloads of the other
nodes are as in `m`. -/
def FreeData (m m1 : Heap) (p : Nat) : Prop :=
  m1.length = m.length ∧
  (∀ a, a ≠ p → (load m1 a).map Node.data = (load m a).map Node.data) ∧
  load m1 p = none

/-- Well-formedness of the representation: the arrays have their declared
lengths, the block count lies within the capacity, and every block in use has
`0 ≤ cnt ≤ B` (core invariant 2). -/
structure Rep (L : FastList) : Prop where
  cap_len : (L.blocks.length : Int) = L.capBlocks
  cap_pos : 0 < L.capBlocks
  nb_nonneg : 0 ≤ L.nBlocks
  nb_le : L.nBlocks ≤ L.capBlocks
  items_len : ∀ blk ∈ L.blocks, blk.items.length = 64
  cnt_bound : ∀ blk ∈ L.used, 0 ≤ blk.cnt ∧ blk.cnt ≤ B

/-- The core invariants of the specification (section 3), on a well-formed
representation.  `chain` is invariants 1 and 3 together: the chain from `head`
visits the block-referenced nodes in order and ends in `NULL`, so each block's
last node points to the next block's first node.  `nonempty` is invariant 5 in
the form the code keeps it: an empty block in use is the only block.
`heap_pos` and `null_dead` say that `NULL` is a cell of the heap that holds no
node, so that no allocation returns it. -/
structure CoreInv (L : FastList) : Prop where
  rep : Rep L
  heap_pos : 0 < L.mem.length
  null_dead : load L.mem 0 = none
  chain : lseg L.mem L.refs L.head 0
  size_eq : L.size = (L.used.map Block.cnt).sum
  nonempty : ∀ blk ∈ L.used, blk.cnt = 0 → L.nBlocks = 1

/-- The core invariants without invariant 5: what holds inside `removeAt`
between unlinking the node and re-balancing the blocks, when the located block
may have become empty. -/
structure LinkInv (L : FastList) : Prop where
  rep : Rep L
  heap_pos : 0 < L.mem.length
  null_dead : load L.mem 0 = none
  chain : lseg L.mem L.refs L.head 0
  size_eq : L.size = (L.used.map Block.cnt).sum

/-! ## Operation histories -/

/-- A call of one of the two mutating operations. -/
inductive Op where
  | insert (pos value : Int)
  | removeAt (pos : Int)
deriving DecidableEq, Repr

/-- One in-range call: `insert` with `0 ≤ pos ≤ size`, `removeAt` with
`0 ≤ pos < size`.  The result is `none` when the position is out of range or
the call performs an undefined memory access. -/
def step (L : FastList) : Op → Option FastList
  | .insert pos v => if 0 ≤ pos ∧ pos ≤ L.size then insert L pos v else none
  | .removeAt pos =>
    if 0 ≤ pos ∧ pos < L.size then
      match removeAt L pos with
      | some (_, L1) => some L1
      | none => none
    else none

/-- A sequence of in-range calls, each completing. -/
def runOps : FastList → List Op → Option FastList
  | L, [] => some L
  | L, op :: ops =>
    match step L op with
    | some L1 => runOps L1 ops
    | none => none

/-- A state reached from `createList` by in-range `insert` / `removeAt` calls. -/
def Reachable (L : FastList) : Prop := ∃ ops, runOps createList ops = some L

/-- Reference list: insert `v` at index `k`. -/
def specInsert (l : List Int) (k : Nat) (v : Int) : List Int := l.take k ++ v :: l.drop k

/-- Reference list: one operation of a history (insert at index `pos`, erase
index `pos`). -/
def specStep (l : List Int) : Op → List Int
  | .insert pos v => specInsert l pos.toNat v
  | .removeAt pos => l.eraseIdx pos.toNat

/-- Reference list: a whole history. -/
def specRun : List Int → List Op → List Int
  | l, [] => l
  | l, op :: ops => specRun (specStep l op) ops

/-- The history that appends the values `0, 1, .., n-1` in turn. -/
def appends (n : Nat) : List Op := (List.range n).map (fun i => Op.insert i i)

/-- The offset `get` and `removeAt` use inside the located block: `off` clamped to
the block's last valid slot (`if (off >= blk->cnt) off = blk->cnt - 1`). -/
def clampOff (blk : Block) (off : Int) : Int := if off ≥ blk.cnt then blk.cnt - 1 else off

/-- The values `0, 1, .., n-1` as payloads. -/
def iota (n : Nat) : List Int := (List.range n).map (fun i => (i : Int))

/-- The state after 65 appends: two blocks, of 32 and 33 nodes. -/
def twoBlockState : FastList := (runOps createList (appends 65)).getD createList

/-- Block 0 of `twoBlockState`. -/
def twoBlockFirst : Block := (twoBlockState.used[0]?).getD zeroBlock

/-- Block 1 of `twoBlockState`. -/
def twoBlockSecond : Block := (twoBlockState.used[1]?).getD zeroBlock

end FastLinkedList
namespace FastLinkedList

/-! ## Further definitions: appends, call histories with observations, the merge
policy as the specification words it, and concrete states -/

/-- The loop of `build_list` in the test driver: append each value in turn with
`insert(list, list->size, v)` (the values come from `rand()`, so they are a
parameter here). -/
def appendAll : FastList → List Int → Option FastList
  | L, [] => some L
  | L, v :: vs => (insert L L.size v).bind (fun L1 => appendAll L1 vs)

/-- `build_list`: `createList()` followed by the appends. -/
def build_list (vs : List Int) : Option FastList := appendAll createList vs

/-- A call of the public interface, `get` included. -/
inductive Call where
  | insert (pos value : Int)
  | removeAt (pos : Int)
  | get (pos : Int)
deriving DecidableEq, Repr

/-- What is observed after a call: the value returned (`none` for `insert`, which
returns nothing), the size and the forward traversal. -/
structure Obs where
  ret : Option Int
  size : Int
  trav : List Int
deriving DecidableEq, Repr

/-- One in-range call on the list, with the value it returns; `none` when the
position is out of range or the call performs an undefined memory access. -/
def callStep (L : FastList) : Call → Option (Option Int × FastList)
  | .insert pos v =>
    if 0 ≤ pos ∧ pos ≤ L.size then (insert L pos v).map (fun L1 => (none, L1)) else none
  | .removeAt pos =>
    if 0 ≤ pos ∧ pos < L.size then (removeAt L pos).map (fun p => (some p.1, p.2)) else none
  | .get pos =>
    if 0 ≤ pos ∧ pos < L.size then (get L pos).map (fun r => (some r, L)) else none

/-- A sequence of in-range calls, with the observation after each of them. -/
def runCalls : FastList → List Call → Option (List Obs)
  | _, [] => some []
  | L, c :: cs =>
    match callStep L c with
    | none => none
    | some (r, L1) =>
      match traverse L1, runCalls L1 cs with
      | some t, some rest => some (⟨r, L1.size, t⟩ :: rest)
      | _, _ => none

/-- Reference list: one call, with the value it returns. -/
def refStep (l : List Int) : Call → Option Int × List Int
  | .insert pos v => (none, specInsert l pos.toNat v)
  | .removeAt pos => (l[pos.toNat]?, l.eraseIdx pos.toNat)
  | .get pos => (l[pos.toNat]?, l)

/-- Reference list: the observations of a sequence of calls. -/
def refCalls : List Int → List Call → List Obs
  | _, [] => []
  | l, c :: cs =>
    ⟨(refStep l c).1, ((refStep l c).2.length : Int), (refStep l c).2⟩ ::
      refCalls (refStep l c).2 cs

/-- The call is in range on a list of the given length. -/
def inRange (n : Int) : Call → Bool
  | .insert pos _ => decide (0 ≤ pos ∧ pos ≤ n)
  | .removeAt pos => decide (0 ≤ pos ∧ pos < n)
  | .get pos => decide (0 ≤ pos ∧ pos < n)

/-- Every call of the history is in range and the size never exceeds `B`. -/
def smallHistory : List Int → List Call → Bool
  | _, [] => true
  | l, c :: cs =>
    inRange (l.length : Int) c && decide (((refStep l c).2.length : Int) ≤ B) &&
      smallHistory (refStep l c).2 cs

/-- The merge step as the specification words it: try to merge the located block
with its left neighbour, then try to merge the block that now holds the located
block's references (block `b - 1` if the first merge happened, block `b`
otherwise) with its right neighbour.  This definition follows the words of the
specification, for comparison with `rebalance`, which follows the code. -/
def rebalancePolicy (L : FastList) (b : Int) : Option FastList := do
  let L2 ← (if b > 0 then try_merge L (b - 1) else some L)
  try_merge L2 (if L2.nBlocks < L.nBlocks then b - 1 else b)

/-- The function `removeAt` with the merge step replaced by `rebalancePolicy`,
for comparison with `removeAt`, which follows the code. -/
def removeAtPolicy (L : FastList) (pos : Int) : Option (Int × FastList) :=
  if pos < 0 ∨ pos ≥ L.size then some (-1, L)
  else do
    let (b0, off0) := locate L pos
    let b := if b0 < 0 then 0 else b0
    let (val, L1) ← unlinkFromBlock L pos b off0
    let L2 ← rebalancePolicy L1 b
    some (val, L2)

/-- The history of 96 appends followed by 31 calls `removeAt(L, 0)`. -/
def shrinkHistory : List Op := appends 96 ++ List.replicate 31 (Op.removeAt 0)

/-- The state after 97 appends: three blocks, of 32, 32 and 33 nodes. -/
def threeBlockState : FastList := (runOps createList (appends 97)).getD createList

/-- The calls of the three-element scenario. -/
def scenario : List Call :=
  [Call.insert 0 10, Call.insert 1 20, Call.insert 1 15, Call.get 1, Call.removeAt 0]

end FastLinkedList
namespace FastLinkedList

/-! ## Array access -/

theorem rd_of_eq {α : Type} (arr : List α) {i : Int} (n : Nat) (h : i = (n : Int)) :
    rd arr i = arr[n]? := by
  subst h; simp [rd]

theorem rd_neg {α : Type} (arr : List α) {i : Int} (h : i < 0) : rd arr i = none := by
  simp [rd]; omega

theorem rd_some_of_eq {α : Type} (arr : List α) {i : Int} (n : Nat) (h : i = (n : Int))
    (hn : n < arr.length) : rd arr i = some arr[n] := by
  rw [rd_of_eq arr n h, List.getElem?_eq_getElem hn]

theorem rd_eq_some {α : Type} {arr : List α} {i : Int} {x : α} (h : rd arr i = some x) :
    ∃ n : Nat, i = (n : Int) ∧ arr[n]? = some x := by
  unfold rd at h
  split at h
  · exact ⟨i.toNat, by omega, h⟩
  · cases h

theorem wr_of_eq {α : Type} (arr : List α) {i : Int} (n : Nat) (x : α) (h : i = (n : Int))
    (hn : n < arr.length) : wr arr i x = some (arr.set n x) := by
  subst h; simp [wr, hn]

theorem wr_eq_some {α : Type} {arr arr1 : List α} {i : Int} {x : α} (h : wr arr i x = some arr1) :
    ∃ n : Nat, i = (n : Int) ∧ n < arr.length ∧ arr1 = arr.set n x := by
  unfold wr at h
  split at h
  · rename_i hh
    refine ⟨i.toNat, by omega, by omega, ?_⟩
    cases h; rfl
  · cases h

/-! ## Heap access -/

theorem load_lt {m : Heap} {p : Nat} {n : Node} (h : load m p = some n) : p < m.length := by
  unfold load at h
  split at h
  · rename_i hh
    exact (List.getElem?_eq_some_iff.mp hh).1
  · cases h

theorem load_eq_some_iff {m : Heap} {p : Nat} {n : Node} :
    load m p = some n ↔ m[p]? = some (some n) := by
  unfold load
  split
  · rename_i hh; simp [hh]
  · rename_i hh
    constructor
    · intro h; cases h
    · intro h; exact absurd h (hh n)

theorem load_set (m : Heap) (p a : Nat) (c : Option Node) (hp : p < m.length) :
    load (m.set p c) a = if a = p then c else load m a := by
  unfold load
  by_cases h : a = p
  · subst h
    simp [hp]
    cases c <;> rfl
  · have h2 : ¬ p = a := fun e => h e.symm
    simp [h, List.getElem?_set, h2]

theorem load_push (m : Heap) (c : Option Node) (a : Nat) :
    load (m ++ [c]) a = if a = m.length then c else load m a := by
  unfold load
  by_cases h : a = m.length
  · subst h
    simp
    cases c <;> rfl
  · simp only [h, if_false]
    by_cases h2 : a < m.length
    · rw [List.getElem?_append_left h2]
    · have h3 : m.length < a := by omega
      have e1 : (m ++ [c])[a]? = none := by
        apply List.getElem?_eq_none; simp; omega
      have e2 : m[a]? = none := by
        apply List.getElem?_eq_none; omega
      rw [e1, e2]

theorem setNext_eq {m : Heap} {p : Nat} {n : Node} (q : Nat) (h : load m p = some n) :
    setNext m p q = some (m.set p (some { n with next := q })) := by
  simp [setNext, h]

theorem setNext_some {m m1 : Heap} {p q : Nat} (h : setNext m p q = some m1) :
    ∃ n, load m p = some n ∧ m1 = m.set p (some { n with next := q }) := by
  unfold setNext at h
  split at h
  · rename_i n hn
    exact ⟨n, hn, by cases h; rfl⟩
  · cases h

theorem free_some {m m1 : Heap} {p : Nat} (h : free m p = some m1) :
    ∃ n, load m p = some n ∧ m1 = m.set p none := by
  unfold free at h
  split at h
  · rename_i n hn
    exact ⟨n, hn, by cases h; rfl⟩
  · cases h

theorem free_eq {m : Heap} {p : Nat} {n : Node} (h : load m p = some n) :
    free m p = some (m.set p none) := by
  simp [free, h]

theorem dataAt_eq {m : Heap} {p : Nat} {n : Node} (h : load m p = some n) :
    dataAt m p = n.data := by
  simp [dataAt, h]

end FastLinkedList
namespace FastLinkedList

/-! ## Chain segments -/

theorem lseg_nil {m : Heap} {p q : Nat} : lseg m [] p q ↔ p = q := Iff.rfl

theorem lseg_cons {m : Heap} {a : Nat} {t : List Nat} {p q : Nat} :
    lseg m (a :: t) p q ↔ p = a ∧ ∃ n, load m a = some n ∧ lseg m t n.next q := Iff.rfl

theorem lseg_head {m : Heap} {l : List Nat} {p q : Nat} (h : lseg m l p q) :
    p = l.headD q := by
  cases l with
  | nil => exact h
  | cons a t => exact h.1

theorem lseg_append {m : Heap} {l1 l2 : List Nat} {p q : Nat} :
    lseg m (l1 ++ l2) p q ↔ ∃ r, lseg m l1 p r ∧ lseg m l2 r q := by
  induction l1 generalizing p with
  | nil =>
    simp only [List.nil_append, lseg_nil]
    constructor
    · intro h; exact ⟨p, rfl, h⟩
    · rintro ⟨r, rfl, h⟩; exact h
  | cons a t ih =>
    simp only [List.cons_append, lseg_cons]
    constructor
    · rintro ⟨hp, n, hn, h⟩
      obtain ⟨r, h1, h2⟩ := ih.mp h
      exact ⟨r, ⟨hp, n, hn, h1⟩, h2⟩
    · rintro ⟨r, ⟨hp, n, hn, h1⟩, h2⟩
      exact ⟨hp, n, hn, ih.mpr ⟨r, h1, h2⟩⟩

theorem lseg_append_head {m : Heap} {l1 l2 : List Nat} {p q : Nat} :
    lseg m (l1 ++ l2) p q ↔ lseg m l1 p (l2.headD q) ∧ lseg m l2 (l2.headD q) q := by
  rw [lseg_append]
  constructor
  · rintro ⟨r, h1, h2⟩
    have := lseg_head h2
    subst this
    exact ⟨h1, h2⟩
  · rintro ⟨h1, h2⟩
    exact ⟨_, h1, h2⟩

theorem lseg_snoc {m : Heap} {l : List Nat} {a p q : Nat} :
    lseg m (l ++ [a]) p q ↔ lseg m l p a ∧ ∃ n, load m a = some n ∧ n.next = q := by
  rw [lseg_append]
  constructor
  · rintro ⟨r, h1, h2, n, hn, h3⟩
    subst h2
    exact ⟨h1, n, hn, h3⟩
  · rintro ⟨h1, n, hn, h3⟩
    exact ⟨a, h1, rfl, n, hn, h3⟩

theorem lseg_frame {m m1 : Heap} {l : List Nat} {p q : Nat}
    (hf : ∀ a ∈ l, load m1 a = load m a) (h : lseg m l p q) : lseg m1 l p q := by
  induction l generalizing p with
  | nil => exact h
  | cons a t ih =>
    obtain ⟨hp, n, hn, ht⟩ := h
    refine ⟨hp, n, ?_, ih (fun b hb => hf b (List.mem_cons_of_mem _ hb)) ht⟩
    rw [hf a (List.mem_cons_self _ _)]; exact hn

theorem lseg_live {m : Heap} {l : List Nat} {p q a : Nat} (h : lseg m l p q) (ha : a ∈ l) :
    ∃ n, load m a = some n := by
  induction l generalizing p with
  | nil => cases ha
  | cons b t ih =>
    obtain ⟨_, n, hn, ht⟩ := h
    rcases List.mem_cons.mp ha with rfl | h2
    · exact ⟨n, hn⟩
    · exact ih ht h2

theorem lseg_unique {m : Heap} (h0 : load m 0 = none) {l l1 : List Nat} {p : Nat}
    (h : lseg m l p 0) (h1 : lseg m l1 p 0) : l = l1 := by
  induction l generalizing p l1 with
  | nil =>
    cases l1 with
    | nil => rfl
    | cons b t =>
      obtain ⟨hp, n, hn, _⟩ := h1
      have : p = 0 := h
      subst this; subst hp
      rw [h0] at hn; cases hn
  | cons a t ih =>
    obtain ⟨hp, n, hn, ht⟩ := h
    cases l1 with
    | nil =>
      have : p = 0 := h1
      subst this; subst hp
      rw [h0] at hn; cases hn
    | cons b t1 =>
      obtain ⟨hp1, n1, hn1, ht1⟩ := h1
      subst hp; subst hp1
      rw [hn] at hn1; cases hn1
      rw [ih ht ht1]

theorem lseg_nodup {m : Heap} (h0 : load m 0 = none) {l : List Nat} {p : Nat}
    (h : lseg m l p 0) : l.Nodup := by
  induction l generalizing p with
  | nil => exact List.nodup_nil
  | cons a t ih =>
    obtain ⟨hp, n, hn, ht⟩ := h
    refine List.nodup_cons.mpr ⟨?_, ih ht⟩
    intro hmem
    obtain ⟨t1, t2, rfl⟩ := List.append_of_mem hmem
    obtain ⟨r, _, h2⟩ := lseg_append.mp ht
    have hr : r = a := h2.1
    subst hr
    have hfull : lseg m (r :: (t1 ++ r :: t2)) r 0 := ⟨rfl, n, hn, ht⟩
    have := lseg_unique h0 hfull h2
    have hl := congrArg List.length this
    simp at hl
    omega

theorem lseg_ne_zero {m : Heap} (h0 : load m 0 = none) {l : List Nat} {p q a : Nat}
    (h : lseg m l p q) (ha : a ∈ l) : a ≠ 0 := by
  rintro rfl
  obtain ⟨n, hn⟩ := lseg_live h ha
  rw [h0] at hn; cases hn

theorem lseg_lt {m : Heap} {l : List Nat} {p q a : Nat}
    (h : lseg m l p q) (ha : a ∈ l) : a < m.length := by
  obtain ⟨n, hn⟩ := lseg_live h ha
  exact load_lt hn

/-- A chain to `NULL` has fewer nodes than the heap has cells. -/
theorem lseg_length_lt {m : Heap} (h0 : load m 0 = none) {l : List Nat} {p : Nat}
    (h : lseg m l p 0) : l.length < m.length ∨ (l = [] ∧ m = []) := by
  by_cases hm : m = []
  · right
    refine ⟨?_, hm⟩
    cases l with
    | nil => rfl
    | cons a t =>
      have := lseg_lt h (List.mem_cons_self a t)
      subst hm; simp at this
  · left
    have hnd := lseg_nodup h0 h
    have hsub : l.toFinset ⊆ (Finset.range m.length).erase 0 := by
      intro a ha
      rw [List.mem_toFinset] at ha
      rw [Finset.mem_erase, Finset.mem_range]
      exact ⟨lseg_ne_zero h0 h ha, lseg_lt h ha⟩
    have hc := Finset.card_le_card hsub
    rw [List.toFinset_card_of_nodup hnd] at hc
    have hpos : 0 < m.length := List.length_pos.mpr hm
    rw [Finset.card_erase_of_mem (Finset.mem_range.mpr hpos), Finset.card_range] at hc
    omega

theorem lseg_walk {m : Heap} (h0 : load m 0 = none) {l : List Nat} {p : Nat}
    (h : lseg m l p 0) (fuel : Nat) (hf : l.length ≤ fuel) : walk m fuel p = some l := by
  induction l generalizing p fuel with
  | nil =>
    have : p = 0 := h
    subst this
    cases fuel <;> simp [walk]
  | cons a t ih =>
    obtain ⟨hp, n, hn, ht⟩ := h
    subst hp
    have hne : p ≠ 0 := by
      rintro rfl
      rw [h0] at hn; cases hn
    cases fuel with
    | zero => simp at hf
    | succ f =>
      have := ih ht f (by simpa using hf)
      simp [walk, hne, hn, this]

theorem lseg_chainNodes {L : FastList} (h0 : load L.mem 0 = none) {l : List Nat}
    (h : lseg L.mem l L.head 0) : chainNodes L = some l := by
  unfold chainNodes
  apply lseg_walk h0 h
  rcases lseg_length_lt h0 h with h1 | ⟨h1, _⟩
  · omega
  · subst h1; simp

end FastLinkedList
namespace FastLinkedList

/-! ## The array loops -/

theorem getElem?_mid {α : Type} (A B : List α) (x : α) (n : Nat) (h : n = A.length) :
    (A ++ x :: B)[n]? = some x := by
  subst h
  induction A with
  | nil => simp
  | cons a t ih => simpa using ih

theorem set_mid {α : Type} (A B : List α) (x y : α) (n : Nat) (h : n = A.length) :
    (A ++ x :: B).set n y = A ++ y :: B := by
  subst h; simp

theorem rd_mid {α : Type} (A B : List α) (x : α) {i : Int} (h : i = (A.length : Int)) :
    rd (A ++ x :: B) i = some x := by
  rw [rd_of_eq _ A.length h, getElem?_mid A B x _ rfl]

theorem wr_mid {α : Type} (A B : List α) (x y : α) {i : Int} (h : i = (A.length : Int)) :
    wr (A ++ x :: B) i y = some (A ++ y :: B) := by
  rw [wr_of_eq _ A.length y h (by simp), set_mid A B x y _ rfl]

/-- The right shift moves the segment `seg` one slot up, over the slot `y`. -/
theorem shiftRightLoop_eq {α : Type} (pre seg post : List α) (y : α) {i : Int}
    (hi : i = ((pre.length + seg.length : Nat) : Int)) :
    shiftRightLoop seg.length i (pre ++ seg ++ y :: post) =
      some (pre ++ seg.headD y :: seg ++ post) := by
  induction seg using List.reverseRecOn generalizing y post i with
  | nil => simp [shiftRightLoop]
  | append_singleton s z ih =>
    have hlen : (s ++ [z]).length = s.length + 1 := by simp
    rw [hlen]
    have e1 : pre ++ (s ++ [z]) ++ y :: post = (pre ++ s) ++ z :: (y :: post) := by simp
    have h1 : rd (pre ++ (s ++ [z]) ++ y :: post) (i - 1) = some z := by
      rw [e1]; apply rd_mid; simp; omega
    have e2 : pre ++ (s ++ [z]) ++ y :: post = (pre ++ s ++ [z]) ++ y :: post := by simp
    have h2 : wr (pre ++ (s ++ [z]) ++ y :: post) i z = some ((pre ++ s ++ [z]) ++ z :: post) := by
      rw [e2]; apply wr_mid; simp; omega
    simp only [shiftRightLoop, h1, h2, Option.bind_eq_bind, Option.some_bind]
    have e3 : (pre ++ s ++ [z]) ++ z :: post = pre ++ s ++ z :: (z :: post) := by simp
    rw [e3, ih (z :: post) z (by simp at hi ⊢; omega)]
    congr 1
    cases s <;> simp

/-- The left shift moves the segment `seg` one slot down, over the slot `x`. -/
theorem shiftLeftLoop_eq {α : Type} (pre seg post : List α) (x : α) {i : Int}
    (hi : i = (pre.length : Int)) :
    shiftLeftLoop seg.length i (pre ++ x :: seg ++ post) =
      some (pre ++ seg ++ seg.getLastD x :: post) := by
  induction seg generalizing pre x i with
  | nil => simp [shiftLeftLoop]
  | cons z s ih =>
    have e1 : pre ++ x :: (z :: s) ++ post = (pre ++ [x]) ++ z :: (s ++ post) := by simp
    have h1 : rd (pre ++ x :: (z :: s) ++ post) (i + 1) = some z := by
      rw [e1]; apply rd_mid; simp; omega
    have e2 : pre ++ x :: (z :: s) ++ post = pre ++ x :: (z :: s ++ post) := by simp
    have h2 : wr (pre ++ x :: (z :: s) ++ post) i z = some (pre ++ z :: (z :: s ++ post)) := by
      rw [e2]; apply wr_mid; exact hi
    simp only [List.length_cons, shiftLeftLoop, h1, h2, Option.bind_eq_bind, Option.some_bind]
    have e3 : pre ++ z :: (z :: s ++ post) = (pre ++ [z]) ++ z :: s ++ post := by simp
    rw [e3, ih (pre ++ [z]) z (by simp; omega)]
    cases s with
    | nil => simp
    | cons a t =>
      have h3 : (a :: t).getLast? = some ((a :: t).getLast (List.cons_ne_nil a t)) :=
        List.getLast?_eq_getLast _ _
      simp [List.getLastD_cons, h3]

/-- The copy loop overwrites the segment `old` of the destination by the segment
`seg` of the source. -/
theorem copyLoop_eq (s1 seg s2 d1 old d2 : List Nat) (sOff dOff : Int) {i : Int}
    (hs : sOff + i = (s1.length : Int)) (hd : dOff + i = (d1.length : Int))
    (hlen : old.length = seg.length) :
    copyLoop seg.length i (s1 ++ seg ++ s2) sOff (d1 ++ old ++ d2) dOff =
      some (d1 ++ seg ++ d2) := by
  induction seg generalizing s1 d1 old i with
  | nil =>
    cases old with
    | nil => simp [copyLoop]
    | cons a t => simp at hlen
  | cons z s ih =>
    cases old with
    | nil => simp at hlen
    | cons o t =>
      have e1 : s1 ++ z :: s ++ s2 = s1 ++ z :: (s ++ s2) := by simp
      have h1 : rd (s1 ++ z :: s ++ s2) (sOff + i) = some z := by
        rw [e1]; exact rd_mid _ _ _ hs
      have e2 : d1 ++ o :: t ++ d2 = d1 ++ o :: (t ++ d2) := by simp
      have h2 : wr (d1 ++ o :: t ++ d2) (dOff + i) z = some (d1 ++ z :: (t ++ d2)) := by
        rw [e2]; exact wr_mid _ _ _ _ hd
      simp only [List.length_cons, copyLoop, h1, h2, Option.bind_eq_bind, Option.some_bind]
      have e3 : d1 ++ z :: (t ++ d2) = (d1 ++ [z]) ++ t ++ d2 := by simp
      have e4 : s1 ++ z :: s ++ s2 = (s1 ++ [z]) ++ s ++ s2 := by simp
      rw [e3, e4, ih (s1 ++ [z]) (d1 ++ [z]) t (by simp; omega) (by simp; omega)
        (by simpa using hlen)]
      simp

end FastLinkedList
namespace FastLinkedList

/-! ## Heaps that differ in `next` fields only -/

theorem SameData.refl (m : Heap) : SameData m m := ⟨rfl, fun _ => rfl⟩

theorem SameData.trans {m m1 m2 : Heap} (h1 : SameData m m1) (h2 : SameData m1 m2) :
    SameData m m2 :=
  ⟨h2.1.trans h1.1, fun a => (h2.2 a).trans (h1.2 a)⟩

theorem SameData.live {m m1 : Heap} (h : SameData m m1) {a : Nat} {n : Node}
    (hn : load m a = some n) : ∃ n1, load m1 a = some n1 ∧ n1.data = n.data := by
  have := h.2 a
  rw [hn] at this
  cases h1 : load m1 a with
  | none => rw [h1] at this; cases this
  | some n1 =>
    rw [h1] at this
    exact ⟨n1, rfl, by simpa using this⟩

theorem SameData.dead {m m1 : Heap} (h : SameData m m1) {a : Nat}
    (hn : load m a = none) : load m1 a = none := by
  have := h.2 a
  rw [hn] at this
  cases h1 : load m1 a with
  | none => rfl
  | some n1 => rw [h1] at this; cases this

theorem SameData.dataAt {m m1 : Heap} (h : SameData m m1) (a : Nat) :
    dataAt m1 a = dataAt m a := by
  have := h.2 a
  unfold FastLinkedList.dataAt
  cases h1 : load m1 a <;> cases h2 : load m a <;> rw [h1, h2] at this <;> simp at this ⊢
  exact this

theorem SameData.lives {m m1 : Heap} (h : SameData m m1) {l : List Nat}
    (hl : ∀ a ∈ l, ∃ n, load m a = some n) : ∀ a ∈ l, ∃ n, load m1 a = some n := by
  intro a ha
  obtain ⟨n, hn⟩ := hl a ha
  obtain ⟨n1, h1, _⟩ := h.live hn
  exact ⟨n1, h1⟩

theorem setNext_spec {m : Heap} {p : Nat} {n : Node} (q : Nat) (h : load m p = some n) :
    ∃ m1, setNext m p q = some m1 ∧ SameData m m1 ∧
      (∀ a, a ≠ p → load m1 a = load m a) ∧
      load m1 p = some { data := n.data, next := q } := by
  refine ⟨_, setNext_eq q h, ⟨by simp, ?_⟩, ?_, ?_⟩
  · intro a
    rw [load_set _ _ _ _ (load_lt h)]
    by_cases e : a = p
    · subst e; simp [h]
    · simp [e]
  · intro a e
    rw [load_set _ _ _ _ (load_lt h)]
    simp [e]
  · rw [load_set _ _ _ _ (load_lt h)]
    simp

/-! ## relink_local -/

theorem relinkLoop_spec (pre seg post : List Nat) (m : Heap) {i : Int}
    (hi : i = (pre.length : Int)) (hne : seg ≠ []) (hnd : seg.Nodup)
    (hlive : ∀ a ∈ seg, ∃ n, load m a = some n) :
    ∃ m1, relinkLoop (pre ++ seg ++ post) (seg.length - 1) i m = some m1 ∧ SameData m m1 ∧
      (∀ a, a ∉ seg.dropLast → load m1 a = load m a) ∧
      lseg m1 seg.dropLast (seg.head hne) (seg.getLast hne) := by
  induction seg generalizing pre m i with
  | nil => exact absurd rfl hne
  | cons a t ih =>
    cases t with
    | nil =>
      refine ⟨m, by simp [relinkLoop], SameData.refl m, fun _ _ => rfl, ?_⟩
      simp [lseg]
    | cons b t =>
      have e1 : pre ++ a :: b :: t ++ post = pre ++ a :: (b :: t ++ post) := by simp
      have h1 : rd (pre ++ a :: b :: t ++ post) i = some a := by
        rw [e1]; exact rd_mid _ _ _ hi
      have e2 : pre ++ a :: b :: t ++ post = (pre ++ [a]) ++ b :: (t ++ post) := by simp
      have h2 : rd (pre ++ a :: b :: t ++ post) (i + 1) = some b := by
        rw [e2]; apply rd_mid; simp; omega
      obtain ⟨na, hna⟩ := hlive a (List.mem_cons_self _ _)
      obtain ⟨m1, hs, hsd, hfr, hla⟩ := setNext_spec b hna
      have hnd2 : (b :: t).Nodup := (List.nodup_cons.mp hnd).2
      have hlive2 : ∀ c ∈ b :: t, ∃ n, load m1 c = some n :=
        hsd.lives (fun c hc => hlive c (List.mem_cons_of_mem _ hc))
      obtain ⟨m2, hr, hsd2, hfr2, hseg⟩ :=
        ih (pre ++ [a]) m1 (i := i + 1) (by simp; omega) (List.cons_ne_nil b t) hnd2 hlive2
      have e3 : pre ++ a :: b :: t ++ post = pre ++ [a] ++ b :: t ++ post := by simp
      have hk : (a :: b :: t).length - 1 = ((b :: t).length - 1) + 1 := by simp
      refine ⟨m2, ?_, hsd.trans hsd2, ?_, ?_⟩
      · rw [hk]
        simp only [relinkLoop, h1, h2, hs, Option.bind_eq_bind, Option.some_bind]
        rw [e3]; exact hr
      · intro c hc
        have hc1 : c ≠ a := by
          rintro rfl; exact hc (by simp [List.dropLast])
        have hc2 : c ∉ (b :: t).dropLast := by
          intro h; exact hc (by simp [List.dropLast_cons₂] at h ⊢; right; exact h)
        rw [hfr2 c hc2, hfr c hc1]
      · have ha2 : a ∉ (b :: t).dropLast := by
          intro h
          exact (List.nodup_cons.mp hnd).1 (List.dropLast_subset _ h)
        have : (a :: b :: t).dropLast = a :: (b :: t).dropLast := by simp [List.dropLast]
        rw [this]
        refine ⟨rfl, _, (hfr2 a ha2).trans hla, ?_⟩
        simpa using hseg

theorem relink_local_spec (blk : Block) (R post : List Nat) (nxt : Nat) (m : Heap)
    (hitems : blk.items = R ++ post) (hcnt : blk.cnt = (R.length : Int))
    (hnd : R.Nodup) (hlive : ∀ a ∈ R, ∃ n, load m a = some n) :
    ∃ m1, relink_local blk nxt m = some m1 ∧ SameData m m1 ∧
      (∀ a, a ∉ R → load m1 a = load m a) ∧ lseg m1 R (R.headD nxt) nxt := by
  by_cases hne : R = []
  · subst hne
    refine ⟨m, ?_, SameData.refl m, fun _ _ => rfl, rfl⟩
    simp [relink_local, hcnt, relinkLoop]
  · obtain ⟨m1, hr, hsd, hfr, hseg⟩ := relinkLoop_spec [] R post m (i := 0) rfl hne hnd hlive
    have hpos : 0 < R.length := List.length_pos.mpr hne
    have hlast : R = R.dropLast ++ [R.getLast hne] := (List.dropLast_append_getLast hne).symm
    have hmem : R.getLast hne ∈ R := List.getLast_mem hne
    obtain ⟨n1, hn1⟩ := hsd.lives hlive _ hmem
    obtain ⟨m2, hs, hsd2, hfr2, hl2⟩ := setNext_spec nxt hn1
    have hk : (blk.cnt - 1).toNat = R.length - 1 := by omega
    have hrd : rd blk.items (blk.cnt - 1) = some (R.getLast hne) := by
      rw [hitems]
      have e : R ++ post = R.dropLast ++ R.getLast hne :: post := by
        conv => lhs; rw [hlast]
        simp
      rw [e]; apply rd_mid
      simp; omega
    have hnotin : R.getLast hne ∉ R.dropLast := by
      intro h
      have hnd2 := hnd
      rw [hlast] at hnd2
      exact (List.nodup_append.mp hnd2).2.2 h (by simp)
    refine ⟨m2, ?_, hsd.trans hsd2, ?_, ?_⟩
    · have hc : blk.cnt > 0 := by omega
      simp only [relink_local, hk, hitems, Option.bind_eq_bind]
      simp only [List.nil_append] at hr
      rw [hr]
      simp only [Option.some_bind, hc, if_true]
      rw [← hitems, hrd]
      simpa using hs
    · intro a ha
      have ha1 : a ≠ R.getLast hne := by rintro rfl; exact ha hmem
      have ha2 : a ∉ R.dropLast := fun h => ha (List.dropLast_subset _ h)
      rw [hfr2 a ha1, hfr a ha2]
    · have hh : R.headD nxt = R.head hne := by
        cases R with
        | nil => exact absurd rfl hne
        | cons a t => rfl
      rw [hh]
      conv => arg 2; rw [hlast]
      rw [lseg_snoc]
      refine ⟨lseg_frame (fun a ha => hfr2 a ?_) hseg, _, hl2, rfl⟩
      rintro rfl; exact hnotin ha

end FastLinkedList
namespace FastLinkedList

/-! ## Blocks and block arrays as explicit lists -/

theorem refs_mk (R post : List Nat) : Block.refs { items := R ++ post, cnt := (R.length : Int) } = R := by
  simp [Block.refs]

theorem Block.refs_length {blk : Block} (h0 : 0 ≤ blk.cnt) (h1 : blk.cnt ≤ (blk.items.length : Int)) :
    (blk.refs.length : Int) = blk.cnt := by
  simp [Block.refs]; omega

theorem Block.eq_mk {blk : Block} (h0 : 0 ≤ blk.cnt) (h1 : blk.cnt ≤ (blk.items.length : Int)) :
    blk = { items := blk.refs ++ blk.items.drop blk.cnt.toNat, cnt := (blk.refs.length : Int) } := by
  cases blk with
  | mk items cnt =>
    simp only [Block.refs, List.take_append_drop]
    congr 1
    simp at h0 h1 ⊢
    omega

theorem used_of_eq {L : FastList} {Ub rest : List Block} (hb : L.blocks = Ub ++ rest)
    (hn : L.nBlocks = (Ub.length : Int)) : L.used = Ub := by
  simp [FastList.used, hb, hn]

theorem Rep.used_length {L : FastList} (h : Rep L) : (L.used.length : Int) = L.nBlocks := by
  have := h.cap_len
  have := h.nb_nonneg
  have := h.nb_le
  simp [FastList.used]; omega

theorem Rep.blocks_eq {L : FastList} (_h : Rep L) :
    L.blocks = L.used ++ L.blocks.drop L.nBlocks.toNat := by
  simp [FastList.used]

theorem Rep.items_le {L : FastList} (h : Rep L) {blk : Block} (hb : blk ∈ L.used) :
    blk.items.length = 64 ∧ 0 ≤ blk.cnt ∧ blk.cnt ≤ 64 := by
  refine ⟨h.items_len blk (List.mem_of_mem_take hb), ?_⟩
  have := h.cnt_bound blk hb
  simpa [B] using this

theorem Rep.sum_cnt {L : FastList} (h : Rep L) :
    (L.used.map Block.cnt).sum = (L.refs.length : Int) := by
  have key : ∀ Ub : List Block, (∀ blk ∈ Ub, blk.items.length = 64 ∧ 0 ≤ blk.cnt ∧ blk.cnt ≤ 64) →
      (Ub.map Block.cnt).sum = (((Ub.map Block.refs).flatten.length : Nat) : Int) := by
    intro Ub
    induction Ub with
    | nil => intro _; simp
    | cons blk t ih =>
      intro hall
      have h1 := hall blk (List.mem_cons_self _ _)
      have h2 := ih (fun b hb => hall b (List.mem_cons_of_mem _ hb))
      have h3 := Block.refs_length h1.2.1 (by omega)
      simp only [List.map_cons, List.sum_cons, List.flatten_cons, List.length_append, Nat.cast_add]
      rw [h2, h3]
  exact key L.used (fun blk hb => h.items_le hb)

theorem flatten_map_split (Pb Sb : List Block) (blk : Block) :
    ((Pb ++ blk :: Sb).map Block.refs).flatten =
      (Pb.map Block.refs).flatten ++ blk.refs ++ (Sb.map Block.refs).flatten := by
  simp

theorem headD_flatten_cons (blk : Block) (Sb : List Block) (hne : blk.refs ≠ []) :
    (((blk :: Sb).map Block.refs).flatten).headD 0 = blk.refs.headD 0 := by
  cases h : blk.refs with
  | nil => exact absurd h hne
  | cons a t => simp [h]

theorem headD_append {α : Type} (l1 l2 : List α) (d : α) :
    (l1 ++ l2).headD d = l1.headD (l2.headD d) := by
  cases l1 <;> simp

/-- The head of the block after position `|Pb|`, when the blocks in use that
follow are non-empty. -/
theorem headOfBlock_eq (Pb Sb rest : List Block) (nB i : Int)
    (hi : i = (Pb.length : Int)) (hn : nB = ((Pb.length + Sb.length : Nat) : Int))
    (hSb : ∀ blk ∈ Sb, 0 < blk.cnt ∧ blk.cnt ≤ (blk.items.length : Int)) :
    headOfBlock (Pb ++ Sb ++ rest) nB i = some (((Sb.map Block.refs).flatten).headD 0) := by
  cases Sb with
  | nil =>
    have : ¬ i < nB := by simp at hn; omega
    simp [headOfBlock, this]
  | cons blk t =>
    have h1 : i < nB := by simp at hn; omega
    have h2 : rd (Pb ++ blk :: t ++ rest) i = some blk := by
      have e : Pb ++ blk :: t ++ rest = Pb ++ blk :: (t ++ rest) := by simp
      rw [e]; exact rd_mid _ _ _ hi
    obtain ⟨hc, hl⟩ := hSb blk (List.mem_cons_self _ _)
    have hne : blk.refs ≠ [] := by
      intro h
      have := Block.refs_length (le_of_lt hc) hl
      rw [h] at this
      simp at this; omega
    rw [headD_flatten_cons blk t hne]
    simp only [headOfBlock, h1, if_true, h2, Option.bind_eq_bind, Option.some_bind, gt_iff_lt, hc]
    rw [rd_of_eq blk.items 0 (by simp)]
    cases h : blk.refs with
    | nil => exact absurd h hne
    | cons a t =>
      have : blk.items[0]? = some a := by
        have h3 : blk.refs[0]? = some a := by rw [h]; simp
        simp only [Block.refs, List.getElem?_take] at h3
        split at h3
        · exact h3
        · cases h3
      simp [this]

/-! ## Chains after a block has been relinked -/

theorem relink_assemble (blk : Block) (R post P S : List Nat) (m : Heap) (hd : Nat)
    (hitems : blk.items = R ++ post) (hcnt : blk.cnt = (R.length : Int))
    (hnd : R.Nodup) (hlive : ∀ a ∈ R, ∃ n, load m a = some n)
    (hP : lseg m P hd (R.headD (S.headD 0))) (hS : lseg m S (S.headD 0) 0)
    (hPR : ∀ a ∈ P, a ∉ R) (hSR : ∀ a ∈ S, a ∉ R) :
    ∃ m1, relink_local blk (S.headD 0) m = some m1 ∧ SameData m m1 ∧
      (∀ a, a ∉ R → load m1 a = load m a) ∧ lseg m1 (P ++ R ++ S) hd 0 := by
  obtain ⟨m1, hr, hsd, hfr, hseg⟩ := relink_local_spec blk R post (S.headD 0) m hitems hcnt hnd hlive
  refine ⟨m1, hr, hsd, hfr, ?_⟩
  rw [List.append_assoc, lseg_append]
  refine ⟨_, lseg_frame (fun a ha => hfr a (hPR a ha)) hP, ?_⟩
  rw [lseg_append]
  exact ⟨_, hseg, lseg_frame (fun a ha => hfr a (hSR a ha)) hS⟩

/-- Relinking a block of a well-linked chain, to the head of what follows it,
leaves the chain as it is. -/
theorem relink_chain (blk : Block) (R post P S : List Nat) (m : Heap) (hd : Nat)
    (h0 : load m 0 = none)
    (hitems : blk.items = R ++ post) (hcnt : blk.cnt = (R.length : Int))
    (hch : lseg m (P ++ R ++ S) hd 0) :
    ∃ m1, relink_local blk (S.headD 0) m = some m1 ∧ SameData m m1 ∧
      (∀ a, a ∉ R → load m1 a = load m a) ∧ lseg m1 (P ++ R ++ S) hd 0 := by
  have hnd := lseg_nodup h0 hch
  have hnd1 : (P ++ R).Nodup := (List.nodup_append.mp hnd).1
  have hch2 := hch
  rw [List.append_assoc, lseg_append_head, lseg_append_head] at hch2
  obtain ⟨hP, hR, hS⟩ := hch2
  rw [headD_append] at hP
  apply relink_assemble blk R post P S m hd hitems hcnt (List.nodup_append.mp hnd1).2.1
    (fun a ha => lseg_live hR ha) hP hS
  · intro a ha hr
    exact (List.nodup_append.mp hnd1).2.2 ha hr
  · intro a ha hr
    exact (List.nodup_append.mp hnd).2.2 (List.mem_append_right _ hr) ha

end FastLinkedList
namespace FastLinkedList

/-! ## try_merge -/

theorem exists_split_length {α : Type} (l : List α) (k : Nat) (h : k ≤ l.length) :
    ∃ l1 l2, l = l1 ++ l2 ∧ l1.length = k :=
  ⟨l.take k, l.drop k, (List.take_append_drop k l).symm, by simp [h]⟩

theorem getLastD_mem_or {α : Type} (l : List α) (x : α) :
    l.getLastD x ∈ l ∨ l.getLastD x = x := by
  induction l generalizing x with
  | nil => right; rfl
  | cons a t ih =>
    left
    rw [List.getLastD_cons]
    rcases ih a with h | h
    · exact List.mem_cons_of_mem _ h
    · rw [h]; exact List.mem_cons_self _ _

theorem try_merge_none_left (L : FastList) (bIdx : Int) (h : bIdx < 0 ∨ bIdx + 1 ≥ L.nBlocks) :
    try_merge L bIdx = some L := by
  simp [try_merge, h]

/-- A merge that happens, on explicit block lists. -/
theorem try_merge_explicit (L : FastList) (Pb Sb rest : List Block) (RA tA RC tC : List Nat)
    (bIdx : Int)
    (hblocks : L.blocks = Pb ++ { items := RA ++ tA, cnt := (RA.length : Int) } ::
      { items := RC ++ tC, cnt := (RC.length : Int) } :: Sb ++ rest)
    (hnb : L.nBlocks = ((Pb.length + 2 + Sb.length : Nat) : Int))
    (hb : bIdx = (Pb.length : Int))
    (hlenA : (RA ++ tA).length = 64) (hsum : RA.length + RC.length ≤ 64)
    (hSb : ∀ blk ∈ Sb, 0 < blk.cnt ∧ blk.cnt ≤ (blk.items.length : Int))
    (h0 : load L.mem 0 = none)
    (hch : lseg L.mem ((Pb.map Block.refs).flatten ++ (RA ++ RC) ++ (Sb.map Block.refs).flatten)
      L.head 0) :
    ∃ m1 d2 lastB, try_merge L bIdx = some { L with
        blocks := Pb ++ { items := RA ++ RC ++ d2, cnt := ((RA.length + RC.length : Nat) : Int) } ::
          Sb ++ lastB :: rest
        nBlocks := L.nBlocks - 1
        mem := m1 } ∧
      (RA ++ RC ++ d2).length = 64 ∧
      (lastB ∈ Sb ∨ lastB = { items := RC ++ tC, cnt := (RC.length : Int) }) ∧
      SameData L.mem m1 ∧
      (∀ a, a ∉ RA ++ RC → load m1 a = load L.mem a) ∧
      lseg m1 ((Pb.map Block.refs).flatten ++ (RA ++ RC) ++ (Sb.map Block.refs).flatten)
        L.head 0 := by
  have hg : ¬ (bIdx < 0 ∨ bIdx + 1 ≥ L.nBlocks) := by omega
  have hA : rd L.blocks bIdx = some { items := RA ++ tA, cnt := (RA.length : Int) } := by
    rw [hblocks, List.append_assoc]; exact rd_mid _ _ _ hb
  have hC : rd L.blocks (bIdx + 1) = some { items := RC ++ tC, cnt := (RC.length : Int) } := by
    rw [hblocks]
    have e : Pb ++ { items := RA ++ tA, cnt := (RA.length : Int) } ::
        { items := RC ++ tC, cnt := (RC.length : Int) } :: Sb ++ rest =
        (Pb ++ [{ items := RA ++ tA, cnt := (RA.length : Int) }]) ++
        { items := RC ++ tC, cnt := (RC.length : Int) } :: (Sb ++ rest) := by simp
    rw [e]; apply rd_mid; simp; omega
  have hs : ¬ ((RA.length : Int) + (RC.length : Int) > B) := by simp [B]; omega
  obtain ⟨old, d2, htA, hold⟩ := exists_split_length tA RC.length (by simp at hlenA; omega)
  subst htA
  have hcopy : copyLoop RC.length 0 (RC ++ tC) 0 (RA ++ (old ++ d2)) (RA.length : Int) =
      some (RA ++ RC ++ d2) := by
    have := copyLoop_eq [] RC tC RA old d2 0 (RA.length : Int) (i := 0) (by simp) (by simp) hold
    simpa using this
  have hw : wr L.blocks bIdx { items := RA ++ RC ++ d2, cnt := (RA.length : Int) + (RC.length : Int) } =
      some (Pb ++ { items := RA ++ RC ++ d2, cnt := (RA.length : Int) + (RC.length : Int) } ::
        ({ items := RC ++ tC, cnt := (RC.length : Int) } :: Sb ++ rest)) := by
    rw [hblocks, List.append_assoc]; exact wr_mid _ _ _ _ hb
  have hk : (L.nBlocks - 1 - (bIdx + 1)).toNat = Sb.length := by omega
  have hshift : shiftLeftLoop Sb.length (bIdx + 1)
      (Pb ++ { items := RA ++ RC ++ d2, cnt := (RA.length : Int) + (RC.length : Int) } ::
        ({ items := RC ++ tC, cnt := (RC.length : Int) } :: Sb ++ rest)) =
      some (Pb ++ [{ items := RA ++ RC ++ d2, cnt := (RA.length : Int) + (RC.length : Int) }] ++ Sb ++
        Sb.getLastD { items := RC ++ tC, cnt := (RC.length : Int) } :: rest) := by
    have := shiftLeftLoop_eq
      (Pb ++ [{ items := RA ++ RC ++ d2, cnt := (RA.length : Int) + (RC.length : Int) }]) Sb rest
      { items := RC ++ tC, cnt := (RC.length : Int) } (i := bIdx + 1) (by simp; omega)
    simpa using this
  have hhead : headOfBlock (Pb ++ [{ items := RA ++ RC ++ d2, cnt := (RA.length : Int) + (RC.length : Int) }] ++ Sb ++
        Sb.getLastD { items := RC ++ tC, cnt := (RC.length : Int) } :: rest) (L.nBlocks - 1) (bIdx + 1) =
      some (((Sb.map Block.refs).flatten).headD 0) := by
    apply headOfBlock_eq _ Sb _ _ _ (by simp; omega) (by simp; omega) hSb
  have hA2 : rd (Pb ++ [{ items := RA ++ RC ++ d2, cnt := (RA.length : Int) + (RC.length : Int) }] ++ Sb ++
        Sb.getLastD { items := RC ++ tC, cnt := (RC.length : Int) } :: rest) bIdx =
      some { items := RA ++ RC ++ d2, cnt := (RA.length : Int) + (RC.length : Int) } := by
    have e : Pb ++ [{ items := RA ++ RC ++ d2, cnt := (RA.length : Int) + (RC.length : Int) }] ++ Sb ++
        Sb.getLastD { items := RC ++ tC, cnt := (RC.length : Int) } :: rest =
        Pb ++ { items := RA ++ RC ++ d2, cnt := (RA.length : Int) + (RC.length : Int) } :: (Sb ++
        Sb.getLastD { items := RC ++ tC, cnt := (RC.length : Int) } :: rest) := by simp
    rw [e]; exact rd_mid _ _ _ hb
  obtain ⟨m1, hr, hsd, hfr, hseg⟩ := relink_chain
    { items := RA ++ RC ++ d2, cnt := (RA.length : Int) + (RC.length : Int) }
    (RA ++ RC) d2 ((Pb.map Block.refs).flatten) ((Sb.map Block.refs).flatten) L.mem L.head h0
    rfl (by simp) hch
  refine ⟨m1, d2, Sb.getLastD { items := RC ++ tC, cnt := (RC.length : Int) }, ?_, ?_, ?_, hsd, hfr, hseg⟩
  · simp only [try_merge, hg, if_false, hA, hC, Option.bind_eq_bind, Option.some_bind, hs,
      Int.toNat_ofNat, hcopy, hw, hk, hshift, hhead, hA2, hr]
    simp
  · simp at hlenA hold ⊢; omega
  · exact getLastD_mem_or _ _

end FastLinkedList
namespace FastLinkedList

/-! ## The core invariants on explicit block lists -/

theorem Block.exists_mk {blk : Block} (h0 : 0 ≤ blk.cnt) (h1 : blk.cnt ≤ (blk.items.length : Int)) :
    ∃ R t, blk = { items := R ++ t, cnt := (R.length : Int) } ∧ blk.refs = R := by
  refine ⟨blk.refs, blk.items.drop blk.cnt.toNat, Block.eq_mk h0 h1, rfl⟩

theorem CoreInv.of_explicit {L : FastList} (Ub rest : List Block)
    (hb : L.blocks = Ub ++ rest) (hn : L.nBlocks = (Ub.length : Int))
    (hcap : ((Ub ++ rest).length : Int) = L.capBlocks) (hpos : 0 < L.capBlocks)
    (hitems : ∀ blk ∈ Ub ++ rest, blk.items.length = 64)
    (hcnt : ∀ blk ∈ Ub, 0 ≤ blk.cnt ∧ blk.cnt ≤ 64)
    (hmem : 0 < L.mem.length) (h0 : load L.mem 0 = none)
    (hch : lseg L.mem ((Ub.map Block.refs).flatten) L.head 0)
    (hsize : L.size = (((Ub.map Block.refs).flatten.length : Nat) : Int))
    (hne : ∀ blk ∈ Ub, blk.cnt = 0 → Ub.length = 1) : CoreInv L := by
  have hu : L.used = Ub := used_of_eq hb hn
  have hrep : Rep L := by
    refine ⟨by rw [hb]; exact hcap, hpos, by omega, ?_, by rw [hb]; exact hitems, ?_⟩
    · rw [← hcap, hn]; simp
    · rw [hu]; simpa [B] using hcnt
  refine ⟨hrep, hmem, h0, ?_, ?_, ?_⟩
  · simp only [FastList.refs, FastList.layout, hu]; exact hch
  · rw [hrep.sum_cnt]
    simp only [FastList.refs, FastList.layout, hu]; exact hsize
  · intro blk hblk hc
    rw [hu] at hblk
    rw [hn, hne blk hblk hc]; rfl

theorem CoreInv.refs_eq {L : FastList} {Ub : List Block} (hu : L.used = Ub) :
    L.refs = (Ub.map Block.refs).flatten := by
  simp [FastList.refs, FastList.layout, hu]

theorem CoreInv.size_refs {L : FastList} (h : CoreInv L) : L.size = (L.refs.length : Int) := by
  rw [h.size_eq, h.rep.sum_cnt]

/-- With two blocks or more, or with a non-empty list, every block in use is non-empty. -/
theorem CoreInv.cnt_pos {L : FastList} (h : CoreInv L) (hn : 1 < L.nBlocks ∨ 0 < L.size)
    {blk : Block} (hb : blk ∈ L.used) : 0 < blk.cnt := by
  have hb0 := (h.rep.items_le hb).2.1
  rcases lt_or_eq_of_le hb0 with h1 | h1
  · exact h1
  · exfalso
    have h2 := h.nonempty blk hb h1.symm
    rcases hn with hn | hn
    · omega
    · have hl := h.rep.used_length
      rw [h2] at hl
      have : L.used = [blk] := by
        cases hu : L.used with
        | nil => rw [hu] at hb; cases hb
        | cons x t =>
          rw [hu] at hl hb
          cases t with
          | nil =>
            rcases List.mem_cons.mp hb with rfl | hb
            · rfl
            · cases hb
          | cons y t2 => simp at hl; omega
      have hs := h.size_eq
      rw [this] at hs
      simp at hs
      omega

theorem mem_used_bounds {L : FastList} (h : CoreInv L) (hn : 1 < L.nBlocks ∨ 0 < L.size)
    {blk : Block} (hb : blk ∈ L.used) : 0 < blk.cnt ∧ blk.cnt ≤ (blk.items.length : Int) := by
  have := h.rep.items_le hb
  refine ⟨h.cnt_pos hn hb, ?_⟩
  rw [this.1]; exact this.2.2

/-! ## try_merge on a state satisfying the core invariants -/

theorem try_merge_spec {L : FastList} (hI : CoreInv L) (Pb Sb : List Block) (A C : Block)
    (hU : L.used = Pb ++ A :: C :: Sb) (hsum : A.cnt + C.cnt ≤ B)
    (bIdx : Int) (hb : bIdx = (Pb.length : Int)) :
    ∃ L1 A1, try_merge L bIdx = some L1 ∧ CoreInv L1 ∧ L1.used = Pb ++ A1 :: Sb ∧
      A1.refs = A.refs ++ C.refs ∧ A1.cnt = A.cnt + C.cnt ∧
      L1.head = L.head ∧ L1.size = L.size ∧ L1.nBlocks = L.nBlocks - 1 ∧
      L1.refs = L.refs ∧ SameData L.mem L1.mem := by
  have hAm : A ∈ L.used := by rw [hU]; simp
  have hCm : C ∈ L.used := by rw [hU]; simp
  have hA := hI.rep.items_le hAm
  have hC := hI.rep.items_le hCm
  have hlen := hI.rep.used_length
  have hnb2 : 1 < L.nBlocks ∨ 0 < L.size := by
    left; rw [← hlen, hU]; simp; omega
  have hnb : L.nBlocks = ((Pb.length + 2 + Sb.length : Nat) : Int) := by
    rw [← hlen, hU]; simp; omega
  obtain ⟨RA, tA, hAe, hAr⟩ := Block.exists_mk hA.2.1 (by omega)
  obtain ⟨RC, tC, hCe, hCr⟩ := Block.exists_mk hC.2.1 (by omega)
  have hAl : (RA ++ tA).length = 64 := by rw [hAe] at hA; exact hA.1
  have hsum2 : RA.length + RC.length ≤ 64 := by
    rw [hAe, hCe] at hsum; simp [B] at hsum; omega
  have hblocks := hI.rep.blocks_eq
  rw [hU] at hblocks
  have hSb : ∀ blk ∈ Sb, 0 < blk.cnt ∧ blk.cnt ≤ (blk.items.length : Int) := by
    intro blk hblk
    exact mem_used_bounds hI hnb2 (by rw [hU]; simp [hblk])
  have hrefs : L.refs = (Pb.map Block.refs).flatten ++ (RA ++ RC) ++ (Sb.map Block.refs).flatten := by
    rw [CoreInv.refs_eq hU]; simp [hAr, hCr]
  have hch := hI.chain
  rw [hrefs] at hch
  obtain ⟨m1, d2, lastB, hrun, hl64, hlast, hsd, _, hseg⟩ :=
    try_merge_explicit L Pb Sb (L.blocks.drop L.nBlocks.toNat) RA tA RC tC bIdx
      (by rw [← hAe, ← hCe]; exact hblocks) hnb hb hAl hsum2 hSb hI.null_dead hch
  have hu1 : FastList.used { L with
        blocks := Pb ++ { items := RA ++ RC ++ d2, cnt := ((RA.length + RC.length : Nat) : Int) } ::
          Sb ++ lastB :: L.blocks.drop L.nBlocks.toNat
        nBlocks := L.nBlocks - 1
        mem := m1 } =
      Pb ++ { items := RA ++ RC ++ d2, cnt := ((RA.length + RC.length : Nat) : Int) } :: Sb := by
    apply @used_of_eq _ _ (lastB :: L.blocks.drop L.nBlocks.toNat)
    · simp
    · simp; omega
  have hlastB : lastB.items.length = 64 := by
    rcases hlast with h | h
    · exact (hI.rep.items_le (by rw [hU]; simp [h])).1
    · rw [h, ← hCe]; exact hC.1
  have hcapl := hI.rep.cap_len
  have hrefs1 : ((Pb ++ { items := RA ++ RC ++ d2, cnt := ((RA.length + RC.length : Nat) : Int) } ::
      Sb).map Block.refs).flatten =
      (Pb.map Block.refs).flatten ++ (RA ++ RC) ++ (Sb.map Block.refs).flatten := by
    have e : Block.refs { items := RA ++ RC ++ d2, cnt := ((RA.length + RC.length : Nat) : Int) } =
        RA ++ RC := by
      have := refs_mk (RA ++ RC) d2
      simpa using this
    rw [List.map_append, List.map_cons, List.flatten_append, List.flatten_cons, e]
    simp only [List.append_assoc]
  refine ⟨_, _, hrun, ?_, hu1, ?_, ?_, rfl, rfl, rfl, ?_, hsd⟩
  · apply CoreInv.of_explicit
      (Pb ++ { items := RA ++ RC ++ d2, cnt := ((RA.length + RC.length : Nat) : Int) } :: Sb)
      (lastB :: L.blocks.drop L.nBlocks.toNat)
    · simp
    · simp; omega
    · show _ = L.capBlocks
      rw [← hcapl, hblocks]; simp; omega
    · exact hI.rep.cap_pos
    · intro blk hblk
      simp only [List.mem_append, List.mem_cons] at hblk
      rcases hblk with (h | h | h) | h | h
      · exact (hI.rep.items_le (by rw [hU]; simp [h])).1
      · rw [h]; exact hl64
      · exact (hI.rep.items_le (by rw [hU]; simp [h])).1
      · rw [h]; exact hlastB
      · exact hI.rep.items_len blk (List.mem_of_mem_drop h)
    · intro blk hblk
      simp only [List.mem_append, List.mem_cons] at hblk
      rcases hblk with h | h | h
      · exact (hI.rep.items_le (by rw [hU]; simp [h])).2
      · rw [h]; simp; omega
      · exact (hI.rep.items_le (by rw [hU]; simp [h])).2
    · show 0 < m1.length
      rw [hsd.1]; exact hI.heap_pos
    · exact hsd.dead hI.null_dead
    · show lseg m1 _ L.head 0
      rw [hrefs1]; exact hseg
    · show L.size = _
      rw [hrefs1, hI.size_refs, hrefs]
    · intro blk hblk hz
      exfalso
      simp only [List.mem_append, List.mem_cons] at hblk
      rcases hblk with h | h | h
      · have := @CoreInv.cnt_pos _ hI hnb2 blk (by rw [hU]; simp [h]); omega
      · rw [h] at hz
        have := hI.cnt_pos hnb2 hAm
        rw [hAe] at this
        simp at hz this; omega
      · have := @CoreInv.cnt_pos _ hI hnb2 blk (by rw [hU]; simp [h]); omega
  · rw [← hAr, ← hCr]
    have := refs_mk (RA ++ RC) d2
    simpa [hAr, hCr] using this
  · rw [hAe, hCe]; simp
  · rw [CoreInv.refs_eq hu1, hrefs1, hrefs]

theorem try_merge_skip {L : FastList} (Pb Sb : List Block) (A C : Block)
    (hblocks : L.used = Pb ++ A :: C :: Sb) (hsum : A.cnt + C.cnt > B)
    (bIdx : Int) (hb : bIdx = (Pb.length : Int)) :
    try_merge L bIdx = some L := by
  have hbl : L.blocks = Pb ++ A :: C :: Sb ++ L.blocks.drop L.nBlocks.toNat := by
    rw [← hblocks]; simp [FastList.used]
  have hA : rd L.blocks bIdx = some A := by
    rw [hbl, List.append_assoc]; exact rd_mid _ _ _ hb
  have hC : rd L.blocks (bIdx + 1) = some C := by
    rw [hbl]
    have e : Pb ++ A :: C :: Sb ++ L.blocks.drop L.nBlocks.toNat =
        (Pb ++ [A]) ++ C :: (Sb ++ L.blocks.drop L.nBlocks.toNat) := by simp
    rw [e]; apply rd_mid; simp; omega
  unfold try_merge
  split
  · rfl
  · simp [hA, hC, hsum]

end FastLinkedList
namespace FastLinkedList

/-! ## ensure_block_capacity -/

theorem growCap_ge (k : Nat) (c need : Int) (hc : 1 ≤ c) (hk : need ≤ c + k) :
    need ≤ growCap k c need ∧ c ≤ growCap k c need := by
  induction k generalizing c with
  | zero =>
    simp at hk
    simp [growCap, hk]
  | succ k ih =>
    unfold growCap
    split
    · have := ih (c * 2) (by omega) (by push_cast at hk ⊢; omega)
      exact ⟨this.1, by omega⟩
    · exact ⟨by omega, le_refl _⟩

theorem ensure_block_capacity_spec (L : FastList) (need : Int) (hcap : (L.blocks.length : Int) = L.capBlocks)
    (hlen : ∀ blk ∈ L.blocks, blk.items.length = 64) :
    ∃ pad capB, ensure_block_capacity L need = { L with blocks := L.blocks ++ pad, capBlocks := capB } ∧
      capB = ((L.blocks ++ pad).length : Int) ∧ need ≤ capB ∧ L.capBlocks ≤ capB ∧
      ∀ blk ∈ L.blocks ++ pad, blk.items.length = 64 := by
  unfold ensure_block_capacity
  split
  · rename_i h
    refine ⟨[], L.capBlocks, ?_, by simp [hcap], h, le_refl _, by simpa using hlen⟩
    cases L
    simp only [List.append_nil]
  · rename_i h
    have hg := growCap_ge need.toNat (if L.capBlocks > 0 then L.capBlocks else INIT_BLOCKS) need
      (by unfold INIT_BLOCKS; split <;> omega) (by unfold INIT_BLOCKS; split <;> omega)
    refine ⟨_, _, rfl, ?_, hg.1, by omega, ?_⟩
    · simp only [List.length_append, List.length_replicate]
      omega
    · intro blk hblk
      rcases List.mem_append.mp hblk with h1 | h1
      · exact hlen blk h1
      · rw [List.eq_of_mem_replicate h1]; rfl

/-! ## split_block -/

theorem Int.tdiv_two_cast (c : Nat) : (c : Int).tdiv 2 = ((c / 2 : Nat) : Int) := by
  rw [Int.tdiv_eq_ediv (by omega) (by omega)]
  omega

/-- The split of a block, on explicit block lists.  The chain is kept when the
upper half is non-empty or no block follows; when the upper half is empty the
chain ends after the lower half. -/
theorem split_block_explicit (L : FastList) (Pb Sb rest : List Block) (R1 R2 tA : List Nat)
    (bIdx : Int)
    (hblocks : L.blocks = Pb ++ { items := R1 ++ R2 ++ tA, cnt := ((R1.length + R2.length : Nat) : Int) } ::
      Sb ++ rest)
    (hnb : L.nBlocks = ((Pb.length + 1 + Sb.length : Nat) : Int))
    (hcap : (L.blocks.length : Int) = L.capBlocks)
    (hb : bIdx = (Pb.length : Int))
    (hitems : ∀ blk ∈ L.blocks, blk.items.length = 64)
    (hhalf : R2.length = (R1.length + R2.length) / 2)
    (hSb : ∀ blk ∈ Sb, 0 < blk.cnt ∧ blk.cnt ≤ (blk.items.length : Int))
    (h0 : load L.mem 0 = none)
    (hch : lseg L.mem ((Pb.map Block.refs).flatten ++ (R1 ++ R2) ++ (Sb.map Block.refs).flatten)
      L.head 0) :
    ∃ m2 d2 rest1 capB, split_block L bIdx = some { L with
        blocks := Pb ++ { items := R1 ++ R2 ++ tA, cnt := (R1.length : Int) } ::
          { items := R2 ++ d2, cnt := (R2.length : Int) } :: Sb ++ rest1
        nBlocks := L.nBlocks + 1
        capBlocks := capB
        mem := m2 } ∧
      capB = ((Pb.length + 2 + Sb.length + rest1.length : Nat) : Int) ∧ L.capBlocks ≤ capB ∧
      (R2 ++ d2).length = 64 ∧
      (∀ blk ∈ rest1, blk.items.length = 64) ∧
      SameData L.mem m2 ∧
      (R2 ≠ [] ∨ Sb = [] →
        lseg m2 ((Pb.map Block.refs).flatten ++ (R1 ++ R2) ++ (Sb.map Block.refs).flatten)
          L.head 0) ∧
      (R2 = [] → R1 ≠ [] → lseg m2 ((Pb.map Block.refs).flatten ++ R1) L.head 0) := by
  obtain ⟨pad, capB, he, hcapB, hneed, hcle, hitems2⟩ :=
    ensure_block_capacity_spec L (L.nBlocks + 1) hcap hitems
  have hrp : ∃ y rest1, rest ++ pad = y :: rest1 := by
    cases h : rest ++ pad with
    | nil =>
      exfalso
      rw [hblocks] at hcapB
      simp only [List.append_assoc, List.cons_append] at hcapB
      rw [h] at hcapB
      simp at hcapB
      omega
    | cons y t => exact ⟨y, t, rfl⟩
  obtain ⟨y, rest1, hrp⟩ := hrp
  have hlenA : (R1 ++ R2 ++ tA).length = 64 :=
    hitems { items := R1 ++ R2 ++ tA, cnt := ((R1.length + R2.length : Nat) : Int) }
      (by rw [hblocks]; simp)
  have hbl2 : L.blocks ++ pad = (Pb ++ [{ items := R1 ++ R2 ++ tA, cnt := ((R1.length + R2.length : Nat) : Int) }]) ++
      Sb ++ y :: rest1 := by
    rw [hblocks]; simp [← hrp]
  have hk : (L.nBlocks - (bIdx + 1)).toNat = Sb.length := by omega
  have hshift := shiftRightLoop_eq
    (Pb ++ [{ items := R1 ++ R2 ++ tA, cnt := ((R1.length + R2.length : Nat) : Int) }]) Sb rest1 y
    (i := L.nBlocks) (by simp; omega)
  rw [← hbl2] at hshift
  have hrdA : rd (Pb ++ [{ items := R1 ++ R2 ++ tA, cnt := ((R1.length + R2.length : Nat) : Int) }] ++
      Sb.headD y :: Sb ++ rest1) bIdx =
      some { items := R1 ++ R2 ++ tA, cnt := ((R1.length + R2.length : Nat) : Int) } := by
    have e : Pb ++ [{ items := R1 ++ R2 ++ tA, cnt := ((R1.length + R2.length : Nat) : Int) }] ++
      Sb.headD y :: Sb ++ rest1 = Pb ++ { items := R1 ++ R2 ++ tA, cnt := ((R1.length + R2.length : Nat) : Int) } ::
      (Sb.headD y :: Sb ++ rest1) := by simp
    rw [e]; exact rd_mid _ _ _ hb
  have hwz : wr (Pb ++ [{ items := R1 ++ R2 ++ tA, cnt := ((R1.length + R2.length : Nat) : Int) }] ++
      Sb.headD y :: Sb ++ rest1) (bIdx + 1) zeroBlock =
      some ((Pb ++ [{ items := R1 ++ R2 ++ tA, cnt := ((R1.length + R2.length : Nat) : Int) }]) ++
        zeroBlock :: (Sb ++ rest1)) := by
    have e : Pb ++ [{ items := R1 ++ R2 ++ tA, cnt := ((R1.length + R2.length : Nat) : Int) }] ++
      Sb.headD y :: Sb ++ rest1 = (Pb ++ [{ items := R1 ++ R2 ++ tA, cnt := ((R1.length + R2.length : Nat) : Int) }]) ++
      Sb.headD y :: (Sb ++ rest1) := by simp
    rw [e]; apply wr_mid; simp; omega
  have hmv : (((R1.length + R2.length : Nat) : Int)).tdiv 2 = (R2.length : Int) := by
    rw [Int.tdiv_two_cast, ← hhalf]
  have hst : (((R1.length + R2.length : Nat) : Int)) - (R2.length : Int) = (R1.length : Int) := by omega
  obtain ⟨old, d2, hz, hold⟩ := exists_split_length zeroBlock.items R2.length
    (by simp [zeroBlock]; simp at hlenA; omega)
  have hcopy : copyLoop R2.length 0 (R1 ++ R2 ++ tA) (R1.length : Int) zeroBlock.items 0 =
      some (R2 ++ d2) := by
    have := copyLoop_eq R1 R2 tA [] old d2 (R1.length : Int) 0 (i := 0) (by simp) (by simp) hold
    rw [hz]; simpa using this
  have hd2 : (R2 ++ d2).length = 64 := by
    have : zeroBlock.items.length = 64 := by simp [zeroBlock]
    rw [hz] at this; simp at this ⊢; omega
  have hw1 : wr ((Pb ++ [{ items := R1 ++ R2 ++ tA, cnt := ((R1.length + R2.length : Nat) : Int) }]) ++
        zeroBlock :: (Sb ++ rest1)) (bIdx + 1) { items := R2 ++ d2, cnt := (R2.length : Int) } =
      some ((Pb ++ [{ items := R1 ++ R2 ++ tA, cnt := ((R1.length + R2.length : Nat) : Int) }]) ++
        { items := R2 ++ d2, cnt := (R2.length : Int) } :: (Sb ++ rest1)) := by
    apply wr_mid; simp; omega
  have hw2 : wr ((Pb ++ [{ items := R1 ++ R2 ++ tA, cnt := ((R1.length + R2.length : Nat) : Int) }]) ++
        { items := R2 ++ d2, cnt := (R2.length : Int) } :: (Sb ++ rest1)) bIdx
        { items := R1 ++ R2 ++ tA, cnt := (R1.length : Int) } =
      some (Pb ++ { items := R1 ++ R2 ++ tA, cnt := (R1.length : Int) } ::
        { items := R2 ++ d2, cnt := (R2.length : Int) } :: Sb ++ rest1) := by
    have e : (Pb ++ [{ items := R1 ++ R2 ++ tA, cnt := ((R1.length + R2.length : Nat) : Int) }]) ++
        { items := R2 ++ d2, cnt := (R2.length : Int) } :: (Sb ++ rest1) =
        Pb ++ { items := R1 ++ R2 ++ tA, cnt := ((R1.length + R2.length : Nat) : Int) } ::
        ({ items := R2 ++ d2, cnt := (R2.length : Int) } :: (Sb ++ rest1)) := by simp
    rw [e, wr_mid _ _ _ _ hb]; simp
  have hnA : (if (R2.length : Int) > 0 then rd (R2 ++ d2) 0 else some 0) = some (R2.headD 0) := by
    cases R2 with
    | nil => simp
    | cons a t => simp [rd]
  -- heap facts
  have hnd := lseg_nodup h0 hch
  have hchs := hch
  rw [List.append_assoc, lseg_append_head, lseg_append_head, lseg_append_head] at hchs
  obtain ⟨hP, ⟨hR1, hR2⟩, hS⟩ := hchs
  have hnd12 : (R1 ++ R2).Nodup := (List.nodup_append.mp (List.nodup_append.mp hnd).1).2.1
  obtain ⟨m1, hr1, hsd1, hfr1, hseg1⟩ := relink_local_spec
    { items := R1 ++ R2 ++ tA, cnt := (R1.length : Int) } R1 (R2 ++ tA) (R2.headD 0) L.mem
    (by simp) rfl (List.nodup_append.mp hnd12).1 (fun a ha => lseg_live hR1 ha)
  have hhead : headOfBlock (Pb ++ { items := R1 ++ R2 ++ tA, cnt := (R1.length : Int) } ::
        { items := R2 ++ d2, cnt := (R2.length : Int) } :: Sb ++ rest1) (L.nBlocks + 1) (bIdx + 2) =
      some (((Sb.map Block.refs).flatten).headD 0) := by
    have e : Pb ++ { items := R1 ++ R2 ++ tA, cnt := (R1.length : Int) } ::
        { items := R2 ++ d2, cnt := (R2.length : Int) } :: Sb ++ rest1 =
        (Pb ++ [{ items := R1 ++ R2 ++ tA, cnt := (R1.length : Int) },
        { items := R2 ++ d2, cnt := (R2.length : Int) }]) ++ Sb ++ rest1 := by simp
    rw [e]
    apply headOfBlock_eq _ Sb _ _ _ (by simp; omega) (by simp; omega) hSb
  obtain ⟨m2, hr2, hsd2, hfr2, hseg2⟩ := relink_local_spec
    { items := R2 ++ d2, cnt := (R2.length : Int) } R2 d2 (((Sb.map Block.refs).flatten).headD 0) m1
    rfl rfl (List.nodup_append.mp hnd12).2.1
    (hsd1.lives (fun a ha => lseg_live hR2 ha))
  refine ⟨m2, d2, rest1, capB, ?_, ?_, hcle, hd2, ?_, hsd1.trans hsd2, ?_, ?_⟩
  · simp only [split_block, he, hk, hshift, Option.bind_eq_bind, Option.some_bind, hrdA, hwz,
      hmv, hst, Int.toNat_ofNat, hcopy, hw1, hw2, hnA, hr1, hhead, hr2]
  · rw [hcapB, hbl2]; simp; omega
  · intro blk hblk
    apply hitems2
    rw [hbl2]; simp [hblk]
  · intro hcond
    have hdisj := List.nodup_append.mp hnd
    have hdisjP := List.nodup_append.mp hdisj.1
    have e1 : (R2 ++ (Sb.map Block.refs).flatten).headD 0 = R2.headD 0 := by
      rw [headD_append]
      rcases hcond with h | h
      · cases R2 with
        | nil => exact absurd rfl h
        | cons a t => rfl
      · subst h; simp
    have e2 : (R2 ++ (Sb.map Block.refs).flatten).headD 0 =
        R2.headD (((Sb.map Block.refs).flatten).headD 0) := headD_append _ _ _
    have e3 : R2.headD (((Sb.map Block.refs).flatten).headD 0) = R2.headD 0 := e2.symm.trans e1
    have e5 : (R1 ++ R2 ++ (Sb.map Block.refs).flatten).headD 0 = R1.headD (R2.headD 0) := by
      rw [List.append_assoc, headD_append, e1]
    rw [e5] at hP
    have hP2 : lseg m2 ((Pb.map Block.refs).flatten) L.head (R1.headD (R2.headD 0)) := by
      apply lseg_frame _ hP
      intro a ha
      have ha1 : a ∉ R1 := fun h => hdisjP.2.2 ha (List.mem_append_left _ h)
      have ha2 : a ∉ R2 := fun h => hdisjP.2.2 ha (List.mem_append_right _ h)
      rw [hfr2 a ha2, hfr1 a ha1]
    have hR12 : lseg m2 R1 (R1.headD (R2.headD 0)) (R2.headD 0) := by
      apply lseg_frame _ hseg1
      intro a ha
      exact hfr2 a (fun h => (List.nodup_append.mp hnd12).2.2 ha h)
    have hR22 : lseg m2 R2 (R2.headD 0) (((Sb.map Block.refs).flatten).headD 0) := by
      rw [← e3]; exact hseg2
    have hS2 : lseg m2 ((Sb.map Block.refs).flatten) (((Sb.map Block.refs).flatten).headD 0) 0 := by
      apply lseg_frame _ hS
      intro a ha
      have ha1 : a ∉ R1 := fun h => hdisj.2.2 (List.mem_append_right _ (List.mem_append_left _ h)) ha
      have ha2 : a ∉ R2 := fun h => hdisj.2.2 (List.mem_append_right _ (List.mem_append_right _ h)) ha
      rw [hfr2 a ha2, hfr1 a ha1]
    rw [lseg_append]
    refine ⟨_, ?_, hS2⟩
    rw [lseg_append]
    refine ⟨_, hP2, ?_⟩
    rw [lseg_append]
    exact ⟨_, hR12, hR22⟩
  · intro hR2e hR1ne
    subst hR2e
    have hdisj := List.nodup_append.mp hnd
    have hdisjP := List.nodup_append.mp hdisj.1
    have e5 : (R1 ++ [] ++ (Sb.map Block.refs).flatten).headD 0 = R1.headD 0 := by
      cases R1 with
      | nil => exact absurd rfl hR1ne
      | cons a t => rfl
    rw [e5] at hP
    rw [lseg_append]
    refine ⟨R1.headD 0, ?_, ?_⟩
    · apply lseg_frame _ hP
      intro a ha
      have ha1 : a ∉ R1 := fun h => hdisjP.2.2 ha (List.mem_append_left _ h)
      rw [hfr2 a (by simp), hfr1 a ha1]
    · apply lseg_frame _ hseg1
      intro a _
      exact hfr2 a (by simp)

end FastLinkedList
namespace FastLinkedList

/-! ## split_block on a state satisfying the core invariants -/

theorem CoreInv.size_ge_cnt {L : FastList} (hI : CoreInv L) {Pb Sb : List Block} {A : Block}
    (hU : L.used = Pb ++ A :: Sb) : A.cnt ≤ L.size := by
  have hA := @Rep.items_le _ hI.rep A (by rw [hU]; simp)
  have h1 := Block.refs_length hA.2.1 (by omega)
  rw [hI.size_refs, CoreInv.refs_eq hU, List.map_append, List.map_cons, List.flatten_append,
    List.flatten_cons, List.length_append, List.length_append]
  push_cast
  omega

theorem split_block_spec {L : FastList} (hI : CoreInv L) (Pb Sb : List Block) (A : Block)
    (hU : L.used = Pb ++ A :: Sb) (h2 : 2 ≤ A.cnt)
    (bIdx : Int) (hb : bIdx = (Pb.length : Int)) :
    ∃ L1 A1 B2, split_block L bIdx = some L1 ∧ CoreInv L1 ∧ L1.used = Pb ++ A1 :: B2 :: Sb ∧
      A1.refs ++ B2.refs = A.refs ∧ A1.cnt = A.cnt - A.cnt.tdiv 2 ∧ B2.cnt = A.cnt.tdiv 2 ∧
      L1.head = L.head ∧ L1.size = L.size ∧ L1.nBlocks = L.nBlocks + 1 ∧
      L1.refs = L.refs ∧ SameData L.mem L1.mem := by
  have hAm : A ∈ L.used := by rw [hU]; simp
  have hA := hI.rep.items_le hAm
  have hlen := hI.rep.used_length
  have hsz : 1 < L.nBlocks ∨ 0 < L.size := by
    right
    have := hI.size_ge_cnt hU
    omega
  have hnb : L.nBlocks = ((Pb.length + 1 + Sb.length : Nat) : Int) := by
    rw [← hlen, hU]; simp; omega
  obtain ⟨R, tA, hAe, hAr⟩ := Block.exists_mk hA.2.1 (by omega)
  obtain ⟨R1, R2, hR, hR1⟩ := exists_split_length R (R.length - R.length / 2) (by omega)
  have hR2 : R2.length = R.length / 2 := by
    have := congrArg List.length hR
    simp at this; omega
  have hhalf : R2.length = (R1.length + R2.length) / 2 := by
    have := congrArg List.length hR
    simp at this; omega
  have hAe2 : A = { items := R1 ++ R2 ++ tA, cnt := ((R1.length + R2.length : Nat) : Int) } := by
    rw [hAe, hR]; simp
  have hblocks := hI.rep.blocks_eq
  rw [hU] at hblocks
  have hSb : ∀ blk ∈ Sb, 0 < blk.cnt ∧ blk.cnt ≤ (blk.items.length : Int) := by
    intro blk hblk
    exact mem_used_bounds hI hsz (by rw [hU]; simp [hblk])
  have hrefs : L.refs = (Pb.map Block.refs).flatten ++ (R1 ++ R2) ++ (Sb.map Block.refs).flatten := by
    rw [CoreInv.refs_eq hU]; simp [hAr, hR]
  have hch := hI.chain
  rw [hrefs] at hch
  have hR2ne : R2 ≠ [] := by
    intro h
    rw [h] at hR2
    rw [hAe] at h2
    simp at hR2 h2
    omega
  obtain ⟨m2, d2, rest1, capB, hrun, hcapB, hcle, hd2, hrest1, hsd, hseg, _⟩ :=
    split_block_explicit L Pb Sb (L.blocks.drop L.nBlocks.toNat) R1 R2 tA bIdx
      (by rw [← hAe2]; exact hblocks) hnb hI.rep.cap_len hb hI.rep.items_len hhalf hSb
      hI.null_dead hch
  have hseg := hseg (Or.inl hR2ne)
  have hmv : A.cnt.tdiv 2 = (R2.length : Int) := by
    rw [hAe2]
    show (((R1.length + R2.length : Nat) : Int)).tdiv 2 = _
    rw [Int.tdiv_two_cast, ← hhalf]
  have hu1 : FastList.used { L with
        blocks := Pb ++ { items := R1 ++ R2 ++ tA, cnt := (R1.length : Int) } ::
          { items := R2 ++ d2, cnt := (R2.length : Int) } :: Sb ++ rest1
        nBlocks := L.nBlocks + 1
        capBlocks := capB
        mem := m2 } =
      Pb ++ { items := R1 ++ R2 ++ tA, cnt := (R1.length : Int) } ::
          { items := R2 ++ d2, cnt := (R2.length : Int) } :: Sb := by
    apply @used_of_eq _ _ (rest1)
    · simp
    · simp; omega
  have eA1 : Block.refs { items := R1 ++ R2 ++ tA, cnt := (R1.length : Int) } = R1 := by
    have := refs_mk R1 (R2 ++ tA)
    simpa using this
  have eB2 : Block.refs { items := R2 ++ d2, cnt := (R2.length : Int) } = R2 := refs_mk R2 d2
  have hrefs1 : ((Pb ++ { items := R1 ++ R2 ++ tA, cnt := (R1.length : Int) } ::
          { items := R2 ++ d2, cnt := (R2.length : Int) } :: Sb).map Block.refs).flatten =
      (Pb.map Block.refs).flatten ++ (R1 ++ R2) ++ (Sb.map Block.refs).flatten := by
    rw [List.map_append, List.map_cons, List.map_cons, List.flatten_append, List.flatten_cons,
      List.flatten_cons, eA1, eB2]
    simp only [List.append_assoc]
  have hR1pos : 0 < R1.length := by
    rw [hAe] at h2
    simp at h2
    omega
  have hlenA : (R1 ++ R2 ++ tA).length = 64 := by
    have := hA.1
    rw [hAe2] at this; exact this
  refine ⟨_, _, _, hrun, ?_, hu1, ?_, ?_, ?_, rfl, rfl, rfl, ?_, hsd⟩
  · apply CoreInv.of_explicit
      (Pb ++ { items := R1 ++ R2 ++ tA, cnt := (R1.length : Int) } ::
          { items := R2 ++ d2, cnt := (R2.length : Int) } :: Sb) rest1
    · simp
    · simp; omega
    · show _ = capB
      rw [hcapB]; simp; omega
    · show 0 < capB
      have := hI.rep.cap_pos
      omega
    · intro blk hblk
      simp only [List.mem_append, List.mem_cons] at hblk
      rcases hblk with (h | h | h | h) | h
      · exact (hI.rep.items_le (by rw [hU]; simp [h])).1
      · rw [h]; exact hlenA
      · rw [h]; exact hd2
      · exact (hI.rep.items_le (by rw [hU]; simp [h])).1
      · exact hrest1 blk h
    · intro blk hblk
      simp only [List.mem_append, List.mem_cons] at hblk
      rcases hblk with h | h | h | h
      · exact (hI.rep.items_le (by rw [hU]; simp [h])).2
      · rw [h]; simp at hlenA ⊢; omega
      · rw [h]; simp at hd2 ⊢; omega
      · exact (hI.rep.items_le (by rw [hU]; simp [h])).2
    · show 0 < m2.length
      rw [hsd.1]; exact hI.heap_pos
    · exact hsd.dead hI.null_dead
    · show lseg m2 _ L.head 0
      rw [hrefs1]; exact hseg
    · show L.size = _
      rw [hrefs1, hI.size_refs, hrefs]
    · intro blk hblk hz
      exfalso
      simp only [List.mem_append, List.mem_cons] at hblk
      rcases hblk with h | h | h | h
      · have := @CoreInv.cnt_pos _ hI hsz blk (by rw [hU]; simp [h]); omega
      · rw [h] at hz; simp at hz; rw [hz] at hR1pos; simp at hR1pos
      · rw [h] at hz; simp at hz; exact hR2ne hz
      · have := @CoreInv.cnt_pos _ hI hsz blk (by rw [hU]; simp [h]); omega
  · rw [eA1, eB2, hAr, hR]
  · rw [hmv, hAe2]; simp
  · rw [hmv]
  · rw [CoreInv.refs_eq hu1, hrefs1, hrefs]

end FastLinkedList
namespace FastLinkedList

/-! ## Allocation -/

theorem new_node_load (m : Heap) (v : Int) (a : Nat) :
    load (new_node m v).2 a = if a = m.length then some { data := v, next := 0 } else load m a := by
  simp only [new_node]
  exact load_push m _ a

theorem new_node_fst (m : Heap) (v : Int) : (new_node m v).1 = m.length := rfl

theorem AllocData.of_sameData {m m0 m1 : Heap} {v : Int}
    (h0 : m0 = (new_node m v).2) (h : SameData m0 m1) : AllocData m m1 v := by
  subst h0
  refine ⟨by rw [h.1]; simp [new_node], ?_, ?_⟩
  · intro a ha
    rw [h.2 a, new_node_load]; simp [ha]
  · rw [h.2, new_node_load]; simp

theorem AllocData.dataAt_old {m m1 : Heap} {v : Int} (h : AllocData m m1 v) {a : Nat}
    (ha : a ≠ m.length) : dataAt m1 a = dataAt m a := by
  have := h.2.1 a ha
  unfold FastLinkedList.dataAt
  cases h1 : load m1 a <;> cases h2 : load m a <;> rw [h1, h2] at this <;> simp at this ⊢
  exact this

theorem AllocData.dataAt_new {m m1 : Heap} {v : Int} (h : AllocData m m1 v) :
    dataAt m1 m.length = v := by
  have := h.2.2
  unfold FastLinkedList.dataAt
  cases h1 : load m1 m.length <;> rw [h1] at this <;> simp at this ⊢
  exact this

theorem AllocData.dead_old {m m1 : Heap} {v : Int} (h : AllocData m m1 v) {a : Nat}
    (ha : a ≠ m.length) (hd : load m a = none) : load m1 a = none := by
  have := h.2.1 a ha
  rw [hd] at this
  cases h1 : load m1 a with
  | none => rfl
  | some n => rw [h1] at this; cases this

/-! ## insert into an empty list -/

theorem insertFirst_spec {L : FastList} (hI : CoreInv L) (v : Int) :
    ∃ L1 A1, insertFirst L v = some L1 ∧ CoreInv L1 ∧ L1.used = [A1] ∧
      A1.refs = [L.mem.length] ∧ L1.head = L.mem.length ∧ L1.size = 1 ∧ L1.nBlocks = 1 ∧
      AllocData L.mem L1.mem v := by
  have hcap := hI.rep.cap_len
  have hpos := hI.rep.cap_pos
  cases hb : L.blocks with
  | nil => rw [hb] at hcap; simp at hcap; omega
  | cons blk0 rest0 =>
    have hi0 : blk0.items.length = 64 := hI.rep.items_len blk0 (by rw [hb]; simp)
    cases hit : blk0.items with
    | nil => rw [hit] at hi0; simp at hi0
    | cons y t =>
      have hrd : rd L.blocks 0 = some blk0 := by rw [hb]; simp [rd]
      have hw1 : wr blk0.items 0 L.mem.length = some (L.mem.length :: t) := by
        rw [hit]; simp [wr]
      have hw2 : wr L.blocks 0 { items := L.mem.length :: t, cnt := 1 } =
          some ({ items := L.mem.length :: t, cnt := 1 } :: rest0) := by
        rw [hb]; simp [wr]
      have hrun : insertFirst L v = some { L with
          head := L.mem.length, nBlocks := 1,
          blocks := { items := L.mem.length :: t, cnt := 1 } :: rest0,
          size := 1, mem := (new_node L.mem v).2 } := by
        simp only [insertFirst, new_node, hrd, hw1, hw2, Option.bind_eq_bind, Option.some_bind]
      have hu : FastList.used { L with
          head := L.mem.length, nBlocks := 1,
          blocks := { items := L.mem.length :: t, cnt := 1 } :: rest0,
          size := 1, mem := (new_node L.mem v).2 } = [{ items := L.mem.length :: t, cnt := 1 }] := by
        simp [FastList.used]
      have hr : Block.refs { items := L.mem.length :: t, cnt := 1 } = [L.mem.length] := by
        simp [Block.refs]
      refine ⟨_, _, hrun, ?_, hu, hr, rfl, rfl, rfl, ?_⟩
      · apply CoreInv.of_explicit [{ items := L.mem.length :: t, cnt := 1 }] rest0
        · rfl
        · rfl
        · show _ = L.capBlocks
          rw [← hcap, hb]; simp
        · exact hpos
        · intro blk hblk
          simp only [List.mem_append, List.mem_singleton] at hblk
          rcases hblk with h | h
          · rw [h]
            show (L.mem.length :: t).length = 64
            rw [hit] at hi0; simpa using hi0
          · exact hI.rep.items_len blk (by rw [hb]; simp [h])
        · intro blk hblk
          rw [List.mem_singleton.mp hblk]
          simp
        · show 0 < (new_node L.mem v).2.length
          simp [new_node]
        · show load (new_node L.mem v).2 0 = none
          rw [new_node_load]
          have : (0 : Nat) ≠ L.mem.length := by
            have := hI.heap_pos
            omega
          simp [this, hI.null_dead]
        · show lseg (new_node L.mem v).2 _ L.mem.length 0
          simp only [List.map_cons, List.map_nil, hr, List.flatten_cons, List.flatten_nil,
            List.append_nil]
          refine ⟨rfl, { data := v, next := 0 }, ?_, rfl⟩
          rw [new_node_load]; simp
        · show (1 : Int) = _
          simp [hr]
        · intro _ _ _; rfl
      · exact AllocData.of_sameData rfl (SameData.refl _)

end FastLinkedList
namespace FastLinkedList

/-! ## insert at the end -/

theorem exists_snoc_of_ne_nil {α : Type} (l : List α) (h : l ≠ []) : ∃ q x, l = q ++ [x] :=
  ⟨l.dropLast, l.getLast h, (List.dropLast_append_getLast h).symm⟩

theorem exists_cons_of_length_pos {α : Type} (l : List α) (h : 0 < l.length) : ∃ y t, l = y :: t := by
  cases l with
  | nil => simp at h
  | cons y t => exact ⟨y, t, rfl⟩

theorem appendToBlock_spec {L : FastList} (hI : CoreInv L) (Pb : List Block) (A : Block)
    (hU : L.used = Pb ++ [A]) (hlt : A.cnt < 64) (hpos : 0 < L.size)
    (b : Int) (hb : b = (Pb.length : Int)) (v : Int) :
    ∃ L1 A1, appendToBlock L b v = some L1 ∧ CoreInv L1 ∧ L1.used = Pb ++ [A1] ∧
      A1.refs = A.refs ++ [L.mem.length] ∧ L1.head = L.head ∧ L1.size = L.size + 1 ∧
      L1.nBlocks = L.nBlocks ∧ L1.refs = L.refs ++ [L.mem.length] ∧
      AllocData L.mem L1.mem v := by
  have hAm : A ∈ L.used := by rw [hU]; simp
  have hA := hI.rep.items_le hAm
  have hsz : 1 < L.nBlocks ∨ 0 < L.size := Or.inr hpos
  have hAp := hI.cnt_pos hsz hAm
  have hlen := hI.rep.used_length
  have hnb : L.nBlocks = ((Pb.length + 1 : Nat) : Int) := by
    rw [← hlen, hU]; simp
  obtain ⟨R, tA, hAe, hAr⟩ := Block.exists_mk hA.2.1 (by omega)
  have hRl : (R.length : Int) = A.cnt := by rw [hAe]
  have hitl : (R ++ tA).length = 64 := by rw [hAe] at hA; exact hA.1
  obtain ⟨y, t, htA⟩ := exists_cons_of_length_pos tA (by simp at hitl; omega)
  obtain ⟨Q, last, hQ⟩ := exists_snoc_of_ne_nil R (by intro h; rw [h] at hRl; simp at hRl; omega)
  subst htA
  have hblocks : L.blocks = Pb ++ A :: (L.blocks.drop L.nBlocks.toNat) := by
    have := hI.rep.blocks_eq
    rw [hU] at this
    simpa using this
  have hrd : rd L.blocks b = some A := by
    rw [hblocks]; exact rd_mid _ _ _ hb
  have hhead : headOfBlock L.blocks L.nBlocks (b + 1) = some 0 := by
    have := headOfBlock_eq (Pb ++ [A]) [] (L.blocks.drop L.nBlocks.toNat) L.nBlocks (b + 1)
      (by simp; omega) (by simp; omega) (by simp)
    rw [hblocks]
    simpa using this
  have hrefs : L.refs = (Pb.map Block.refs).flatten ++ Q ++ [last] := by
    rw [CoreInv.refs_eq hU]; simp [hAr, hQ]
  have hch := hI.chain
  rw [hrefs, lseg_snoc] at hch
  obtain ⟨hPQ, nl, hnl, hnl0⟩ := hch
  have hnd := lseg_nodup hI.null_dead hI.chain
  rw [hrefs] at hnd
  have hlast_lt : last < L.mem.length := load_lt hnl
  have hrdl : rd A.items (A.cnt - 1) = some last := by
    rw [hAe]
    show rd (R ++ y :: t) ((R.length : Int) - 1) = some last
    rw [hQ]
    have e : Q ++ [last] ++ y :: t = Q ++ last :: (y :: t) := by simp
    rw [e]; apply rd_mid; simp
  have hl0 : load (new_node L.mem v).2 last = some nl := by
    rw [new_node_load]; simp [Nat.ne_of_lt hlast_lt, hnl]
  obtain ⟨m1, hs1, hsd1, hfr1, hld1⟩ := setNext_spec L.mem.length hl0
  have hn1 : load m1 L.mem.length = some { data := v, next := 0 } := by
    rw [hfr1 _ (Nat.ne_of_gt hlast_lt), new_node_load]; simp
  obtain ⟨m2, hs2, hsd2, hfr2, hld2⟩ := setNext_spec 0 hn1
  have hwi : wr A.items A.cnt L.mem.length = some (R ++ L.mem.length :: t) := by
    rw [hAe]
    exact wr_mid _ _ _ _ rfl
  have hwb : wr L.blocks b { items := R ++ L.mem.length :: t, cnt := A.cnt + 1 } =
      some (Pb ++ { items := R ++ L.mem.length :: t, cnt := A.cnt + 1 } ::
        (L.blocks.drop L.nBlocks.toNat)) := by
    conv => lhs; rw [hblocks]
    exact wr_mid _ _ _ _ hb
  have hrun : appendToBlock L b v = some { L with
      blocks := Pb ++ { items := R ++ L.mem.length :: t, cnt := A.cnt + 1 } ::
        (L.blocks.drop L.nBlocks.toNat)
      size := L.size + 1
      mem := m2 } := by
    have hc : A.cnt > 0 := hAp
    simp only [appendToBlock, new_node, hrd, hhead, Option.bind_eq_bind, Option.some_bind, hc,
      if_true, hrdl]
    simp only [new_node] at hs1
    rw [hs1]
    simp only [Option.some_bind, hs2, hwi, hwb]
  have hu1 : FastList.used { L with
      blocks := Pb ++ { items := R ++ L.mem.length :: t, cnt := A.cnt + 1 } ::
        (L.blocks.drop L.nBlocks.toNat)
      size := L.size + 1
      mem := m2 } = Pb ++ [{ items := R ++ L.mem.length :: t, cnt := A.cnt + 1 }] := by
    apply @used_of_eq _ _ (L.blocks.drop L.nBlocks.toNat)
    · simp
    · simp; omega
  have eA1 : Block.refs { items := R ++ L.mem.length :: t, cnt := A.cnt + 1 } =
      R ++ [L.mem.length] := by
    have := refs_mk (R ++ [L.mem.length]) t
    rw [← hRl]
    simpa using this
  have hrefs1 : ((Pb ++ [({ items := R ++ L.mem.length :: t, cnt := A.cnt + 1 } : Block)]).map
      Block.refs).flatten = (Pb.map Block.refs).flatten ++ Q ++ [last] ++ [L.mem.length] := by
    rw [List.map_append, List.map_cons, List.map_nil, List.flatten_append, List.flatten_cons,
      List.flatten_nil, eA1, hQ]
    simp
  have hsd : SameData (new_node L.mem v).2 m2 := hsd1.trans hsd2
  have hall : AllocData L.mem m2 v := AllocData.of_sameData rfl hsd
  refine ⟨_, _, hrun, ?_, hu1, ?_, rfl, rfl, rfl, ?_, hall⟩
  · apply CoreInv.of_explicit (Pb ++ [{ items := R ++ L.mem.length :: t, cnt := A.cnt + 1 }])
      (L.blocks.drop L.nBlocks.toNat)
    · simp
    · simp; omega
    · show _ = L.capBlocks
      rw [← hI.rep.cap_len]
      conv => rhs; rw [hblocks]
      simp
    · exact hI.rep.cap_pos
    · intro blk hblk
      simp only [List.mem_append, List.mem_singleton] at hblk
      rcases hblk with (h | h) | h
      · exact (hI.rep.items_le (by rw [hU]; simp [h])).1
      · rw [h]; simp at hitl ⊢; omega
      · exact hI.rep.items_len blk (List.mem_of_mem_drop h)
    · intro blk hblk
      simp only [List.mem_append, List.mem_singleton] at hblk
      rcases hblk with h | h
      · exact (hI.rep.items_le (by rw [hU]; simp [h])).2
      · rw [h]; simp; omega
    · show 0 < m2.length
      rw [hall.1]; omega
    · exact hall.dead_old (by have := hI.heap_pos; omega) hI.null_dead
    · show lseg m2 _ L.head 0
      rw [hrefs1, lseg_snoc, lseg_snoc]
      have hll : load m2 last = some { data := nl.data, next := L.mem.length } := by
        rw [hfr2 last (Nat.ne_of_lt hlast_lt)]; exact hld1
      refine ⟨⟨?_, _, hll, rfl⟩, _, hld2, rfl⟩
      apply lseg_frame _ hPQ
      intro a ha
      have ha1 : a ≠ last := by
        rintro rfl
        exact (List.nodup_append.mp hnd).2.2 ha (List.mem_singleton_self _)
      have ha2 : a ≠ L.mem.length := Nat.ne_of_lt (lseg_lt hPQ ha)
      rw [hfr2 a ha2, hfr1 a ha1, new_node_load]; simp [ha2]
    · show L.size + 1 = _
      rw [hrefs1, hI.size_refs, hrefs]
      simp only [List.length_append, List.length_singleton]
      push_cast
      ring
    · intro blk hblk hz
      exfalso
      simp only [List.mem_append, List.mem_singleton] at hblk
      rcases hblk with h | h
      · have := @CoreInv.cnt_pos _ hI hsz blk (by rw [hU]; simp [h]); omega
      · rw [h] at hz; simp at hz; omega
  · rw [eA1, hAr]
  · rw [CoreInv.refs_eq hu1, hrefs1, hrefs]

end FastLinkedList
namespace FastLinkedList

/-! ## insert into a block -/

theorem headD_cons_append {α : Type} (R1 R2 : List α) (x d : α) :
    (R1 ++ x :: R2).headD d = R1.headD x := by
  cases R1 <;> simp

theorem insertIntoBlock_spec {L : FastList} (hI : CoreInv L) (Pb Sb : List Block) (A : Block)
    (hU : L.used = Pb ++ A :: Sb) (hlt : A.cnt < 64) (hpos : 0 < L.size)
    (b : Int) (hb : b = (Pb.length : Int)) (off0 : Int) (hoff0 : 0 ≤ off0) (v : Int) :
    ∃ L1 A1, insertIntoBlock L b off0 v = some L1 ∧ CoreInv L1 ∧ L1.used = Pb ++ A1 :: Sb ∧
      A1.refs = A.refs.take (min off0.toNat A.cnt.toNat) ++
        L.mem.length :: A.refs.drop (min off0.toNat A.cnt.toNat) ∧
      L1.size = L.size + 1 ∧ L1.nBlocks = L.nBlocks ∧ AllocData L.mem L1.mem v := by
  have hAm : A ∈ L.used := by rw [hU]; simp
  have hA := hI.rep.items_le hAm
  have hsz : 1 < L.nBlocks ∨ 0 < L.size := Or.inr hpos
  have hlen := hI.rep.used_length
  have hnb : L.nBlocks = ((Pb.length + 1 + Sb.length : Nat) : Int) := by
    rw [← hlen, hU]; simp; omega
  obtain ⟨R, tA, hAe, hAr⟩ := Block.exists_mk hA.2.1 (by omega)
  have hRl : (R.length : Int) = A.cnt := by rw [hAe]
  have hitl : (R ++ tA).length = 64 := by rw [hAe] at hA; exact hA.1
  obtain ⟨y, t, htA⟩ := exists_cons_of_length_pos tA (by simp at hitl; omega)
  subst htA
  obtain ⟨R1, R2, hR, hR1⟩ := exists_split_length R (min off0.toNat A.cnt.toNat) (by omega)
  have hR1e : R1 = A.refs.take (min off0.toNat A.cnt.toNat) := by
    rw [hAr, hR, ← hR1]; simp
  have hR2e : R2 = A.refs.drop (min off0.toNat A.cnt.toNat) := by
    rw [hAr, hR, ← hR1]; simp
  have hAi : A.items = R1 ++ R2 ++ y :: t := by rw [hAe, hR]
  have hAc : A.cnt = ((R1.length + R2.length : Nat) : Int) := by
    rw [← hRl, hR]; simp
  have hoff : (if off0 > A.cnt then A.cnt else off0) = (R1.length : Int) := by
    split <;> omega
  have hblocks : L.blocks = Pb ++ A :: Sb ++ (L.blocks.drop L.nBlocks.toNat) := by
    have := hI.rep.blocks_eq
    rw [hU] at this
    exact this
  have hrd : rd L.blocks b = some A := by
    rw [hblocks, List.append_assoc]; exact rd_mid _ _ _ hb
  have hSb : ∀ blk ∈ Sb, 0 < blk.cnt ∧ blk.cnt ≤ (blk.items.length : Int) := by
    intro blk hblk
    exact mem_used_bounds hI hsz (by rw [hU]; simp [hblk])
  have hPb : ∀ blk ∈ Pb, 0 < blk.cnt ∧ blk.cnt ≤ (blk.items.length : Int) := by
    intro blk hblk
    exact mem_used_bounds hI hsz (by rw [hU]; simp [hblk])
  have hhead0 : headOfBlock L.blocks L.nBlocks (b + 1) =
      some (((Sb.map Block.refs).flatten).headD 0) := by
    have e : Pb ++ A :: Sb ++ (L.blocks.drop L.nBlocks.toNat) =
        (Pb ++ [A]) ++ Sb ++ (L.blocks.drop L.nBlocks.toNat) := by simp
    rw [hblocks, e]
    exact headOfBlock_eq _ Sb _ _ _ (by simp; omega) (by simp; omega) hSb
  have hsucc : (if (R1.length : Int) < A.cnt then rd A.items (R1.length : Int)
      else headOfBlock L.blocks L.nBlocks (b + 1)) =
      some ((R2 ++ (Sb.map Block.refs).flatten).headD 0) := by
    cases R2 with
    | nil =>
      have : ¬ ((R1.length : Int) < A.cnt) := by rw [hAc]; simp
      simp only [this, if_false, hhead0, List.nil_append]
    | cons r R2t =>
      have : (R1.length : Int) < A.cnt := by rw [hAc]; simp
      simp only [this, if_true, hAi]
      rw [List.append_assoc]
      exact rd_mid _ _ _ rfl
  have hshift : shiftRightLoop R2.length A.cnt A.items = some (R1 ++ R2.headD y :: R2 ++ t) :=
    hAi ▸ shiftRightLoop_eq R1 R2 t y hAc
  have hwi : wr (R1 ++ R2.headD y :: R2 ++ t) (R1.length : Int) L.mem.length =
      some (R1 ++ L.mem.length :: R2 ++ t) := by
    have e : R1 ++ R2.headD y :: R2 ++ t = R1 ++ R2.headD y :: (R2 ++ t) := by simp
    rw [e, wr_mid _ _ _ _ rfl]; simp
  have hwb : wr L.blocks b { items := R1 ++ L.mem.length :: R2 ++ t, cnt := A.cnt + 1 } =
      some (Pb ++ { items := R1 ++ L.mem.length :: R2 ++ t, cnt := A.cnt + 1 } :: Sb ++
        (L.blocks.drop L.nBlocks.toNat)) := by
    conv => lhs; rw [hblocks, List.append_assoc, List.cons_append]
    rw [wr_mid _ _ _ _ hb]; simp
  have hhead1 : headOfBlock (Pb ++ { items := R1 ++ L.mem.length :: R2 ++ t, cnt := A.cnt + 1 } ::
      Sb ++ (L.blocks.drop L.nBlocks.toNat)) L.nBlocks (b + 1) =
      some (((Sb.map Block.refs).flatten).headD 0) := by
    have e : Pb ++ { items := R1 ++ L.mem.length :: R2 ++ t, cnt := A.cnt + 1 } :: Sb ++
        (L.blocks.drop L.nBlocks.toNat) =
        (Pb ++ [{ items := R1 ++ L.mem.length :: R2 ++ t, cnt := A.cnt + 1 }]) ++ Sb ++
        (L.blocks.drop L.nBlocks.toNat) := by simp
    rw [e]
    exact headOfBlock_eq _ Sb _ _ _ (by simp; omega) (by simp; omega) hSb
  -- the chain before the call
  have hrefs : L.refs = (Pb.map Block.refs).flatten ++ (R1 ++ R2) ++ (Sb.map Block.refs).flatten := by
    rw [CoreInv.refs_eq hU]; simp [hAr, hR]
  have hch := hI.chain
  rw [hrefs] at hch
  have hnd := lseg_nodup hI.null_dead hch
  have hltm : ∀ a ∈ (Pb.map Block.refs).flatten ++ (R1 ++ R2) ++ (Sb.map Block.refs).flatten,
      a < L.mem.length := fun a ha => lseg_lt hch ha
  have hchs := hch
  rw [List.append_assoc, lseg_append_head, lseg_append_head] at hchs
  obtain ⟨hP, hRR, hS⟩ := hchs
  have hdisj := List.nodup_append.mp hnd
  have hdisjP := List.nodup_append.mp hdisj.1
  have hnR : L.mem.length ∉ R1 ++ R2 := fun h =>
    absurd (hltm _ (List.mem_append_left _ (List.mem_append_right _ h))) (lt_irrefl _)
  have hndR' : (R1 ++ L.mem.length :: R2).Nodup := by
    have h12 := List.nodup_append.mp hdisjP.2.1
    rw [List.nodup_append]
    refine ⟨h12.1, List.nodup_cons.mpr ⟨fun h => hnR (List.mem_append_right _ h), h12.2.1⟩, ?_⟩
    intro a ha1 ha2
    rcases List.mem_cons.mp ha2 with rfl | h
    · exact hnR (List.mem_append_left _ ha1)
    · exact h12.2.2 ha1 h
  have hlive0 : ∀ a ∈ R1 ++ L.mem.length :: R2, ∃ n, load (new_node L.mem v).2 a = some n := by
    intro a ha
    rw [new_node_load]
    by_cases e : a = L.mem.length
    · simp [e]
    · simp only [e, if_false]
      have : a ∈ R1 ++ R2 := by
        simp only [List.mem_append, List.mem_cons] at ha ⊢
        rcases ha with h | h | h
        · exact Or.inl h
        · exact absurd h e
        · exact Or.inr h
      exact lseg_live hRR this
  have hn0 : load (new_node L.mem v).2 L.mem.length = some { data := v, next := 0 } := by
    rw [new_node_load]; simp
  have hPR' : ∀ a ∈ (Pb.map Block.refs).flatten, a ∉ R1 ++ L.mem.length :: R2 := by
    intro a ha h
    simp only [List.mem_append, List.mem_cons] at h
    rcases h with h | h | h
    · exact hdisjP.2.2 ha (List.mem_append_left _ h)
    · exact absurd (hltm a (List.mem_append_left _ (List.mem_append_left _ ha))) (by omega)
    · exact hdisjP.2.2 ha (List.mem_append_right _ h)
  have hSR' : ∀ a ∈ (Sb.map Block.refs).flatten, a ∉ R1 ++ L.mem.length :: R2 := by
    intro a ha h
    simp only [List.mem_append, List.mem_cons] at h
    rcases h with h | h | h
    · exact hdisj.2.2 (List.mem_append_right _ (List.mem_append_left _ h)) ha
    · exact absurd (hltm a (List.mem_append_right _ ha)) (by omega)
    · exact hdisj.2.2 (List.mem_append_right _ (List.mem_append_right _ h)) ha
  have key : ∃ m3 hd, insertIntoBlock L b off0 v = some { L with
      head := hd
      blocks := Pb ++ { items := R1 ++ L.mem.length :: R2 ++ t, cnt := A.cnt + 1 } :: Sb ++
        (L.blocks.drop L.nBlocks.toNat)
      size := L.size + 1
      mem := m3 } ∧ SameData (new_node L.mem v).2 m3 ∧
      lseg m3 ((Pb.map Block.refs).flatten ++ (R1 ++ L.mem.length :: R2) ++
        (Sb.map Block.refs).flatten) hd 0 := by
    have hS0 : ∀ a ∈ (Sb.map Block.refs).flatten, a ≠ L.mem.length := fun a ha =>
      Nat.ne_of_lt (hltm a (List.mem_append_right _ ha))
    by_cases hbr : R1 = [] ∧ Pb = []
    · -- the new node becomes the head
      obtain ⟨hR1n, hPbn⟩ := hbr
      subst hR1n; subst hPbn
      have hc : ¬ ((([] : List Nat).length : Int) > 0 ∨ b ≠ 0) := by simp [hb]
      obtain ⟨m1, hs1, hsd1, hfr1, _⟩ := setNext_spec L.head hn0
      have hSm1 : lseg m1 ((Sb.map Block.refs).flatten) (((Sb.map Block.refs).flatten).headD 0) 0 := by
        apply lseg_frame _ hS
        intro a ha
        rw [hfr1 a (hS0 a ha), new_node_load]; simp [hS0 a ha]
      obtain ⟨m3, hr, hsd3, _, hseg⟩ := relink_assemble
        { items := [] ++ L.mem.length :: R2 ++ t, cnt := A.cnt + 1 }
        ([] ++ L.mem.length :: R2) t [] ((Sb.map Block.refs).flatten) m1 L.mem.length
        (by simp) (by rw [hAc]; simp) hndR' (hsd1.lives hlive0) (by simp [lseg]) hSm1
        (by simp) hSR'
      refine ⟨m3, L.mem.length, ?_, hsd1.trans hsd3, by simpa using hseg⟩
      have hk : A.cnt.toNat = R2.length := by rw [hAc]; simp
      have hwi0 : wr ([] ++ R2.headD y :: R2 ++ t) 0 L.mem.length =
          some ([] ++ L.mem.length :: R2 ++ t) := by simpa using hwi
      simp only [insertIntoBlock, hrd, hoff, new_node, hsucc, Option.bind_eq_bind, Option.some_bind,
        hc, if_false, hk, hshift, hwi0, hwb, hhead1]
      simp only [new_node] at hs1
      rw [hs1]
      simp only [Option.some_bind, hr]
    · -- the new node follows a predecessor
      have hc : ((R1.length : Int) > 0 ∨ b ≠ 0) := by
        by_cases h1 : R1 = []
        · right
          have : Pb ≠ [] := fun h => hbr ⟨h1, h⟩
          have : 0 < Pb.length := List.length_pos.mpr this
          omega
        · left
          have : 0 < R1.length := List.length_pos.mpr h1
          omega
      have hpred : ∃ Q p, (Pb.map Block.refs).flatten ++ R1 = Q ++ [p] ∧
          (if (R1.length : Int) > 0 then rd A.items ((R1.length : Int) - 1)
            else (rd L.blocks (b - 1)).bind fun prevBlk => rd prevBlk.items (prevBlk.cnt - 1)) =
          some p := by
        by_cases h1 : R1 = []
        · subst h1
          have hPbne : Pb ≠ [] := fun h => hbr ⟨rfl, h⟩
          obtain ⟨Pb1, prev, hPb1⟩ := exists_snoc_of_ne_nil Pb hPbne
          have hprev := hPb prev (by rw [hPb1]; simp)
          have hpm : prev ∈ L.used := by rw [hU, hPb1]; simp
          have hpi := hI.rep.items_le hpm
          obtain ⟨Rp, tp, hpe, hpr⟩ := Block.exists_mk hpi.2.1 (by omega)
          have hRpne : Rp ≠ [] := by
            intro h
            rw [hpe, h] at hprev
            simp at hprev
          obtain ⟨Qp, p, hQp⟩ := exists_snoc_of_ne_nil Rp hRpne
          refine ⟨(Pb1.map Block.refs).flatten ++ Qp, p, ?_, ?_⟩
          · rw [hPb1]; simp [hpr, hQp]
          · have hrp : rd L.blocks (b - 1) = some prev := by
              rw [hblocks, hPb1]
              have e : Pb1 ++ [prev] ++ A :: Sb ++ List.drop L.nBlocks.toNat L.blocks =
                  Pb1 ++ prev :: (A :: Sb ++ List.drop L.nBlocks.toNat L.blocks) := by simp
              rw [e]; apply rd_mid
              rw [hb, hPb1]; simp
            have hrl : rd prev.items (prev.cnt - 1) = some p := by
              rw [hpe]
              show rd (Rp ++ tp) ((Rp.length : Int) - 1) = some p
              rw [hQp]
              have e : Qp ++ [p] ++ tp = Qp ++ p :: tp := by simp
              rw [e]; apply rd_mid; simp
            simp [hrp, hrl]
        · obtain ⟨Q1, p, hQ1⟩ := exists_snoc_of_ne_nil R1 h1
          refine ⟨(Pb.map Block.refs).flatten ++ Q1, p, by rw [hQ1]; simp, ?_⟩
          have h0 : (R1.length : Int) > 0 := by
            have : 0 < R1.length := List.length_pos.mpr h1
            omega
          simp only [h0, if_true, hAi]
          rw [hQ1]
          have e : Q1 ++ [p] ++ R2 ++ y :: t = Q1 ++ p :: (R2 ++ y :: t) := by simp
          rw [e]; apply rd_mid; simp
      obtain ⟨Q, p, hQp, hpred⟩ := hpred
      have hch2 := hch
      rw [← List.append_assoc, hQp, List.append_assoc, List.append_assoc, lseg_append] at hch2
      obtain ⟨r, hQ, hrest⟩ := hch2
      obtain ⟨hrp, np, hnp, _⟩ := hrest
      subst hrp
      have hpmem : r ∈ (Pb.map Block.refs).flatten ++ R1 := by rw [hQp]; simp
      have hplt : r < L.mem.length :=
        hltm r (by
          rw [List.append_assoc]
          rcases List.mem_append.mp hpmem with h | h
          · exact List.mem_append_left _ h
          · exact List.mem_append_right _ (List.mem_append_left _ (List.mem_append_left _ h)))
      have hp0 : load (new_node L.mem v).2 r = some np := by
        rw [new_node_load]; simp [Nat.ne_of_lt hplt, hnp]
      obtain ⟨m1, hs1, hsd1, hfr1, hld1⟩ := setNext_spec L.mem.length hp0
      have hn1 : load m1 L.mem.length = some { data := v, next := 0 } := by
        rw [hfr1 _ (Nat.ne_of_gt hplt)]; exact hn0
      obtain ⟨m2, hs2, hsd2, hfr2, _⟩ :=
        setNext_spec ((R2 ++ (Sb.map Block.refs).flatten).headD 0) hn1
      have hndQ : ((Pb.map Block.refs).flatten ++ R1).Nodup := by
        have := hdisj.1
        rw [← List.append_assoc] at this
        exact (List.nodup_append.mp this).1
      have hQm2 : lseg m2 (Q ++ [r]) L.head L.mem.length := by
        rw [lseg_snoc]
        refine ⟨?_, { data := np.data, next := L.mem.length }, ?_, rfl⟩
        · apply lseg_frame _ hQ
          intro a ha
          have ha1 : a ≠ r := by
            rintro rfl
            rw [hQp] at hndQ
            exact (List.nodup_append.mp hndQ).2.2 ha (List.mem_singleton_self _)
          have ha2 : a ≠ L.mem.length := Nat.ne_of_lt (lseg_lt hQ ha)
          rw [hfr2 a ha2, hfr1 a ha1, new_node_load]; simp [ha2]
        · rw [hfr2 r (Nat.ne_of_lt hplt)]; exact hld1
      rw [← hQp, lseg_append_head] at hQm2
      have hPm2 := hQm2.1
      have hSm2 : lseg m2 ((Sb.map Block.refs).flatten) (((Sb.map Block.refs).flatten).headD 0) 0 := by
        apply lseg_frame _ hS
        intro a ha
        have ha1 : a ≠ r := by
          rintro rfl
          rcases List.mem_append.mp hpmem with h | h
          · exact hdisj.2.2 (List.mem_append_left _ h) ha
          · exact hdisj.2.2 (List.mem_append_right _ (List.mem_append_left _ h)) ha
        rw [hfr2 a (hS0 a ha), hfr1 a ha1, new_node_load]; simp [hS0 a ha]
      obtain ⟨m3, hr, hsd3, _, hseg⟩ := relink_assemble
        { items := R1 ++ L.mem.length :: R2 ++ t, cnt := A.cnt + 1 }
        (R1 ++ L.mem.length :: R2) t ((Pb.map Block.refs).flatten) ((Sb.map Block.refs).flatten)
        m2 L.head
        (by simp) (by rw [hAc]; simp; omega) hndR' ((hsd1.trans hsd2).lives hlive0)
        (by rw [headD_cons_append]; exact hPm2) hSm2 hPR' hSR'
      refine ⟨m3, L.head, ?_, (hsd1.trans hsd2).trans hsd3, hseg⟩
      have hk : (A.cnt - (R1.length : Int)).toNat = R2.length := by rw [hAc]; simp
      simp only [insertIntoBlock, hrd, hoff, new_node, hsucc, Option.bind_eq_bind, Option.some_bind,
        hc, if_true, hpred, hk, hshift, hwi, hwb, hhead1]
      simp only [new_node] at hs1 hs2
      rw [hs1]
      simp only [Option.some_bind, hs2, hr]
  obtain ⟨m3, hd, hrun, hsd, hseg⟩ := key
  have hu1 : FastList.used { L with
      head := hd
      blocks := Pb ++ { items := R1 ++ L.mem.length :: R2 ++ t, cnt := A.cnt + 1 } :: Sb ++
        (L.blocks.drop L.nBlocks.toNat)
      size := L.size + 1
      mem := m3 } = Pb ++ { items := R1 ++ L.mem.length :: R2 ++ t, cnt := A.cnt + 1 } :: Sb := by
    apply @used_of_eq _ _ (L.blocks.drop L.nBlocks.toNat)
    · rfl
    · simp; omega
  have eA1 : Block.refs { items := R1 ++ L.mem.length :: R2 ++ t, cnt := A.cnt + 1 } =
      R1 ++ L.mem.length :: R2 := by
    have := refs_mk (R1 ++ L.mem.length :: R2) t
    rw [hAc]
    simpa [add_assoc] using this
  have hrefs1 : ((Pb ++ ({ items := R1 ++ L.mem.length :: R2 ++ t, cnt := A.cnt + 1 } : Block) ::
      Sb).map Block.refs).flatten = (Pb.map Block.refs).flatten ++ (R1 ++ L.mem.length :: R2) ++
        (Sb.map Block.refs).flatten := by
    rw [List.map_append, List.map_cons, List.flatten_append, List.flatten_cons, eA1]
    simp only [List.append_assoc]
  have hall : AllocData L.mem m3 v := AllocData.of_sameData rfl hsd
  refine ⟨_, _, hrun, ?_, hu1, ?_, rfl, rfl, hall⟩
  · apply CoreInv.of_explicit
      (Pb ++ { items := R1 ++ L.mem.length :: R2 ++ t, cnt := A.cnt + 1 } :: Sb)
      (L.blocks.drop L.nBlocks.toNat)
    · rfl
    · simp; omega
    · show _ = L.capBlocks
      rw [← hI.rep.cap_len]
      conv => rhs; rw [hblocks]
      simp
    · exact hI.rep.cap_pos
    · intro blk hblk
      simp only [List.mem_append, List.mem_cons] at hblk
      rcases hblk with (h | h | h) | h
      · exact (hI.rep.items_le (by rw [hU]; simp [h])).1
      · rw [h]; simp at hitl ⊢; rw [hR] at hitl; simp at hitl; omega
      · exact (hI.rep.items_le (by rw [hU]; simp [h])).1
      · exact hI.rep.items_len blk (List.mem_of_mem_drop h)
    · intro blk hblk
      simp only [List.mem_append, List.mem_cons] at hblk
      rcases hblk with h | h | h
      · exact (hI.rep.items_le (by rw [hU]; simp [h])).2
      · rw [h]; simp; omega
      · exact (hI.rep.items_le (by rw [hU]; simp [h])).2
    · show 0 < m3.length
      rw [hall.1]; omega
    · exact hall.dead_old (by have := hI.heap_pos; omega) hI.null_dead
    · show lseg m3 _ hd 0
      rw [hrefs1]; exact hseg
    · show L.size + 1 = _
      rw [hrefs1, hI.size_refs, hrefs]
      simp only [List.length_append, List.length_cons]
      push_cast
      ring
    · intro blk hblk hz
      exfalso
      simp only [List.mem_append, List.mem_cons] at hblk
      rcases hblk with h | h | h
      · have := @CoreInv.cnt_pos _ hI hsz blk (by rw [hU]; simp [h]); omega
      · rw [h] at hz; simp at hz; omega
      · have := @CoreInv.cnt_pos _ hI hsz blk (by rw [hU]; simp [h]); omega
  · rw [eA1, hR1e, hR2e]

end FastLinkedList
namespace FastLinkedList

/-! ## locate and the decomposition of the blocks in use -/

theorem locate_eq (L : FastList) (pos : Int) (h : 0 ≤ pos) :
    locate L pos = (if pos / 64 ≥ L.nBlocks then L.nBlocks - 1 else pos / 64, pos % 64) := by
  simp only [locate, B]
  rw [Int.tdiv_eq_ediv h (by omega), Int.tmod_eq_emod h (by omega)]

theorem used_split_at {L : FastList} (hI : CoreInv L) (b : Int) (h0 : 0 ≤ b) (h1 : b < L.nBlocks) :
    ∃ Pb A Sb, L.used = Pb ++ A :: Sb ∧ b = (Pb.length : Int) := by
  have hlen := hI.rep.used_length
  have hn : b.toNat < L.used.length := by omega
  refine ⟨L.used.take b.toNat, L.used[b.toNat], L.used.drop (b.toNat + 1), ?_, ?_⟩
  · rw [List.getElem_cons_drop, List.take_append_drop]
  · rw [List.length_take]; omega

theorem CoreInv.nBlocks_pos {L : FastList} (hI : CoreInv L) (hpos : 0 < L.size) : 1 ≤ L.nBlocks := by
  have hlen := hI.rep.used_length
  have hs := hI.size_eq
  cases hu : L.used with
  | nil => rw [hu] at hs; simp at hs; omega
  | cons a t => rw [hu] at hlen; simp at hlen; omega

theorem insert_mid_eq {α : Type} (P R S : List α) (x : α) (j : Nat) (hj : j ≤ R.length) :
    P ++ (R.take j ++ x :: R.drop j) ++ S =
      (P ++ R ++ S).take (P.length + j) ++ x :: (P ++ R ++ S).drop (P.length + j) := by
  rw [List.append_assoc P R S, List.take_append, List.drop_append,
    List.take_append_of_le_length hj, List.drop_append_of_le_length hj]
  simp

/-! ## insert -/

theorem insertAppend_spec {L : FastList} (hI : CoreInv L) (hpos : 0 < L.size) (v : Int) :
    ∃ L1, insertAppend L v = some L1 ∧ CoreInv L1 ∧ L1.size = L.size + 1 ∧
      L1.head = L.head ∧ L1.refs = L.refs ++ [L.mem.length] ∧ AllocData L.mem L1.mem v := by
  have hnb := hI.nBlocks_pos hpos
  obtain ⟨Pb, A, Sb, hU, hb⟩ := used_split_at hI (L.nBlocks - 1) (by omega) (by omega)
  have hlen := hI.rep.used_length
  have hSb : Sb = [] := by
    rw [hU] at hlen
    simp at hlen
    apply List.eq_nil_of_length_eq_zero
    omega
  subst hSb
  have hAm : A ∈ L.used := by rw [hU]; simp
  have hA := hI.rep.items_le hAm
  have hblocks : L.blocks = Pb ++ A :: (L.blocks.drop L.nBlocks.toNat) := by
    have := hI.rep.blocks_eq
    rw [hU] at this
    simpa using this
  have hrd : rd L.blocks (L.nBlocks - 1) = some A := by
    rw [hblocks]; exact rd_mid _ _ _ hb
  by_cases hfull : A.cnt = B
  · have h2 : 2 ≤ A.cnt := by rw [hfull]; simp [B]
    obtain ⟨L1, A1, B2, hrun, hI1, hU1, hrefsAB, hA1c, hB2c, hhd, hsize, hnb1, hrefs1, hsd⟩ :=
      split_block_spec hI Pb [] A hU h2 (L.nBlocks - 1) hb
    have hB2lt : B2.cnt < 64 := by
      rw [hB2c, hfull, B]; decide
    obtain ⟨L2, B3, hrun2, hI2, hU2, _, hhd2, hsize2, _, hrefs2, hall⟩ :=
      appendToBlock_spec hI1 (Pb ++ [A1]) B2 (by rw [hU1]; simp) hB2lt (by omega)
        (L1.nBlocks - 1) (by rw [hnb1]; simp; omega) v
    refine ⟨L2, ?_, hI2, by omega, by rw [hhd2, hhd], ?_, ?_⟩
    · simp only [insertAppend, hrd, Option.bind_eq_bind, Option.some_bind, hfull, if_true, hrun]
      exact hrun2
    · rw [hrefs2, hrefs1, hsd.1]
    · refine ⟨by rw [hall.1, hsd.1], ?_, ?_⟩
      · intro a ha
        rw [hall.2.1 a (by rw [hsd.1]; exact ha), hsd.2 a]
      · have := hall.2.2
        rw [hsd.1] at this
        exact this
  · have hlt : A.cnt < 64 := by
      have := hA.2.2
      simp only [B] at hfull
      omega
    obtain ⟨L2, B3, hrun2, hI2, hU2, _, hhd2, hsize2, _, hrefs2, hall⟩ :=
      appendToBlock_spec hI Pb A hU hlt hpos (L.nBlocks - 1) hb v
    refine ⟨L2, ?_, hI2, hsize2, hhd2, hrefs2, hall⟩
    simp only [insertAppend, hrd, Option.bind_eq_bind, Option.some_bind, hfull, if_false]
    exact hrun2

theorem insertInside_spec {L : FastList} (hI : CoreInv L) (hpos : 0 < L.size) (pos : Int)
    (h0 : 0 ≤ pos) (v : Int) :
    ∃ L1 k, insertInside L pos v = some L1 ∧ CoreInv L1 ∧ L1.size = L.size + 1 ∧
      k ≤ L.refs.length ∧ L1.refs = L.refs.take k ++ L.mem.length :: L.refs.drop k ∧
      AllocData L.mem L1.mem v := by
  have hnb := hI.nBlocks_pos hpos
  have hloc := locate_eq L pos h0
  have hq : 0 ≤ pos / 64 := Int.ediv_nonneg h0 (by omega)
  have hr : 0 ≤ pos % 64 := Int.emod_nonneg pos (by omega)
  obtain ⟨Pb, A, Sb, hU, hb⟩ := used_split_at hI
    (if pos / 64 ≥ L.nBlocks then L.nBlocks - 1 else pos / 64) (by split <;> omega)
    (by split <;> omega)
  have hbnn : ¬ ((if pos / 64 ≥ L.nBlocks then L.nBlocks - 1 else pos / 64) < 0) := by
    split <;> omega
  have hlen := hI.rep.used_length
  have hAm : A ∈ L.used := by rw [hU]; simp
  have hA := hI.rep.items_le hAm
  have hblocks : L.blocks = Pb ++ A :: (Sb ++ L.blocks.drop L.nBlocks.toNat) := by
    have := hI.rep.blocks_eq
    rw [hU] at this
    simpa using this
  have hrd : rd L.blocks (if pos / 64 ≥ L.nBlocks then L.nBlocks - 1 else pos / 64) = some A := by
    rw [hblocks]; exact rd_mid _ _ _ hb
  have hAr := Block.refs_length hA.2.1 (by omega)
  by_cases hfull : A.cnt = B
  · have h2 : 2 ≤ A.cnt := by rw [hfull]; simp [B]
    obtain ⟨L1, A1, B2, hrun, hI1, hU1, hrefsAB, hA1c, hB2c, hhd, hsize, hnb1, hrefs1, hsd⟩ :=
      split_block_spec hI Pb Sb A hU h2 _ hb
    have hloc1 := locate_eq L1 pos h0
    have hA1lt : A1.cnt < 64 := by rw [hA1c, hfull, B]; decide
    have hB2lt : B2.cnt < 64 := by rw [hB2c, hfull, B]; decide
    have hA1m : A1 ∈ L1.used := by rw [hU1]; simp
    have hB2m : B2 ∈ L1.used := by rw [hU1]; simp
    have hA1b := hI1.rep.items_le hA1m
    have hB2b := hI1.rep.items_le hB2m
    have hA1r := Block.refs_length hA1b.2.1 (by omega)
    have hB2r := Block.refs_length hB2b.2.1 (by omega)
    have hR1 : L1.refs = (Pb.map Block.refs).flatten ++ A1.refs ++
        (B2.refs ++ (Sb.map Block.refs).flatten) := by
      rw [CoreInv.refs_eq hU1]; simp
    have hR2 : L1.refs = ((Pb.map Block.refs).flatten ++ A1.refs) ++ B2.refs ++
        (Sb.map Block.refs).flatten := by
      rw [CoreInv.refs_eq hU1]; simp
    by_cases hcase : pos / 64 ≥ L.nBlocks
    · -- the relocated block is the new upper half
      have hb1 : (if pos / 64 ≥ L1.nBlocks then L1.nBlocks - 1 else pos / 64) =
          ((Pb ++ [A1]).length : Int) := by
        simp only [hcase, if_true] at hb
        rw [hnb1]
        simp only [List.length_append, List.length_singleton]
        push_cast
        split <;> omega
      obtain ⟨L2, A2, hrun2, hI2, hU2, hA2r, hsize2, _, hall⟩ :=
        insertIntoBlock_spec hI1 (Pb ++ [A1]) Sb B2 (by rw [hU1]; simp) hB2lt (by omega)
          _ hb1 (pos % 64) hr v
      refine ⟨L2, ((Pb.map Block.refs).flatten ++ A1.refs).length +
        min (pos % 64).toNat B2.cnt.toNat, ?_, hI2, by omega, ?_, ?_, ?_⟩
      · simp only [insertInside, hloc, hbnn, if_false, hrd, Option.bind_eq_bind, Option.some_bind,
          hfull, if_true, hrun, hloc1]
        exact hrun2
      · rw [← hrefs1, hR2]
        simp only [List.length_append]
        omega
      · rw [CoreInv.refs_eq hU2, ← hrefs1, hR2, hsd.1] at *
        rw [← insert_mid_eq _ _ _ _ _ (by omega)]
        simp [hA2r, hsd.1]
      · refine ⟨by rw [hall.1, hsd.1], ?_, ?_⟩
        · intro a ha
          rw [hall.2.1 a (by rw [hsd.1]; exact ha), hsd.2 a]
        · have := hall.2.2
          rw [hsd.1] at this
          exact this
    · have hb1 : (if pos / 64 ≥ L1.nBlocks then L1.nBlocks - 1 else pos / 64) =
          (Pb.length : Int) := by
        simp only [hcase, if_false] at hb
        rw [hnb1]
        split <;> omega
      obtain ⟨L2, A2, hrun2, hI2, hU2, hA2r, hsize2, _, hall⟩ :=
        insertIntoBlock_spec hI1 Pb (B2 :: Sb) A1 hU1 hA1lt (by omega)
          _ hb1 (pos % 64) hr v
      refine ⟨L2, (Pb.map Block.refs).flatten.length +
        min (pos % 64).toNat A1.cnt.toNat, ?_, hI2, by omega, ?_, ?_, ?_⟩
      · simp only [insertInside, hloc, hbnn, if_false, hrd, Option.bind_eq_bind, Option.some_bind,
          hfull, if_true, hrun, hloc1]
        exact hrun2
      · rw [← hrefs1, hR1]
        simp only [List.length_append]
        omega
      · rw [CoreInv.refs_eq hU2, ← hrefs1, hR1, hsd.1] at *
        rw [← insert_mid_eq _ _ _ _ _ (by omega)]
        simp [hA2r, hsd.1]
      · refine ⟨by rw [hall.1, hsd.1], ?_, ?_⟩
        · intro a ha
          rw [hall.2.1 a (by rw [hsd.1]; exact ha), hsd.2 a]
        · have := hall.2.2
          rw [hsd.1] at this
          exact this
  · have hlt : A.cnt < 64 := by
      have := hA.2.2
      simp only [B] at hfull
      omega
    obtain ⟨L2, A2, hrun2, hI2, hU2, hA2r, hsize2, _, hall⟩ :=
      insertIntoBlock_spec hI Pb Sb A hU hlt hpos _ hb (pos % 64) hr v
    have hR0 : L.refs = (Pb.map Block.refs).flatten ++ A.refs ++ (Sb.map Block.refs).flatten := by
      rw [CoreInv.refs_eq hU]; simp
    refine ⟨L2, (Pb.map Block.refs).flatten.length + min (pos % 64).toNat A.cnt.toNat, ?_, hI2,
      hsize2, ?_, ?_, hall⟩
    · simp only [insertInside, hloc, hbnn, if_false, hrd, Option.bind_eq_bind, Option.some_bind,
        hfull]
      exact hrun2
    · rw [hR0]
      simp only [List.length_append]
      omega
    · rw [CoreInv.refs_eq hU2, hR0]
      rw [← insert_mid_eq _ _ _ _ _ (by omega)]
      simp [hA2r]

theorem insert_spec {L : FastList} (hI : CoreInv L) (pos : Int) (h0 : 0 ≤ pos)
    (h1 : pos ≤ L.size) (v : Int) :
    ∃ L1 k, insert L pos v = some L1 ∧ CoreInv L1 ∧ L1.size = L.size + 1 ∧
      k ≤ L.refs.length ∧ L1.refs = L.refs.take k ++ L.mem.length :: L.refs.drop k ∧
      AllocData L.mem L1.mem v := by
  have hg : ¬ (pos < 0 ∨ pos > L.size) := by omega
  have hsr := hI.size_refs
  by_cases hz : L.size = 0
  · obtain ⟨L1, A1, hrun, hI1, hU1, hA1, _, hs1, _, hall⟩ := insertFirst_spec hI v
    have hnil : L.refs = [] := by
      apply List.eq_nil_of_length_eq_zero
      omega
    refine ⟨L1, 0, ?_, hI1, by omega, by omega, ?_, hall⟩
    · unfold insert
      rw [if_neg hg, if_pos hz]
      exact hrun
    · rw [CoreInv.refs_eq hU1, hnil]; simp [hA1]
  · have hpos : 0 < L.size := by omega
    by_cases he : pos = L.size
    · obtain ⟨L1, hrun, hI1, hs1, _, hr1, hall⟩ := insertAppend_spec hI hpos v
      refine ⟨L1, L.refs.length, ?_, hI1, hs1, le_refl _, ?_, hall⟩
      · unfold insert
        rw [if_neg hg, if_neg hz, if_pos he]
        exact hrun
      · rw [hr1]; simp
    · obtain ⟨L1, k, hrun, hI1, hs1, hk, hr1, hall⟩ := insertInside_spec hI hpos pos h0 v
      refine ⟨L1, k, ?_, hI1, hs1, hk, hr1, hall⟩
      unfold insert
      rw [if_neg hg, if_neg hz, if_neg he]
      exact hrun

end FastLinkedList
namespace FastLinkedList

/-! ## The state inside removeAt -/

theorem CoreInv.toLink {L : FastList} (h : CoreInv L) : LinkInv L :=
  ⟨h.rep, h.heap_pos, h.null_dead, h.chain, h.size_eq⟩

theorem LinkInv.toCore {L : FastList} (h : LinkInv L)
    (hne : ∀ blk ∈ L.used, blk.cnt = 0 → L.nBlocks = 1) : CoreInv L :=
  ⟨h.rep, h.heap_pos, h.null_dead, h.chain, h.size_eq, hne⟩

theorem LinkInv.of_parts {L : FastList} (Ub rest : List Block)
    (hb : L.blocks = Ub ++ rest) (hn : L.nBlocks = (Ub.length : Int))
    (hcap : ((Ub ++ rest).length : Int) = L.capBlocks) (hpos : 0 < L.capBlocks)
    (hitems : ∀ blk ∈ Ub ++ rest, blk.items.length = 64)
    (hcnt : ∀ blk ∈ Ub, 0 ≤ blk.cnt ∧ blk.cnt ≤ 64)
    (hmem : 0 < L.mem.length) (h0 : load L.mem 0 = none)
    (hch : lseg L.mem ((Ub.map Block.refs).flatten) L.head 0)
    (hsize : L.size = (((Ub.map Block.refs).flatten.length : Nat) : Int)) : LinkInv L := by
  have hu : L.used = Ub := used_of_eq hb hn
  have hrep : Rep L := by
    refine ⟨by rw [hb]; exact hcap, hpos, by omega, ?_, by rw [hb]; exact hitems, ?_⟩
    · rw [← hcap, hn]; simp
    · rw [hu]; simpa [B] using hcnt
  refine ⟨hrep, hmem, h0, ?_, ?_⟩
  · simp only [FastList.refs, FastList.layout, hu]; exact hch
  · rw [hrep.sum_cnt]
    simp only [FastList.refs, FastList.layout, hu]; exact hsize

theorem LinkInv.size_length {L : FastList} (h : LinkInv L) : L.size = (L.refs.length : Int) := by
  rw [h.size_eq, h.rep.sum_cnt]

theorem FreeData.dataAt_other {m m1 : Heap} {p : Nat} (h : FreeData m m1 p) {a : Nat}
    (ha : a ≠ p) : dataAt m1 a = dataAt m a := by
  have := h.2.1 a ha
  unfold FastLinkedList.dataAt
  cases h1 : load m1 a <;> cases h2 : load m a <;> rw [h1, h2] at this <;> simp at this ⊢
  exact this

theorem load_free {m m1 : Heap} {p : Nat} (h : free m p = some m1) (a : Nat) :
    load m1 a = if a = p then none else load m a := by
  obtain ⟨n, hn, rfl⟩ := free_some h
  exact load_set m p a none (load_lt hn)

/-! ## removeAt: unlinking the node -/

theorem unlinkFromBlock_spec {L : FastList} (hI : CoreInv L) (Pb Sb : List Block) (A : Block)
    (hU : L.used = Pb ++ A :: Sb) (hpos : 0 < L.size)
    (b : Int) (hb : b = (Pb.length : Int)) (off0 : Int) (hoff0 : 0 ≤ off0) (pos : Int)
    (hp : pos = 0 ↔ (Pb = [] ∧ min off0.toNat (A.cnt.toNat - 1) = 0)) :
    ∃ L1 A1 x, unlinkFromBlock L pos b off0 = some (dataAt L.mem x, L1) ∧ LinkInv L1 ∧
      L1.used = Pb ++ A1 :: Sb ∧
      A.refs[min off0.toNat (A.cnt.toNat - 1)]? = some x ∧
      A1.refs = A.refs.eraseIdx (min off0.toNat (A.cnt.toNat - 1)) ∧
      A1.cnt = A.cnt - 1 ∧
      L1.size = L.size - 1 ∧ L1.nBlocks = L.nBlocks ∧ FreeData L.mem L1.mem x := by
  have hAm : A ∈ L.used := by rw [hU]; simp
  have hA := hI.rep.items_le hAm
  have hsz : 1 < L.nBlocks ∨ 0 < L.size := Or.inr hpos
  have hAp := hI.cnt_pos hsz hAm
  have hlen := hI.rep.used_length
  have hnb : L.nBlocks = ((Pb.length + 1 + Sb.length : Nat) : Int) := by
    rw [← hlen, hU]; simp; omega
  obtain ⟨R, tA, hAe, hAr⟩ := Block.exists_mk hA.2.1 (by omega)
  have hRl : (R.length : Int) = A.cnt := by rw [hAe]
  have hitl : (R ++ tA).length = 64 := by rw [hAe] at hA; exact hA.1
  have hk : min off0.toNat (A.cnt.toNat - 1) < R.length := by omega
  obtain ⟨R1, x, R2, hR, hR1⟩ : ∃ R1 x R2, R = R1 ++ x :: R2 ∧
      R1.length = min off0.toNat (A.cnt.toNat - 1) :=
    ⟨R.take _, R[min off0.toNat (A.cnt.toNat - 1)], R.drop (_ + 1),
      by rw [List.getElem_cons_drop, List.take_append_drop], by rw [List.length_take]; omega⟩
  have hxe : A.refs[min off0.toNat (A.cnt.toNat - 1)]? = some x := by
    rw [hAr, hR, ← hR1]; exact getElem?_mid _ _ _ _ rfl
  have hR12 : R1 ++ R2 = A.refs.eraseIdx (min off0.toNat (A.cnt.toNat - 1)) := by
    rw [hAr, hR, ← hR1, List.eraseIdx_eq_take_drop_succ]
    simp
  have hAi : A.items = R1 ++ x :: R2 ++ tA := by rw [hAe, hR]
  have hAc : A.cnt = ((R1.length + 1 + R2.length : Nat) : Int) := by
    rw [← hRl, hR]; simp; omega
  have hoff : (if off0 ≥ A.cnt then A.cnt - 1 else off0) = (R1.length : Int) := by
    split <;> omega
  have hblocks : L.blocks = Pb ++ A :: Sb ++ (L.blocks.drop L.nBlocks.toNat) := by
    have := hI.rep.blocks_eq
    rw [hU] at this
    exact this
  have hrd : rd L.blocks b = some A := by
    rw [hblocks, List.append_assoc]; exact rd_mid _ _ _ hb
  have hSb : ∀ blk ∈ Sb, 0 < blk.cnt ∧ blk.cnt ≤ (blk.items.length : Int) := by
    intro blk hblk
    exact mem_used_bounds hI hsz (by rw [hU]; simp [hblk])
  have hPb : ∀ blk ∈ Pb, 0 < blk.cnt ∧ blk.cnt ≤ (blk.items.length : Int) := by
    intro blk hblk
    exact mem_used_bounds hI hsz (by rw [hU]; simp [hblk])
  have hrdx : rd A.items (R1.length : Int) = some x := by
    rw [hAi, List.append_assoc, List.cons_append]; exact rd_mid _ _ _ rfl
  have hhead0 : headOfBlock L.blocks L.nBlocks (b + 1) =
      some (((Sb.map Block.refs).flatten).headD 0) := by
    have e : Pb ++ A :: Sb ++ (L.blocks.drop L.nBlocks.toNat) =
        (Pb ++ [A]) ++ Sb ++ (L.blocks.drop L.nBlocks.toNat) := by simp
    rw [hblocks, e]
    exact headOfBlock_eq _ Sb _ _ _ (by simp; omega) (by simp; omega) hSb
  have hsucc : (if (R1.length : Int) + 1 < A.cnt then rd A.items ((R1.length : Int) + 1)
      else headOfBlock L.blocks L.nBlocks (b + 1)) =
      some ((R2 ++ (Sb.map Block.refs).flatten).headD 0) := by
    cases R2 with
    | nil =>
      have : ¬ ((R1.length : Int) + 1 < A.cnt) := by rw [hAc]; simp
      simp only [this, if_false, hhead0, List.nil_append]
    | cons r R2t =>
      have : (R1.length : Int) + 1 < A.cnt := by rw [hAc]; push_cast; simp
      simp only [this, if_true, hAi]
      have e : R1 ++ x :: r :: R2t ++ tA = (R1 ++ [x]) ++ r :: (R2t ++ tA) := by simp
      rw [e]
      apply rd_mid; simp
  have hkk : (A.cnt - 1 - (R1.length : Int)).toNat = R2.length := by rw [hAc]; simp; omega
  have hshift : shiftLeftLoop R2.length (R1.length : Int) A.items =
      some (R1 ++ R2 ++ R2.getLastD x :: tA) :=
    hAi ▸ shiftLeftLoop_eq R1 R2 tA x rfl
  have hwb : wr L.blocks b { items := R1 ++ R2 ++ R2.getLastD x :: tA, cnt := A.cnt - 1 } =
      some (Pb ++ { items := R1 ++ R2 ++ R2.getLastD x :: tA, cnt := A.cnt - 1 } :: Sb ++
        (L.blocks.drop L.nBlocks.toNat)) := by
    conv => lhs; rw [hblocks, List.append_assoc, List.cons_append]
    rw [wr_mid _ _ _ _ hb]; simp
  have hhead1 : headOfBlock (Pb ++ { items := R1 ++ R2 ++ R2.getLastD x :: tA, cnt := A.cnt - 1 } ::
      Sb ++ (L.blocks.drop L.nBlocks.toNat)) L.nBlocks (b + 1) =
      some (((Sb.map Block.refs).flatten).headD 0) := by
    have e : Pb ++ { items := R1 ++ R2 ++ R2.getLastD x :: tA, cnt := A.cnt - 1 } :: Sb ++
        (L.blocks.drop L.nBlocks.toNat) =
        (Pb ++ [{ items := R1 ++ R2 ++ R2.getLastD x :: tA, cnt := A.cnt - 1 }]) ++ Sb ++
        (L.blocks.drop L.nBlocks.toNat) := by simp
    rw [e]
    exact headOfBlock_eq _ Sb _ _ _ (by simp; omega) (by simp; omega) hSb
  -- the chain before the call
  have hrefs : L.refs = (Pb.map Block.refs).flatten ++ (R1 ++ x :: R2) ++
      (Sb.map Block.refs).flatten := by
    rw [CoreInv.refs_eq hU]; simp [hAr, hR]
  have hch := hI.chain
  rw [hrefs] at hch
  have hnd := lseg_nodup hI.null_dead hch
  have hchs := hch
  rw [List.append_assoc, lseg_append_head, lseg_append_head] at hchs
  obtain ⟨hP, hRR, hS⟩ := hchs
  have hdisj := List.nodup_append.mp hnd
  have hdisjP := List.nodup_append.mp hdisj.1
  have hndR := hdisjP.2.1
  have hndR12 := List.nodup_append.mp hndR
  have hx1 : x ∉ R1 := fun h => hndR12.2.2 h (List.mem_cons_self _ _)
  have hx2 : x ∉ R2 := (List.nodup_cons.mp hndR12.2.1).1
  have hxP : x ∉ (Pb.map Block.refs).flatten := fun h =>
    hdisjP.2.2 h (List.mem_append_right _ (List.mem_cons_self _ _))
  have hxS : x ∉ (Sb.map Block.refs).flatten := fun h =>
    hdisj.2.2 (List.mem_append_right _ (List.mem_append_right _ (List.mem_cons_self _ _))) h
  obtain ⟨nx, hnx⟩ := lseg_live hRR (List.mem_append_right _ (List.mem_cons_self x R2))
  have hndR' : (R1 ++ R2).Nodup := by
    rw [List.nodup_append]
    refine ⟨hndR12.1, (List.nodup_cons.mp hndR12.2.1).2, ?_⟩
    intro a ha1 ha2
    exact hndR12.2.2 ha1 (List.mem_cons_of_mem _ ha2)
  have hPR' : ∀ a ∈ (Pb.map Block.refs).flatten, a ∉ R1 ++ R2 := by
    intro a ha h
    rcases List.mem_append.mp h with h | h
    · exact hdisjP.2.2 ha (List.mem_append_left _ h)
    · exact hdisjP.2.2 ha (List.mem_append_right _ (List.mem_cons_of_mem _ h))
  have hSR' : ∀ a ∈ (Sb.map Block.refs).flatten, a ∉ R1 ++ R2 := by
    intro a ha h
    rcases List.mem_append.mp h with h | h
    · exact hdisj.2.2 (List.mem_append_right _ (List.mem_append_left _ h)) ha
    · exact hdisj.2.2 (List.mem_append_right _ (List.mem_append_right _
        (List.mem_cons_of_mem _ h))) ha
  have hliveR : ∀ a ∈ R1 ++ R2, ∃ n, load L.mem a = some n := by
    intro a ha
    apply lseg_live hRR
    rcases List.mem_append.mp ha with h | h
    · exact List.mem_append_left _ h
    · exact List.mem_append_right _ (List.mem_cons_of_mem _ h)
  have hsuccv : (R2 ++ (Sb.map Block.refs).flatten).headD 0 =
      R2.headD (((Sb.map Block.refs).flatten).headD 0) := headD_append _ _ _
  have key : ∃ m3 hd, unlinkFromBlock L pos b off0 = some (nx.data, { L with
      head := hd
      size := L.size - 1
      blocks := Pb ++ { items := R1 ++ R2 ++ R2.getLastD x :: tA, cnt := A.cnt - 1 } :: Sb ++
        (L.blocks.drop L.nBlocks.toNat)
      mem := m3 }) ∧ FreeData L.mem m3 x ∧
      lseg m3 ((Pb.map Block.refs).flatten ++ (R1 ++ R2) ++ (Sb.map Block.refs).flatten) hd 0 := by
    by_cases hp0 : pos = 0
    · -- the head is removed
      obtain ⟨hPbn, hkn⟩ := hp.mp hp0
      have hR1n : R1 = [] := by
        apply List.eq_nil_of_length_eq_zero
        omega
      subst hPbn; subst hR1n
      have hfree := free_eq (m := L.mem) hnx
      have hlf := load_free hfree
      have hS2 : lseg (L.mem.set x none) ((Sb.map Block.refs).flatten)
          (((Sb.map Block.refs).flatten).headD 0) 0 := by
        apply lseg_frame _ hS
        intro a ha
        rw [hlf a]
        have : a ≠ x := by rintro rfl; exact hxS ha
        simp [this]
      obtain ⟨m3, hr, hsd3, hfr3, hseg⟩ := relink_assemble
        { items := [] ++ R2 ++ R2.getLastD x :: tA, cnt := A.cnt - 1 }
        ([] ++ R2) (R2.getLastD x :: tA) [] ((Sb.map Block.refs).flatten) (L.mem.set x none)
        ((R2 ++ (Sb.map Block.refs).flatten).headD 0)
        (by simp) (by rw [hAc]; simp) hndR'
        (by
          intro a ha
          rw [hlf a]
          have : a ≠ x := by rintro rfl; exact hx2 (by simpa using ha)
          simp only [this, if_false]
          exact hliveR a ha)
        (by simp only [List.nil_append, lseg_nil]; exact hsuccv) hS2 (by simp) hSR'
      refine ⟨m3, (R2 ++ (Sb.map Block.refs).flatten).headD 0, ?_, ?_, hseg⟩
      · simp only [unlinkFromBlock, hrd, hoff, Option.bind_eq_bind, Option.some_bind, hrdx, hnx,
          hsucc, hp0, if_true, hkk, hshift, hwb, hfree, hhead1, hr]
      · refine ⟨by rw [hsd3.1]; simp, ?_, ?_⟩
        · intro a ha
          rw [hsd3.2 a, hlf a]; simp [ha]
        · rw [hfr3 x (by simpa using hx2), hlf x]; simp
    · -- the predecessor is relinked
      have hbr : ¬ (Pb = [] ∧ R1 = []) := by
        rintro ⟨h1, h2⟩
        apply hp0
        apply hp.mpr
        refine ⟨h1, ?_⟩
        rw [← hR1, h2]; rfl
      have hpred : ∃ Q p, (Pb.map Block.refs).flatten ++ R1 = Q ++ [p] ∧
          (if (R1.length : Int) > 0 then rd A.items ((R1.length : Int) - 1)
            else (rd L.blocks (b - 1)).bind fun prevBlk => rd prevBlk.items (prevBlk.cnt - 1)) =
          some p := by
        by_cases h1 : R1 = []
        · subst h1
          have hPbne : Pb ≠ [] := fun h => hbr ⟨h, rfl⟩
          obtain ⟨Pb1, prev, hPb1⟩ := exists_snoc_of_ne_nil Pb hPbne
          have hprev := hPb prev (by rw [hPb1]; simp)
          have hpm : prev ∈ L.used := by rw [hU, hPb1]; simp
          have hpi := hI.rep.items_le hpm
          obtain ⟨Rp, tp, hpe, hpr⟩ := Block.exists_mk hpi.2.1 (by omega)
          have hRpne : Rp ≠ [] := by
            intro h
            rw [hpe, h] at hprev
            simp at hprev
          obtain ⟨Qp, p, hQp⟩ := exists_snoc_of_ne_nil Rp hRpne
          refine ⟨(Pb1.map Block.refs).flatten ++ Qp, p, ?_, ?_⟩
          · rw [hPb1]; simp [hpr, hQp]
          · have hrp : rd L.blocks (b - 1) = some prev := by
              rw [hblocks, hPb1]
              have e : Pb1 ++ [prev] ++ A :: Sb ++ List.drop L.nBlocks.toNat L.blocks =
                  Pb1 ++ prev :: (A :: Sb ++ List.drop L.nBlocks.toNat L.blocks) := by simp
              rw [e]; apply rd_mid
              rw [hb, hPb1]; simp
            have hrl : rd prev.items (prev.cnt - 1) = some p := by
              rw [hpe]
              show rd (Rp ++ tp) ((Rp.length : Int) - 1) = some p
              rw [hQp]
              have e : Qp ++ [p] ++ tp = Qp ++ p :: tp := by simp
              rw [e]; apply rd_mid; simp
            simp [hrp, hrl]
        · obtain ⟨Q1, p, hQ1⟩ := exists_snoc_of_ne_nil R1 h1
          refine ⟨(Pb.map Block.refs).flatten ++ Q1, p, by rw [hQ1]; simp, ?_⟩
          have h0 : (R1.length : Int) > 0 := by
            have : 0 < R1.length := List.length_pos.mpr h1
            omega
          simp only [h0, if_true, hAi]
          rw [hQ1]
          have e : Q1 ++ [p] ++ x :: R2 ++ tA = Q1 ++ p :: (x :: R2 ++ tA) := by simp
          rw [e]; apply rd_mid; simp
      obtain ⟨Q, p, hQp, hpred⟩ := hpred
      have hch2 := hch
      rw [← List.append_assoc, hQp, List.append_assoc, List.append_assoc, lseg_append] at hch2
      obtain ⟨r, hQ, hrest⟩ := hch2
      obtain ⟨hrp, np, hnp, _⟩ := hrest
      subst hrp
      have hpmem : r ∈ (Pb.map Block.refs).flatten ++ R1 := by rw [hQp]; simp
      have hrx : r ≠ x := by
        rintro rfl
        rcases List.mem_append.mp hpmem with h | h
        · exact hxP h
        · exact hx1 h
      obtain ⟨m1, hs1, hsd1, hfr1, hld1⟩ :=
        setNext_spec ((R2 ++ (Sb.map Block.refs).flatten).headD 0) hnp
      obtain ⟨nx1, hnx1, _⟩ := hsd1.live hnx
      have hfree := free_eq (m := m1) hnx1
      have hlf := load_free hfree
      have hndQ : ((Pb.map Block.refs).flatten ++ R1).Nodup := by
        have := hdisj.1
        rw [← List.append_assoc] at this
        exact (List.nodup_append.mp this).1
      have hQm2 : lseg (m1.set x none) (Q ++ [r]) L.head
          ((R2 ++ (Sb.map Block.refs).flatten).headD 0) := by
        rw [lseg_snoc]
        refine ⟨?_, { data := np.data, next := (R2 ++ (Sb.map Block.refs).flatten).headD 0 },
          ?_, rfl⟩
        · apply lseg_frame _ hQ
          intro a ha
          have ha1 : a ≠ r := by
            rintro rfl
            rw [hQp] at hndQ
            exact (List.nodup_append.mp hndQ).2.2 ha (List.mem_singleton_self _)
          have ha2 : a ≠ x := by
            rintro rfl
            have : a ∈ (Pb.map Block.refs).flatten ++ R1 := by rw [hQp]; simp [ha]
            rcases List.mem_append.mp this with h | h
            · exact hxP h
            · exact hx1 h
          rw [hlf a, hfr1 a ha1]; simp [ha2]
        · rw [hlf r]; simp only [hrx, if_false]; exact hld1
      rw [← hQp, lseg_append_head] at hQm2
      have hPm2 := hQm2.1
      have hSm2 : lseg (m1.set x none) ((Sb.map Block.refs).flatten)
          (((Sb.map Block.refs).flatten).headD 0) 0 := by
        apply lseg_frame _ hS
        intro a ha
        have ha1 : a ≠ r := by
          rintro rfl
          rcases List.mem_append.mp hpmem with h | h
          · exact hdisj.2.2 (List.mem_append_left _ h) ha
          · exact hdisj.2.2 (List.mem_append_right _ (List.mem_append_left _ h)) ha
        have ha2 : a ≠ x := by rintro rfl; exact hxS ha
        rw [hlf a, hfr1 a ha1]; simp [ha2]
      obtain ⟨m3, hr, hsd3, hfr3, hseg⟩ := relink_assemble
        { items := R1 ++ R2 ++ R2.getLastD x :: tA, cnt := A.cnt - 1 }
        (R1 ++ R2) (R2.getLastD x :: tA) ((Pb.map Block.refs).flatten)
        ((Sb.map Block.refs).flatten) (m1.set x none) L.head
        (by simp) (by rw [hAc, List.length_append]; push_cast; omega) hndR'
        (by
          intro a ha
          rw [hlf a]
          have : a ≠ x := by
            rintro rfl
            rcases List.mem_append.mp ha with h | h
            · exact hx1 h
            · exact hx2 h
          simp only [this, if_false]
          exact hsd1.lives hliveR a ha)
        (by rw [headD_append, ← hsuccv]; exact hPm2) hSm2 hPR' hSR'
      refine ⟨m3, L.head, ?_, ?_, hseg⟩
      · simp only [unlinkFromBlock, hrd, hoff, Option.bind_eq_bind, Option.some_bind, hrdx, hnx,
          hsucc, hp0, if_false, hpred, hs1, hkk, hshift, hwb, hfree, hhead1, hr]
      · refine ⟨by rw [hsd3.1]; simp [hsd1.1], ?_, ?_⟩
        · intro a ha
          rw [hsd3.2 a, hlf a]; simp only [ha, if_false]
          exact hsd1.2 a
        · rw [hfr3 x (by
            intro h
            rcases List.mem_append.mp h with h | h
            · exact hx1 h
            · exact hx2 h), hlf x]
          simp
  obtain ⟨m3, hd, hrun, hfd, hseg⟩ := key
  have hu1 : FastList.used { L with
      head := hd
      size := L.size - 1
      blocks := Pb ++ { items := R1 ++ R2 ++ R2.getLastD x :: tA, cnt := A.cnt - 1 } :: Sb ++
        (L.blocks.drop L.nBlocks.toNat)
      mem := m3 } = Pb ++ { items := R1 ++ R2 ++ R2.getLastD x :: tA, cnt := A.cnt - 1 } :: Sb := by
    apply @used_of_eq _ _ (L.blocks.drop L.nBlocks.toNat)
    · rfl
    · simp; omega
  have eA1 : Block.refs { items := R1 ++ R2 ++ R2.getLastD x :: tA, cnt := A.cnt - 1 } =
      R1 ++ R2 := by
    have := refs_mk (R1 ++ R2) (R2.getLastD x :: tA)
    have e : A.cnt - 1 = ((R1 ++ R2).length : Int) := by
      rw [hAc, List.length_append]; push_cast; omega
    rw [e]
    exact this
  have hrefs1 : ((Pb ++ ({ items := R1 ++ R2 ++ R2.getLastD x :: tA, cnt := A.cnt - 1 } : Block) ::
      Sb).map Block.refs).flatten = (Pb.map Block.refs).flatten ++ (R1 ++ R2) ++
        (Sb.map Block.refs).flatten := by
    rw [List.map_append, List.map_cons, List.flatten_append, List.flatten_cons, eA1]
    simp only [List.append_assoc]
  have hx0 : x ≠ 0 := by
    rintro rfl
    rw [hI.null_dead] at hnx; cases hnx
  refine ⟨_, _, x, ?_, ?_, hu1, hxe, ?_, rfl, rfl, rfl, hfd⟩
  · rw [dataAt_eq hnx]; exact hrun
  · apply LinkInv.of_parts
      (Pb ++ { items := R1 ++ R2 ++ R2.getLastD x :: tA, cnt := A.cnt - 1 } :: Sb)
      (L.blocks.drop L.nBlocks.toNat)
    · rfl
    · simp; omega
    · show _ = L.capBlocks
      rw [← hI.rep.cap_len]
      conv => rhs; rw [hblocks]
      simp
    · exact hI.rep.cap_pos
    · intro blk hblk
      simp only [List.mem_append, List.mem_cons] at hblk
      rcases hblk with (h | h | h) | h
      · exact (hI.rep.items_le (by rw [hU]; simp [h])).1
      · rw [h]; simp at hitl ⊢; rw [hR] at hitl; simp at hitl; omega
      · exact (hI.rep.items_le (by rw [hU]; simp [h])).1
      · exact hI.rep.items_len blk (List.mem_of_mem_drop h)
    · intro blk hblk
      simp only [List.mem_append, List.mem_cons] at hblk
      rcases hblk with h | h | h
      · exact (hI.rep.items_le (by rw [hU]; simp [h])).2
      · rw [h]; simp; omega
      · exact (hI.rep.items_le (by rw [hU]; simp [h])).2
    · show 0 < m3.length
      rw [hfd.1]; exact hI.heap_pos
    · show load m3 0 = none
      have := hfd.2.1 0 (Ne.symm hx0)
      rw [hI.null_dead] at this
      cases h : load m3 0 with
      | none => rfl
      | some n => rw [h] at this; cases this
    · show lseg m3 _ hd 0
      rw [hrefs1]; exact hseg
    · show L.size - 1 = _
      rw [hrefs1, hI.size_refs, hrefs]
      simp only [List.length_append, List.length_cons]
      push_cast
      ring
  · rw [eA1, hR12]

end FastLinkedList
namespace FastLinkedList

/-! ## try_merge never fails on a state satisfying the core invariants -/

theorem try_merge_total {L : FastList} (hI : CoreInv L) (bIdx : Int) :
    ∃ L1, try_merge L bIdx = some L1 ∧ CoreInv L1 ∧ L1.refs = L.refs ∧ L1.head = L.head ∧
      L1.size = L.size ∧ SameData L.mem L1.mem ∧ L1.nBlocks ≤ L.nBlocks := by
  by_cases hg : bIdx < 0 ∨ bIdx + 1 ≥ L.nBlocks
  · exact ⟨L, try_merge_none_left L bIdx hg, hI, rfl, rfl, rfl, SameData.refl _, le_refl _⟩
  · obtain ⟨Pb, A, Sb0, hU, hb⟩ := used_split_at hI bIdx (by omega) (by omega)
    have hlen := hI.rep.used_length
    cases Sb0 with
    | nil =>
      rw [hU] at hlen
      simp at hlen
      omega
    | cons C Sb =>
      by_cases hsum : A.cnt + C.cnt > B
      · exact ⟨L, try_merge_skip Pb Sb A C hU hsum bIdx hb, hI, rfl, rfl, rfl, SameData.refl _,
          le_refl _⟩
      · obtain ⟨L1, A1, hrun, hI1, _, _, _, hhd, hsz, hnb, hrefs, hsd⟩ :=
          try_merge_spec hI Pb Sb A C hU (by omega) bIdx hb
        exact ⟨L1, hrun, hI1, hrefs, hhd, hsz, hsd, by omega⟩

/-! ## removeAt: re-balancing the blocks -/

theorem refs_eq_nil_of_cnt {blk : Block} (h : blk.cnt = 0) : blk.refs = [] := by
  simp [Block.refs, h]

theorem rebalance_spec {L : FastList} (hI : LinkInv L) (Pb Sb : List Block) (A : Block)
    (hU : L.used = Pb ++ A :: Sb) (b : Int) (hb : b = (Pb.length : Int))
    (hPb : ∀ blk ∈ Pb, 0 < blk.cnt) (hSb : ∀ blk ∈ Sb, 0 < blk.cnt) :
    ∃ L1, rebalance L b = some L1 ∧ CoreInv L1 ∧ L1.refs = L.refs ∧ L1.head = L.head ∧
      L1.size = L.size ∧ SameData L.mem L1.mem := by
  have hlen := hI.rep.used_length
  have hnb : L.nBlocks = ((Pb.length + 1 + Sb.length : Nat) : Int) := by
    rw [← hlen, hU]; simp; omega
  have hblocks : L.blocks = Pb ++ A :: Sb ++ (L.blocks.drop L.nBlocks.toNat) := by
    have := hI.rep.blocks_eq
    rw [hU] at this
    exact this
  have hrd : rd L.blocks b = some A := by
    rw [hblocks, List.append_assoc]; exact rd_mid _ _ _ hb
  by_cases hc : A.cnt = 0 ∧ L.nBlocks > 1
  · -- the emptied block is dropped
    have hk : (L.nBlocks - 1 - b).toNat = Sb.length := by omega
    have hshift : shiftLeftLoop Sb.length b L.blocks =
        some (Pb ++ Sb ++ Sb.getLastD A :: (L.blocks.drop L.nBlocks.toNat)) := by
      conv => lhs; rw [hblocks]
      exact shiftLeftLoop_eq Pb Sb _ A hb
    have hrun : rebalance L b = some { L with
        blocks := Pb ++ Sb ++ Sb.getLastD A :: (L.blocks.drop L.nBlocks.toNat)
        nBlocks := L.nBlocks - 1 } := by
      simp only [rebalance, hrd, Option.bind_eq_bind, Option.some_bind, hc, and_self, if_true, hk,
        hshift]
    have hu1 : FastList.used { L with
        blocks := Pb ++ Sb ++ Sb.getLastD A :: (L.blocks.drop L.nBlocks.toNat)
        nBlocks := L.nBlocks - 1 } = Pb ++ Sb := by
      apply @used_of_eq _ _ (Sb.getLastD A :: (L.blocks.drop L.nBlocks.toNat))
      · rfl
      · simp; omega
    have hrefs : L.refs = ((Pb ++ Sb).map Block.refs).flatten := by
      rw [CoreInv.refs_eq hU]
      simp [refs_eq_nil_of_cnt hc.1]
    have hlast : (Sb.getLastD A).items.length = 64 := by
      rcases getLastD_mem_or Sb A with h | h
      · exact (@Rep.items_le _ hI.rep (Sb.getLastD A)
          (by rw [hU]; exact List.mem_append_right _ (List.mem_cons_of_mem _ h))).1
      · rw [h]; exact (hI.rep.items_le (by rw [hU]; simp)).1
    refine ⟨_, hrun, ?_, ?_, rfl, rfl, SameData.refl _⟩
    · apply CoreInv.of_explicit (Pb ++ Sb) (Sb.getLastD A :: (L.blocks.drop L.nBlocks.toNat))
      · rfl
      · simp; omega
      · show _ = L.capBlocks
        rw [← hI.rep.cap_len]
        conv => rhs; rw [hblocks]
        simp only [List.length_append, List.length_cons]
        push_cast
        ring
      · exact hI.rep.cap_pos
      · intro blk hblk
        simp only [List.mem_append, List.mem_cons] at hblk
        rcases hblk with (h | h) | h | h
        · exact (hI.rep.items_le (by rw [hU]; simp [h])).1
        · exact (hI.rep.items_le (by rw [hU]; simp [h])).1
        · rw [h]; exact hlast
        · exact hI.rep.items_len blk (List.mem_of_mem_drop h)
      · intro blk hblk
        simp only [List.mem_append] at hblk
        rcases hblk with h | h
        · exact (hI.rep.items_le (by rw [hU]; simp [h])).2
        · exact (hI.rep.items_le (by rw [hU]; simp [h])).2
      · exact hI.heap_pos
      · exact hI.null_dead
      · show lseg L.mem _ L.head 0
        rw [← hrefs]; exact hI.chain
      · show L.size = _
        rw [← hrefs]; exact hI.size_length
      · intro blk hblk hz
        exfalso
        simp only [List.mem_append] at hblk
        rcases hblk with h | h
        · have := hPb blk h; omega
        · have := hSb blk h; omega
    · rw [CoreInv.refs_eq hu1, hrefs]
  · -- the two merges are tried
    have hcore : CoreInv L := by
      apply hI.toCore
      intro blk hblk hz
      rw [hU] at hblk
      simp only [List.mem_append, List.mem_cons] at hblk
      rcases hblk with h | h | h
      · have := hPb blk h; omega
      · rw [h] at hz
        have : ¬ L.nBlocks > 1 := fun h2 => hc ⟨hz, h2⟩
        omega
      · have := hSb blk h; omega
    have hstep1 : ∃ L2, (if b > 0 then try_merge L (b - 1) else some L) = some L2 ∧ CoreInv L2 ∧
        L2.refs = L.refs ∧ L2.head = L.head ∧ L2.size = L.size ∧ SameData L.mem L2.mem := by
      by_cases hb0 : b > 0
      · obtain ⟨L2, h1, h2, h3, h4, h5, h6, _⟩ := try_merge_total hcore (b - 1)
        exact ⟨L2, by simp only [hb0, if_true]; exact h1, h2, h3, h4, h5, h6⟩
      · exact ⟨L, by simp only [hb0, if_false], hcore, rfl, rfl, rfl, SameData.refl _⟩
    obtain ⟨L2, hr2, hI2, hrefs2, hhd2, hsz2, hsd2⟩ := hstep1
    obtain ⟨L3, hr3, hI3, hrefs3, hhd3, hsz3, hsd3, _⟩ := try_merge_total hI2 b
    refine ⟨L3, ?_, hI3, by rw [hrefs3, hrefs2], by rw [hhd3, hhd2], by rw [hsz3, hsz2],
      hsd2.trans hsd3⟩
    simp only [rebalance, hrd, Option.bind_eq_bind, Option.some_bind, hc, if_false, hr2]
    exact hr3

end FastLinkedList
namespace FastLinkedList

/-! ## removeAt -/

/-- The undefined access of `removeAt`: a position other than 0 whose clamped
offset is 0 in block 0 reads `blocks[-1]`. -/
theorem unlinkFromBlock_oob (L : FastList) (pos off0 : Int) (hpos : pos ≠ 0)
    (hoff : ∀ blk, rd L.blocks 0 = some blk →
      (if off0 ≥ blk.cnt then blk.cnt - 1 else off0) ≤ 0) :
    unlinkFromBlock L pos 0 off0 = none := by
  unfold unlinkFromBlock
  cases h : rd L.blocks 0 with
  | none => rfl
  | some blk =>
    have h1 := hoff blk h
    have hn : rd L.blocks (0 - 1) = none := rd_neg _ (by omega)
    have h2 : ¬ ((if off0 ≥ blk.cnt then blk.cnt - 1 else off0) > 0) := by omega
    simp only [Option.bind_eq_bind, Option.some_bind, hpos, if_false, h2, hn, Option.none_bind]
    cases rd blk.items (if off0 ≥ blk.cnt then blk.cnt - 1 else off0) with
    | none => rfl
    | some toDel =>
      simp only [Option.some_bind]
      cases load L.mem toDel with
      | none => rfl
      | some nd =>
        simp only [Option.some_bind]
        cases (if (if off0 ≥ blk.cnt then blk.cnt - 1 else off0) + 1 < blk.cnt then
            rd blk.items ((if off0 ≥ blk.cnt then blk.cnt - 1 else off0) + 1)
          else headOfBlock L.blocks L.nBlocks (0 + 1)) with
        | none => rfl
        | some succ => rfl

theorem erase_mid_eq {α : Type} (P R S : List α) (j : Nat) (hj : j < R.length) :
    P ++ R.eraseIdx j ++ S = (P ++ R ++ S).eraseIdx (P.length + j) := by
  rw [List.eraseIdx_eq_take_drop_succ, List.eraseIdx_eq_take_drop_succ, List.append_assoc P R S,
    List.take_append, Nat.add_assoc, List.drop_append,
    List.take_append_of_le_length (le_of_lt hj), List.drop_append_of_le_length (by omega)]
  simp

theorem getElem?_mid_eq {α : Type} (P R S : List α) (j : Nat) (hj : j < R.length) :
    (P ++ R ++ S)[P.length + j]? = R[j]? := by
  rw [List.append_assoc, List.getElem?_append_right (by omega)]
  simp only [Nat.add_sub_cancel_left]
  rw [List.getElem?_append_left hj]

/-- What a completed `removeAt` does, with the located block made explicit. -/
theorem removeAt_located {L : FastList} (hI : CoreInv L) (pos : Int) (h0 : 0 ≤ pos)
    (h1 : pos < L.size) (Pb Sb : List Block) (A : Block) (hU : L.used = Pb ++ A :: Sb)
    (hb : (locate L pos).1 = (Pb.length : Int))
    (hp : pos = 0 ∨ Pb ≠ [] ∨ min (pos % 64).toNat (A.cnt.toNat - 1) ≠ 0) :
    ∃ L1 L2 A1 x, unlinkFromBlock L pos (Pb.length : Int) (pos % 64) = some (dataAt L.mem x, L1) ∧
      rebalance L1 (Pb.length : Int) = some L2 ∧
      removeAt L pos = some (dataAt L.mem x, L2) ∧
      LinkInv L1 ∧ L1.used = Pb ++ A1 :: Sb ∧
      A.refs[min (pos % 64).toNat (A.cnt.toNat - 1)]? = some x ∧
      A1.refs = A.refs.eraseIdx (min (pos % 64).toNat (A.cnt.toNat - 1)) ∧
      A1.cnt = A.cnt - 1 ∧ L1.size = L.size - 1 ∧ L1.nBlocks = L.nBlocks ∧
      FreeData L.mem L1.mem x ∧
      CoreInv L2 ∧ L2.refs = L1.refs ∧ L2.head = L1.head ∧ L2.size = L1.size ∧
      SameData L1.mem L2.mem := by
  have hpos : 0 < L.size := by omega
  have hnb := hI.nBlocks_pos hpos
  have hloc := locate_eq L pos h0
  have hr : 0 ≤ pos % 64 := Int.emod_nonneg pos (by omega)
  rw [hloc] at hb
  simp only at hb
  have hsz : 1 < L.nBlocks ∨ 0 < L.size := Or.inr hpos
  have hiff : pos = 0 ↔ (Pb = [] ∧ min (pos % 64).toNat (A.cnt.toNat - 1) = 0) := by
    constructor
    · intro hz
      subst hz
      have : ¬ ((0 : Int) / 64 ≥ L.nBlocks) := by simp; omega
      simp only [this, if_false] at hb
      refine ⟨List.eq_nil_of_length_eq_zero (by simp at hb; omega), by simp⟩
    · rintro ⟨h2, h3⟩
      rcases hp with h | h | h
      · exact h
      · exact absurd h2 h
      · exact absurd h3 h
  obtain ⟨L1, A1, x, hrun1, hI1, hU1, hx, hA1r, hA1c, hsz1, hnb1, hfd⟩ :=
    unlinkFromBlock_spec hI Pb Sb A hU hpos (Pb.length : Int) rfl (pos % 64) hr pos hiff
  obtain ⟨L2, hrun2, hI2, hrefs2, hhd2, hsz2, hsd2⟩ :=
    rebalance_spec hI1 Pb Sb A1 hU1 (Pb.length : Int) rfl
      (fun blk h => hI.cnt_pos hsz (by rw [hU]; simp [h]))
      (fun blk h => hI.cnt_pos hsz (by rw [hU]; simp [h]))
  refine ⟨L1, L2, A1, x, hrun1, hrun2, ?_, hI1, hU1, hx, hA1r, hA1c, hsz1, hnb1, hfd, hI2, hrefs2,
    hhd2, hsz2, hsd2⟩
  have hg : ¬ (pos < 0 ∨ pos ≥ L.size) := by omega
  have hb2 : ¬ ((Pb.length : Int) < 0) := by omega
  simp only [removeAt, hg, if_false, hloc, hb, hb2, Option.bind_eq_bind, hrun1, Option.some_bind,
    hrun2]

end FastLinkedList
namespace FastLinkedList

/-! ## Completed calls preserve the core invariants -/

theorem removeAt_complete {L : FastList} (hI : CoreInv L) (pos : Int) (h0 : 0 ≤ pos)
    (h1 : pos < L.size) {r : Int} {L2 : FastList} (h : removeAt L pos = some (r, L2)) :
    CoreInv L2 ∧ L2.size = L.size - 1 ∧
      ∃ k x, L.refs[k]? = some x ∧ r = dataAt L.mem x ∧ L2.refs = L.refs.eraseIdx k ∧
        FreeData L.mem L2.mem x := by
  have hpos : 0 < L.size := by omega
  have hnb := hI.nBlocks_pos hpos
  have hloc := locate_eq L pos h0
  have hq : 0 ≤ pos / 64 := Int.ediv_nonneg h0 (by omega)
  have hr : 0 ≤ pos % 64 := Int.emod_nonneg pos (by omega)
  obtain ⟨Pb, A, Sb, hU, hb⟩ := used_split_at hI (locate L pos).1
    (by rw [hloc]; simp only; split <;> omega) (by rw [hloc]; simp only; split <;> omega)
  have hAm : A ∈ L.used := by rw [hU]; simp
  have hAb := hI.rep.items_le hAm
  have hAp := hI.cnt_pos (Or.inr hpos) hAm
  have hAr := Block.refs_length hAb.2.1 (by omega)
  by_cases hp : pos = 0 ∨ Pb ≠ [] ∨ min (pos % 64).toNat (A.cnt.toNat - 1) ≠ 0
  · obtain ⟨L1, L2', A1, x, _, _, hrun, hI1, hU1, hx, hA1r, _, hsz1, _, hfd, hI2, hrefs2, _, hsz2,
      hsd2⟩ := removeAt_located hI pos h0 h1 Pb Sb A hU hb hp
    rw [hrun] at h
    cases h
    have hk : min (pos % 64).toNat (A.cnt.toNat - 1) < A.refs.length := by omega
    have hR0 : L.refs = (Pb.map Block.refs).flatten ++ A.refs ++ (Sb.map Block.refs).flatten := by
      rw [CoreInv.refs_eq hU]; simp
    refine ⟨hI2, by omega, (Pb.map Block.refs).flatten.length +
      min (pos % 64).toNat (A.cnt.toNat - 1), x, ?_, rfl, ?_, ?_⟩
    · rw [hR0, getElem?_mid_eq _ _ _ _ hk]; exact hx
    · rw [hrefs2, CoreInv.refs_eq hU1, hR0, ← erase_mid_eq _ _ _ _ hk]
      simp [hA1r]
    · refine ⟨by rw [hsd2.1, hfd.1], ?_, hsd2.dead hfd.2.2⟩
      intro a ha
      rw [hsd2.2 a, hfd.2.1 a ha]
  · exfalso
    have hp0 : pos ≠ 0 := fun h => hp (Or.inl h)
    have hPb : Pb = [] := by
      by_contra h2
      exact hp (Or.inr (Or.inl h2))
    have hk : min (pos % 64).toNat (A.cnt.toNat - 1) = 0 := by
      by_contra h2
      exact hp (Or.inr (Or.inr h2))
    subst hPb
    have hblocks : L.blocks = A :: (Sb ++ L.blocks.drop L.nBlocks.toNat) := by
      have := hI.rep.blocks_eq
      rw [hU] at this
      simpa using this
    have hrd : rd L.blocks 0 = some A := by
      rw [hblocks]; simp [rd]
    have hoob := unlinkFromBlock_oob L pos (pos % 64) hp0 (by
      intro blk hblk
      rw [hrd] at hblk
      cases hblk
      split <;> omega)
    have hg : ¬ (pos < 0 ∨ pos ≥ L.size) := by omega
    rw [hloc] at hb
    simp only [List.length_nil, Nat.cast_zero] at hb
    have hb2 : ¬ ((0 : Int) < 0) := by omega
    simp only [removeAt, hg, if_false, hloc, hb, hb2, Option.bind_eq_bind, hoob,
      Option.none_bind] at h
    cases h

theorem createList_coreInv : CoreInv createList := by
  apply CoreInv.of_explicit [] (List.replicate 16 zeroBlock)
  · rfl
  · rfl
  · simp [createList, INIT_BLOCKS]
  · simp [createList, INIT_BLOCKS]
  · intro blk hblk
    simp only [List.nil_append] at hblk
    rw [List.eq_of_mem_replicate hblk]; rfl
  · intro blk hblk; cases hblk
  · simp [createList]
  · rfl
  · simp [createList, lseg]
  · rfl
  · intro blk hblk; cases hblk

theorem step_coreInv {L L1 : FastList} (hI : CoreInv L) (op : Op) (h : step L op = some L1) :
    CoreInv L1 := by
  cases op with
  | insert pos v =>
    simp only [step] at h
    split at h
    · rename_i hr
      obtain ⟨L2, k, hrun, hI2, _⟩ := insert_spec hI pos hr.1 hr.2 v
      rw [hrun] at h
      cases h
      exact hI2
    · cases h
  | removeAt pos =>
    simp only [step] at h
    split at h
    · rename_i hr
      split at h
      · rename_i r L2 hrun
        cases h
        exact (removeAt_complete hI pos hr.1 hr.2 hrun).1
      · cases h
    · cases h

theorem runOps_coreInv {L L1 : FastList} (hI : CoreInv L) (ops : List Op)
    (h : runOps L ops = some L1) : CoreInv L1 := by
  induction ops generalizing L with
  | nil =>
    simp only [runOps] at h
    cases h
    exact hI
  | cons op ops ih =>
    simp only [runOps] at h
    split at h
    · rename_i L2 hstep
      exact ih (step_coreInv hI op hstep) h
    · cases h

theorem Reachable.coreInv {L : FastList} (h : Reachable L) : CoreInv L := by
  obtain ⟨ops, hops⟩ := h
  exact runOps_coreInv createList_coreInv ops hops

/-! ## Consequences of the core invariants -/

theorem CoreInv.chainNodes_eq {L : FastList} (hI : CoreInv L) : chainNodes L = some L.refs :=
  lseg_chainNodes hI.null_dead hI.chain

theorem CoreInv.traverse_eq {L : FastList} (hI : CoreInv L) : traverse L = some L.values := by
  simp [traverse, hI.chainNodes_eq, FastList.values]

theorem CoreInv.walk_size {L : FastList} (hI : CoreInv L) :
    walk L.mem L.size.toNat L.head = some L.refs := by
  apply lseg_walk hI.null_dead hI.chain
  have := hI.size_refs
  omega

end FastLinkedList
namespace FastLinkedList

/-! ## Values after a removal -/

theorem map_eraseIdx_eq {α β : Type} (f : α → β) (l : List α) (k : Nat) :
    (l.eraseIdx k).map f = (l.map f).eraseIdx k := by
  rw [List.eraseIdx_eq_take_drop_succ, List.eraseIdx_eq_take_drop_succ, List.map_append,
    List.map_take, List.map_drop]

theorem ne_of_mem_eraseIdx {l : List Nat} (hnd : l.Nodup) {k x a : Nat}
    (hx : l[k]? = some x) (ha : a ∈ l.eraseIdx k) : a ≠ x := by
  rintro rfl
  obtain ⟨i, hi, hne, hia⟩ := List.mem_eraseIdx_iff_getElem.mp ha
  obtain ⟨hk, hka⟩ := List.getElem?_eq_some_iff.mp hx
  have := (@List.Nodup.getElem_inj_iff _ _ hnd i hi k hk).mp (hia.trans hka.symm)
  exact hne this

/-- The values after a completed `removeAt`: the previous values with the index of
the removed node erased. -/
theorem values_after_remove {L L2 : FastList} (hI : CoreInv L) {k x : Nat}
    (hx : L.refs[k]? = some x) (hrefs : L2.refs = L.refs.eraseIdx k)
    (hfd : FreeData L.mem L2.mem x) :
    L2.values = L.values.eraseIdx k ∧ L.values[k]? = some (dataAt L.mem x) := by
  have hnd := lseg_nodup hI.null_dead hI.chain
  constructor
  · simp only [FastList.values]
    rw [hrefs, ← map_eraseIdx_eq]
    apply List.map_congr_left
    intro a ha
    exact hfd.dataAt_other (ne_of_mem_eraseIdx hnd hx ha)
  · simp only [FastList.values]
    rw [List.getElem?_map, hx]; rfl

/-! ## try_merge keeps the blocks before its index -/

theorem try_merge_keeps {L : FastList} (hI : CoreInv L) (bIdx : Int) (Pb X : List Block)
    (hU : L.used = Pb ++ X) (hb : (Pb.length : Int) ≤ bIdx) :
    ∃ L1 X1, try_merge L bIdx = some L1 ∧ CoreInv L1 ∧ L1.used = Pb ++ X1 ∧ L1.refs = L.refs ∧
      L1.head = L.head ∧ L1.size = L.size ∧ SameData L.mem L1.mem ∧ L1.nBlocks ≤ L.nBlocks := by
  by_cases hg : bIdx < 0 ∨ bIdx + 1 ≥ L.nBlocks
  · exact ⟨L, X, try_merge_none_left L bIdx hg, hI, hU, rfl, rfl, rfl, SameData.refl _, le_refl _⟩
  · obtain ⟨Pb0, A, Sb0, hU0, hb0⟩ := used_split_at hI bIdx (by omega) (by omega)
    have hlen := hI.rep.used_length
    cases Sb0 with
    | nil =>
      rw [hU0] at hlen
      simp at hlen
      omega
    | cons C Sb =>
      by_cases hsum : A.cnt + C.cnt > B
      · exact ⟨L, X, try_merge_skip Pb0 Sb A C hU0 hsum bIdx hb0, hI, hU, rfl, rfl, rfl,
          SameData.refl _, le_refl _⟩
      · obtain ⟨L1, A1, hrun, hI1, hU1, _, _, hhd, hsz, hnb, hrefs, hsd⟩ :=
          try_merge_spec hI Pb0 Sb A C hU0 (by omega) bIdx hb0
        have heq : Pb ++ X = Pb0 ++ A :: C :: Sb := by rw [← hU, hU0]
        have hpre : ∃ Y, Pb0 = Pb ++ Y := by
          rcases List.append_eq_append_iff.mp heq with ⟨a', h1, _⟩ | ⟨c', h1, _⟩
          · exact ⟨a', h1⟩
          · have hl := congrArg List.length h1
            simp at hl
            have hc : c' = [] := List.eq_nil_of_length_eq_zero (by omega)
            subst hc
            exact ⟨[], by simpa using h1.symm⟩
        obtain ⟨Y, hY⟩ := hpre
        refine ⟨L1, Y ++ A1 :: Sb, hrun, hI1, ?_, hrefs, hhd, hsz, hsd, by omega⟩
        rw [hU1, hY]; simp

end FastLinkedList
namespace FastLinkedList

/-! ## Index lookups and decompositions -/

theorem split_of_getElem? {α : Type} {l : List α} {i : Nat} {a : α} (h : l[i]? = some a) :
    ∃ P S, l = P ++ a :: S ∧ P.length = i := by
  obtain ⟨hi, ha⟩ := List.getElem?_eq_some_iff.mp h
  refine ⟨l.take i, l.drop (i + 1), ?_, by rw [List.length_take]; omega⟩
  rw [← ha, List.getElem_cons_drop, List.take_append_drop]

theorem split_of_getElem?_two {α : Type} {l : List α} {i : Nat} {a c : α} (h : l[i]? = some a)
    (h2 : l[i + 1]? = some c) : ∃ P S, l = P ++ a :: c :: S ∧ P.length = i := by
  obtain ⟨P, S, hl, hP⟩ := split_of_getElem? h
  refine ⟨P, S.tail, ?_, hP⟩
  subst hl
  have e : P ++ a :: S = (P ++ [a]) ++ S := by simp
  rw [e, List.getElem?_append_right (by simp; omega)] at h2
  have : (P ++ [a]).length = i + 1 := by simp [hP]
  rw [this, Nat.sub_self] at h2
  cases S with
  | nil => simp at h2
  | cons s t =>
    simp at h2
    subst h2
    simp

theorem split_of_getLast? {α : Type} {l : List α} {a : α} (h : l.getLast? = some a) :
    ∃ P, l = P ++ [a] := by
  induction l using List.reverseRecOn with
  | nil => simp at h
  | append_singleton P x _ =>
    simp at h
    subst h
    exact ⟨P, rfl⟩

/-! ## The shared concrete states -/

theorem twoBlockState_run : runOps createList (appends 65) = some twoBlockState := by
  decide!

theorem twoBlockState_reachable : Reachable twoBlockState :=
  ⟨appends 65, twoBlockState_run⟩

theorem twoBlockState_shape :
    twoBlockState.size = 65 ∧ twoBlockState.nBlocks = 2 ∧
      twoBlockState.used.map Block.cnt = [32, 33] := by
  decide!

/-! ## The invariants (claims C5, C6, C7) -/

/-- C5: chain/block agreement is an invariant.  In every state reached from
`createList` by in-range `insert` / `removeAt` calls that complete, following
`next` from `head` for `size` steps visits exactly the nodes referenced by
`blocks[0..nBlocks-1]`, in block order then in-block order, and then reaches
`NULL`; the last node of block `i` points to the first node of block `i+1`; the
last node of the last block points to `NULL`; `head` is `NULL` when `size` is 0. -/
theorem chain_block_agreement (L : FastList) (h : Reachable L) :
    walk L.mem L.size.toNat L.head = some L.refs ∧
    chainNodes L = some L.refs ∧
    (∀ (i : Nat) (A C : Block), L.used[i]? = some A → L.used[i + 1]? = some C →
      ∃ p q n, A.refs.getLast? = some p ∧ C.refs.head? = some q ∧
        load L.mem p = some n ∧ n.next = q) ∧
    (∀ (A : Block) (p : Nat), L.used.getLast? = some A → A.refs.getLast? = some p →
      ∃ n, load L.mem p = some n ∧ n.next = 0) ∧
    (L.size = 0 → L.head = 0) := by
  have hI := h.coreInv
  refine ⟨hI.walk_size, hI.chainNodes_eq, ?_, ?_, ?_⟩
  · intro i A C hA hC
    obtain ⟨Pb, Sb, hU, _⟩ := split_of_getElem?_two hA hC
    have hlen := hI.rep.used_length
    have hnb : 1 < L.nBlocks ∨ 0 < L.size := by
      left; rw [← hlen, hU]; simp; omega
    have hAm : A ∈ L.used := by rw [hU]; simp
    have hCm : C ∈ L.used := by rw [hU]; simp
    have hAb := mem_used_bounds hI hnb hAm
    have hCb := mem_used_bounds hI hnb hCm
    have hAl := Block.refs_length (le_of_lt hAb.1) hAb.2
    have hCl := Block.refs_length (le_of_lt hCb.1) hCb.2
    obtain ⟨QA, p, hQA⟩ := exists_snoc_of_ne_nil A.refs
      (by intro e; rw [e] at hAl; simp at hAl; omega)
    obtain ⟨q, QC, hQC⟩ := exists_cons_of_length_pos C.refs (by omega)
    have hch := hI.chain
    have hrefs : L.refs = ((Pb.map Block.refs).flatten ++ QA) ++ [p] ++
        (q :: (QC ++ (Sb.map Block.refs).flatten)) := by
      rw [CoreInv.refs_eq hU]; simp [hQA, hQC]
    rw [hrefs, lseg_append] at hch
    obtain ⟨r, h1, h2⟩ := hch
    obtain ⟨_, n, hn, hnext⟩ := lseg_snoc.mp h1
    have hrq : r = q := h2.1
    exact ⟨p, q, n, by rw [hQA]; simp, by rw [hQC]; simp, hn, by rw [hnext, hrq]⟩
  · intro A p hA hp
    obtain ⟨Pb, hU⟩ := split_of_getLast? hA
    obtain ⟨QA, hQA⟩ := split_of_getLast? hp
    have hch := hI.chain
    have hrefs : L.refs = ((Pb.map Block.refs).flatten ++ QA) ++ [p] := by
      rw [CoreInv.refs_eq hU]; simp [hQA]
    rw [hrefs] at hch
    obtain ⟨_, n, hn, hnext⟩ := lseg_snoc.mp hch
    exact ⟨n, hn, hnext⟩
  · intro hz
    have hs := hI.size_refs
    have hnil : L.refs = [] := List.eq_nil_of_length_eq_zero (by omega)
    have hch := hI.chain
    rw [hnil] at hch
    exact hch

/-- Witness for C5: the state after 65 appends. -/
theorem chain_block_agreement_witness :
    Reachable twoBlockState ∧
      walk twoBlockState.mem twoBlockState.size.toNat twoBlockState.head =
        some twoBlockState.refs ∧
      chainNodes twoBlockState = some twoBlockState.refs :=
  ⟨twoBlockState_reachable,
    (chain_block_agreement twoBlockState twoBlockState_reachable).1,
    (chain_block_agreement twoBlockState twoBlockState_reachable).2.1⟩

/-- C6: size consistency is an invariant.  In every state reached from
`createList` by in-range `insert` / `removeAt` calls that complete, `size` equals
the sum of `cnt` over `blocks[0..nBlocks-1]` and equals the number of nodes
reachable from `head`. -/
theorem size_consistency (L : FastList) (h : Reachable L) :
    (L.used.length : Int) = L.nBlocks ∧
    L.size = (L.used.map Block.cnt).sum ∧
    ∃ l, chainNodes L = some l ∧ (l.length : Int) = L.size := by
  have hI := h.coreInv
  exact ⟨hI.rep.used_length, hI.size_eq, L.refs, hI.chainNodes_eq, hI.size_refs.symm⟩

/-- Witness for C6: the state after 65 appends. -/
theorem size_consistency_witness :
    Reachable twoBlockState ∧
      twoBlockState.size = (twoBlockState.used.map Block.cnt).sum :=
  ⟨twoBlockState_reachable, (size_consistency twoBlockState twoBlockState_reachable).2.1⟩

/-- C7: the block bound is an invariant.  In every state reached from
`createList` by in-range `insert` / `removeAt` calls that complete, every block in
use has `0 ≤ cnt ≤ B`, no block in use has `cnt == 0` while `nBlocks > 1`, and a
non-empty list has only non-empty blocks. -/
theorem block_bound (L : FastList) (h : Reachable L) :
    (L.used.length : Int) = L.nBlocks ∧
    (∀ blk ∈ L.used, 0 ≤ blk.cnt ∧ blk.cnt ≤ B) ∧
    (1 < L.nBlocks → ∀ blk ∈ L.used, blk.cnt ≠ 0) ∧
    (0 < L.size → ∀ blk ∈ L.used, 0 < blk.cnt) := by
  have hI := h.coreInv
  refine ⟨hI.rep.used_length, hI.rep.cnt_bound, ?_, ?_⟩
  · intro hn blk hblk
    have := hI.cnt_pos (Or.inl hn) hblk
    omega
  · intro hs blk hblk
    exact hI.cnt_pos (Or.inr hs) hblk

/-- Witness for C7: the state after 65 appends. -/
theorem block_bound_witness :
    Reachable twoBlockState ∧ (∀ blk ∈ twoBlockState.used, 0 ≤ blk.cnt ∧ blk.cnt ≤ B) :=
  ⟨twoBlockState_reachable, (block_bound twoBlockState twoBlockState_reachable).2.1⟩

/-! ## Out-of-range positions (claim C8) -/

/-- C8: out-of-range positions are signalled and change nothing.  For every list
and every `pos` outside `[0, size)`, `get` returns the sentinel `-1` and
`removeAt` returns `-1` with the state exactly as before; for every `pos` outside
`[0, size]`, `insert` returns with the state exactly as before. (`get` has no
effect on the state at all.) -/
theorem out_of_range_unchanged (L : FastList) (pos v : Int) :
    ((pos < 0 ∨ L.size ≤ pos) → get L pos = some (-1) ∧ removeAt L pos = some (-1, L)) ∧
    ((pos < 0 ∨ L.size < pos) → insert L pos v = some L) := by
  constructor
  · intro h
    have h2 : pos < 0 ∨ pos ≥ L.size := h
    simp [get, removeAt, h2]
  · intro h
    have h2 : pos < 0 ∨ pos > L.size := h
    simp [insert, h2]

/-- Witness for C8: position 66 on the 65-element state. -/
theorem out_of_range_unchanged_witness :
    ((66 : Int) < 0 ∨ twoBlockState.size ≤ 66) ∧ ((66 : Int) < 0 ∨ twoBlockState.size < 66) ∧
      get twoBlockState 66 = some (-1) ∧ removeAt twoBlockState 66 = some (-1, twoBlockState) ∧
      insert twoBlockState 66 7 = some twoBlockState :=
  have hs : twoBlockState.size = 65 := twoBlockState_shape.1
  ⟨Or.inr (by rw [hs]; decide), Or.inr (by rw [hs]; decide),
    ((out_of_range_unchanged twoBlockState 66 7).1 (Or.inr (by rw [hs]; decide))).1,
    ((out_of_range_unchanged twoBlockState 66 7).1 (Or.inr (by rw [hs]; decide))).2,
    (out_of_range_unchanged twoBlockState 66 7).2 (Or.inr (by rw [hs]; decide))⟩

end FastLinkedList
namespace FastLinkedList

/-! ## Where positional access goes wrong (claims C1, C2, C3, C4, C9) -/

/-- C1 (order preservation) fails on the code.  After 65 appends the two blocks
hold 32 and 33 nodes; `insert(L, 40, 99)` then locates block 0 (`40 / 64`) and
clamps the offset 40 to the block's count 32, so the traversal has 99 at index
32, where the reference list of the same history has it at index 40. -/
theorem order_preservation_fails :
    (runOps createList (appends 65 ++ [Op.insert 40 99])).bind traverse =
        some (specInsert (iota 65) 32 99) ∧
      specRun [] (appends 65 ++ [Op.insert 40 99]) = specInsert (iota 65) 40 99 := by
  decide!

/-- C2 (`get` returns the element at the requested position) fails on the code.
After 65 appends the traversal is `0, 1, .., 64`, but `get(L, 40)` locates block
0 and clamps the offset to 31: it returns 31, not 40. -/
theorem get_wrong_element :
    (runOps createList (appends 65)).bind traverse = some (iota 65) ∧
      (runOps createList (appends 65)).bind (fun L => get L 40) = some 31 := by
  decide!

/-- C3 (insert/get round trip) fails on the code.  After 96 appends (blocks of 32
and 64 nodes, size 96) the in-range call `insert(L, 96, 1000)` appends a node,
but `get(L, 96)` then locates block 1 of 3 and returns 63, not 1000. -/
theorem insert_get_round_trip_fails :
    (runOps createList (appends 96)).map (fun L => L.size) = some 96 ∧
      (runOps createList (appends 96)).bind
        (fun L => (insert L 96 1000).bind (fun L1 => get L1 96)) = some 63 := by
  decide!

/-- C4 (removeAt/get agreement) fails on the code.  After 96 appends and 31 calls
`removeAt(L, 0)` the blocks hold 1 and 64 nodes (size 65).  At the in-range
position 1, `get` returns 31, but `removeAt(L, 1)` clamps the offset to 0 in
block 0 and, since `pos != 0`, reads `blocks[-1]`: an undefined access, no
value is returned. -/
theorem removeAt_undefined_access :
    (runOps createList (appends 96 ++ List.replicate 31 (Op.removeAt 0))).map
        (fun L => (L.size, L.used.map Block.cnt, get L 1, removeAt L 1)) =
      some (65, [1, 64], some 31, none) := by
  decide!

/-- C9 (split correctness on insert) fails on the code.  After 64 appends the
list is a single full block.  `insert(L, 40, 99)` splits it and leaves two blocks
of 33 and 32 nodes, but the offset 40 is clamped to the lower half's count 32:
the traversal has 99 at index 32, not at index 40. -/
theorem split_insert_misplaced :
    (runOps createList (appends 64)).map
        (fun L => (L.nBlocks, L.used.map Block.cnt, traverse L)) =
        some (1, [64], some (iota 64)) ∧
      ((runOps createList (appends 64)).bind (fun L => insert L 40 99)).map
        (fun L1 => (L1.nBlocks, L1.used.map Block.cnt, traverse L1)) =
        some (2, [33, 32], some (specInsert (iota 64) 32 99)) := by
  decide!

end FastLinkedList
namespace FastLinkedList

/-! ## Merging after a removal (claim C10) -/

theorem clampOff_toNat (A : Block) (L : FastList) (pos : Int) (h0 : 0 ≤ pos) (hc : 0 < A.cnt) :
    (clampOff A (locate L pos).2).toNat = min (pos % 64).toNat (A.cnt.toNat - 1) := by
  have hr : 0 ≤ pos % 64 := Int.emod_nonneg pos (by omega)
  rw [locate_eq L pos h0]
  simp only [clampOff]
  split <;> omega

theorem snoc_of_getElem?_pred {α : Type} {P S : List α} {a x : α} {b : Nat}
    (hP : P.length = b) (hb : 0 < b) (h : (P ++ a :: S)[b - 1]? = some x) :
    ∃ P1, P = P1 ++ [x] ∧ P1.length = b - 1 := by
  have hne : P ≠ [] := by
    intro e; rw [e] at hP; simp at hP; omega
  obtain ⟨P1, y, hy⟩ := exists_snoc_of_ne_nil P hne
  have hl : P1.length = b - 1 := by
    rw [hy] at hP; simp at hP; omega
  refine ⟨P1, ?_, hl⟩
  rw [hy] at h
  have e : P1 ++ [y] ++ a :: S = P1 ++ y :: (a :: S) := by simp
  rw [e, getElem?_mid _ _ _ _ hl.symm] at h
  cases h
  exact hy

/-- C10: merge correctness on removal.  In a state satisfying the core invariants,
for an in-range `pos` whose located block `A` (index `b`) stays non-empty after
the removal: if the left neighbour exists and its count plus the remaining count
of `A` is at most `B`, then after `removeAt` block `b-1` holds the left
neighbour's references followed by the remaining references of `A`, with the
combined count; if no left neighbour fits but the right neighbour does, block `b`
holds the remaining references of `A` followed by the right neighbour's, with the
combined count.  In either case `nBlocks` has decreased, and the forward
traversal is the previous traversal with only the removed element (the value
returned) deleted. -/
theorem merge_on_removal (L : FastList) (hI : CoreInv L) (pos : Int) (h0 : 0 ≤ pos)
    (h1 : pos < L.size) (b : Nat) (A : Block)
    (hb : (locate L pos).1 = (b : Int)) (hA : L.used[b]? = some A) (hne : 1 < A.cnt)
    (hfit : (∃ Lf, 0 < b ∧ L.used[b - 1]? = some Lf ∧ Lf.cnt + (A.cnt - 1) ≤ B) ∨
      (∃ C, L.used[b + 1]? = some C ∧ (A.cnt - 1) + C.cnt ≤ B)) :
    ∃ r L2 k, removeAt L pos = some (r, L2) ∧ L2.nBlocks < L.nBlocks ∧
      traverse L = some L.values ∧ L.values[k]? = some r ∧
      traverse L2 = some (L.values.eraseIdx k) ∧
      (∀ Lf, 0 < b → L.used[b - 1]? = some Lf → Lf.cnt + (A.cnt - 1) ≤ B →
        ∃ M, L2.used[b - 1]? = some M ∧ M.cnt = Lf.cnt + (A.cnt - 1) ∧
          M.refs = Lf.refs ++ A.refs.eraseIdx (clampOff A (locate L pos).2).toNat) ∧
      ((∀ Lf, 0 < b → L.used[b - 1]? = some Lf → B < Lf.cnt + (A.cnt - 1)) →
        ∀ C, L.used[b + 1]? = some C → (A.cnt - 1) + C.cnt ≤ B →
          ∃ M, L2.used[b]? = some M ∧ M.cnt = (A.cnt - 1) + C.cnt ∧
            M.refs = A.refs.eraseIdx (clampOff A (locate L pos).2).toNat ++ C.refs) := by
  have hpos : 0 < L.size := by omega
  have hsz : 1 < L.nBlocks ∨ 0 < L.size := Or.inr hpos
  obtain ⟨Pb, Sb, hU, hPl⟩ := split_of_getElem? hA
  have hb1 : (locate L pos).1 = (Pb.length : Int) := by rw [hb, hPl]
  have hj := clampOff_toNat A L pos h0 (by omega)
  rw [hj]
  have hlen := hI.rep.used_length
  have hnbL : L.nBlocks = ((Pb.length + 1 + Sb.length : Nat) : Int) := by
    rw [← hlen, hU]; simp; omega
  have hAm : A ∈ L.used := by rw [hU]; simp
  have hAb := hI.rep.items_le hAm
  have hp : pos = 0 ∨ Pb ≠ [] ∨ min (pos % 64).toNat (A.cnt.toNat - 1) ≠ 0 := by
    by_contra hcon
    have hp0 : pos ≠ 0 := fun h => hcon (Or.inl h)
    have hPb : Pb = [] := by
      by_contra h2
      exact hcon (Or.inr (Or.inl h2))
    have hk : min (pos % 64).toNat (A.cnt.toNat - 1) = 0 := by
      by_contra h2
      exact hcon (Or.inr (Or.inr h2))
    subst hPb
    have hloc := locate_eq L pos h0
    rw [hloc] at hb1
    simp only [List.length_nil, Nat.cast_zero] at hb1
    have hSb : Sb = [] := by
      apply List.eq_nil_of_length_eq_zero
      simp only [List.length_nil] at hnbL
      split at hb1 <;> omega
    subst hSb
    have hs := hI.size_ge_cnt hU
    have hs2 := hI.size_eq
    rw [hU] at hs2
    simp at hs2
    split at hb1 <;> omega
  obtain ⟨L1, L2, A1, x, _, hreb, hrun, hI1, hU1, hx, hA1r, hA1c, hsz1, hnb1, hfd, hI2, hrefs2,
    _, hsz2, hsd2⟩ := removeAt_located hI pos h0 h1 Pb Sb A hU hb1 hp
  obtain ⟨_, _, k, x2, hk, hr, hrefsk, hfd2⟩ := removeAt_complete hI pos h0 h1 hrun
  obtain ⟨hvals, hvk⟩ := values_after_remove hI hk hrefsk hfd2
  have hcore1 : CoreInv L1 := by
    apply hI1.toCore
    intro blk hblk hz
    exfalso
    rw [hU1] at hblk
    simp only [List.mem_append, List.mem_cons] at hblk
    rcases hblk with h | h | h
    · have := @CoreInv.cnt_pos _ hI hsz blk (by rw [hU]; simp [h]); omega
    · rw [h] at hz; omega
    · have := @CoreInv.cnt_pos _ hI hsz blk (by rw [hU]; simp [h]); omega
  have hblocks1 : L1.blocks = Pb ++ A1 :: (Sb ++ L1.blocks.drop L1.nBlocks.toNat) := by
    have := hI1.rep.blocks_eq
    rw [hU1] at this
    simpa using this
  have hrd1 : rd L1.blocks (Pb.length : Int) = some A1 := by
    rw [hblocks1]; exact rd_mid _ _ _ rfl
  have hcond : ¬ (A1.cnt = 0 ∧ L1.nBlocks > 1) := by
    rintro ⟨h, _⟩; omega
  simp only [rebalance, hrd1, Option.bind_eq_bind, Option.some_bind, hcond, if_false] at hreb
  -- the left neighbour fits
  have hL : ∀ Lf, 0 < b → L.used[b - 1]? = some Lf → Lf.cnt + (A.cnt - 1) ≤ B →
      L2.nBlocks < L.nBlocks ∧ ∃ M, L2.used[b - 1]? = some M ∧ M.cnt = Lf.cnt + (A.cnt - 1) ∧
        M.refs = Lf.refs ++ A.refs.eraseIdx (min (pos % 64).toNat (A.cnt.toNat - 1)) := by
    intro Lf hb0 hLf hsum
    rw [hU] at hLf
    obtain ⟨Pb1, hPb1, hPb1l⟩ := snoc_of_getElem?_pred hPl hb0 hLf
    have hbpos : ((Pb.length : Int) > 0) := by omega
    have hU1' : L1.used = Pb1 ++ Lf :: A1 :: Sb := by rw [hU1, hPb1]; simp
    obtain ⟨L3, M, hrun3, hI3, hU3, hMr, hMc, _, _, hnb3, _, _⟩ :=
      try_merge_spec hcore1 Pb1 Sb Lf A1 hU1' (by rw [hA1c]; exact hsum)
        ((Pb.length : Int) - 1) (by rw [hPb1]; simp)
    have hU3' : L3.used = (Pb1 ++ [M]) ++ Sb := by rw [hU3]; simp
    obtain ⟨L4, X1, hrun4, _, hU4, _, _, _, _, hnb4⟩ :=
      try_merge_keeps hI3 (Pb.length : Int) (Pb1 ++ [M]) Sb hU3' (by rw [hPb1]; simp)
    simp only [hbpos, if_true, hrun3, Option.some_bind, hrun4] at hreb
    cases hreb
    refine ⟨by omega, M, ?_, by rw [hMc, hA1c], by rw [hMr, hA1r]⟩
    rw [hU4]
    have e : Pb1 ++ [M] ++ X1 = Pb1 ++ M :: X1 := by simp
    rw [e]
    exact getElem?_mid _ _ _ _ hPb1l.symm
  -- no left neighbour fits, the right neighbour does
  have hR : (∀ Lf, 0 < b → L.used[b - 1]? = some Lf → B < Lf.cnt + (A.cnt - 1)) →
      ∀ C, L.used[b + 1]? = some C → (A.cnt - 1) + C.cnt ≤ B →
      L2.nBlocks < L.nBlocks ∧ ∃ M, L2.used[b]? = some M ∧ M.cnt = (A.cnt - 1) + C.cnt ∧
        M.refs = A.refs.eraseIdx (min (pos % 64).toNat (A.cnt.toNat - 1)) ++ C.refs := by
    intro hnl C hC hsum
    obtain ⟨Pb', Sb1, hU', hPl'⟩ := split_of_getElem?_two hA hC
    have hPe : Pb' = Pb ∧ A :: C :: Sb1 = A :: Sb :=
      List.append_inj (by rw [← hU', hU]) (by rw [hPl', hPl])
    have hSbe : Sb = C :: Sb1 := by
      have := hPe.2
      simp at this
      exact this.symm
    subst hSbe
    have hfirst : (if (Pb.length : Int) > 0 then try_merge L1 ((Pb.length : Int) - 1)
        else some L1) = some L1 := by
      by_cases hb0 : (Pb.length : Int) > 0
      · simp only [hb0, if_true]
        have hb0' : 0 < b := by omega
        have hne2 : Pb ≠ [] := by
          intro e; rw [e] at hb0; simp at hb0
        obtain ⟨Pb1, Lf, hPb1⟩ := exists_snoc_of_ne_nil Pb hne2
        have hLf : L.used[b - 1]? = some Lf := by
          rw [hU, hPb1]
          have e : Pb1 ++ [Lf] ++ A :: C :: Sb1 = Pb1 ++ Lf :: (A :: C :: Sb1) := by simp
          rw [e]
          apply getElem?_mid
          rw [← hPl, hPb1]; simp
        have := hnl Lf hb0' hLf
        apply try_merge_skip Pb1 (C :: Sb1) Lf A1 (by rw [hU1, hPb1]; simp)
          (by rw [hA1c]; omega)
        rw [hPb1]; simp
      · simp only [hb0, if_false]
    rw [hfirst] at hreb
    simp only [Option.some_bind] at hreb
    obtain ⟨L3, M, hrun3, _, hU3, hMr, hMc, _, _, hnb3, _, _⟩ :=
      try_merge_spec hcore1 Pb Sb1 A1 C hU1 (by rw [hA1c]; exact hsum) (Pb.length : Int) rfl
    rw [hrun3] at hreb
    cases hreb
    refine ⟨by omega, M, ?_, by rw [hMc, hA1c], by rw [hMr, hA1r]⟩
    rw [hU3]
    exact getElem?_mid _ _ _ _ hPl.symm
  have hnb : L2.nBlocks < L.nBlocks := by
    by_cases hleft : ∃ Lf, 0 < b ∧ L.used[b - 1]? = some Lf ∧ Lf.cnt + (A.cnt - 1) ≤ B
    · obtain ⟨Lf, h1, h2, h3⟩ := hleft
      exact (hL Lf h1 h2 h3).1
    · rcases hfit with h | ⟨C, hC, hsum⟩
      · exact absurd h hleft
      · refine (hR ?_ C hC hsum).1
        intro Lf h1 h2
        by_contra h3
        exact hleft ⟨Lf, h1, h2, by omega⟩
  refine ⟨dataAt L.mem x, L2, k, hrun, hnb, hI.traverse_eq, ?_, ?_, ?_, ?_⟩
  · rw [hvk, hr]
  · rw [hI2.traverse_eq, hvals]
  · intro Lf h1 h2 h3
    exact (hL Lf h1 h2 h3).2
  · intro hnl C hC hsum
    exact (hR hnl C hC hsum).2

theorem twoBlockState_blocks :
    (locate twoBlockState 64).1 = ((1 : Nat) : Int) ∧
      twoBlockState.used[0]? = some twoBlockFirst ∧
      twoBlockState.used[1]? = some twoBlockSecond ∧
      twoBlockFirst.cnt = 32 ∧ twoBlockSecond.cnt = 33 := by
  decide!

/-- Witness for C10: on the state after 65 appends (blocks of 32 and 33 nodes),
`removeAt(L, 64)` locates block 1, whose remaining 32 nodes fit its left
neighbour: the two blocks are merged. -/
theorem merge_on_removal_witness :
    CoreInv twoBlockState ∧ (64 : Int) < twoBlockState.size ∧
      twoBlockState.used[1]? = some twoBlockSecond ∧ 1 < twoBlockSecond.cnt ∧
      twoBlockFirst.cnt + (twoBlockSecond.cnt - 1) ≤ B ∧
      ∃ r L2, removeAt twoBlockState 64 = some (r, L2) ∧ L2.nBlocks < twoBlockState.nBlocks := by
  have hI := twoBlockState_reachable.coreInv
  have hs : twoBlockState.size = 65 := twoBlockState_shape.1
  obtain ⟨hloc, hF, hS, hFc, hSc⟩ := twoBlockState_blocks
  have h1 : (64 : Int) < twoBlockState.size := by rw [hs]; decide
  have hne : 1 < twoBlockSecond.cnt := by rw [hSc]; decide
  have hsum : twoBlockFirst.cnt + (twoBlockSecond.cnt - 1) ≤ B := by rw [hFc, hSc]; decide
  obtain ⟨r, L2, _, hrun, hnb, _⟩ :=
    merge_on_removal twoBlockState hI 64 (by decide) h1 1 twoBlockSecond hloc hS hne
      (Or.inl ⟨twoBlockFirst, by decide, hF, hsum⟩)
  exact ⟨hI, h1, hS, hne, hsum, r, L2, hrun, hnb⟩

end FastLinkedList
namespace FastLinkedList

/-! ## Values after an insertion -/

theorem CoreInv.values_length {L : FastList} (hI : CoreInv L) :
    (L.values.length : Int) = L.size := by
  rw [hI.size_refs]; simp [FastList.values]

/-- The values after a completed `insert`: the previous values with the new value
at the index of the new node. -/
theorem values_after_insert {L L1 : FastList} (hI : CoreInv L) {k : Nat} {v : Int}
    (hrefs : L1.refs = L.refs.take k ++ L.mem.length :: L.refs.drop k)
    (hall : AllocData L.mem L1.mem v) :
    L1.values = specInsert L.values k v := by
  have hold : ∀ a ∈ L.refs, dataAt L1.mem a = dataAt L.mem a := by
    intro a ha
    exact hall.dataAt_old (Nat.ne_of_lt (lseg_lt hI.chain ha))
  simp only [FastList.values, specInsert]
  rw [hrefs, List.map_append, List.map_cons, hall.dataAt_new, List.map_take, List.map_drop]
  congr 1
  · rw [← List.map_take, ← List.map_take]
    apply List.map_congr_left
    intro a ha
    exact hold a (List.mem_of_mem_take ha)
  · congr 1
    rw [← List.map_drop, ← List.map_drop]
    apply List.map_congr_left
    intro a ha
    exact hold a (List.mem_of_mem_drop ha)

theorem specInsert_eraseIdx (l : List Int) (k : Nat) (v : Int) (hk : k ≤ l.length) :
    (specInsert l k v).eraseIdx k = l := by
  simp only [specInsert]
  rw [List.eraseIdx_eq_take_drop_succ]
  have h1 : (l.take k).length = k := by simp [hk]
  have e1 : List.take k (l.take k ++ v :: l.drop k) = l.take k := by
    rw [List.take_append_of_le_length (by omega)]
    rw [List.take_take]; simp
  have e2 : List.drop (k + 1) (l.take k ++ v :: l.drop k) = l.drop k := by
    have : k + 1 = (l.take k).length + 1 := by omega
    rw [this, List.drop_append]
    simp
  rw [e1, e2, List.take_append_drop]

/-! ## Frame effects of insert and removeAt (claims C19, C20) -/

/-- C19: `insert` adds exactly one element and disturbs nothing else.  In every
state reached from `createList` by in-range calls, for every in-range `pos` and
every `v`, `insert` completes and there is an index `k ≤ size` such that the
forward traversal afterwards is the previous traversal with `v` inserted at index
`k` (so erasing index `k` gives back the previous traversal: every stored value
is still there, in the previous relative order), and `size` has grown by 1. -/
theorem insert_adds_one (L : FastList) (h : Reachable L) (pos : Int) (h0 : 0 ≤ pos)
    (h1 : pos ≤ L.size) (v : Int) :
    ∃ (L1 : FastList) (k : Nat), insert L pos v = some L1 ∧ (k : Int) ≤ L.size ∧
      traverse L = some L.values ∧ traverse L1 = some (specInsert L.values k v) ∧
      (specInsert L.values k v).eraseIdx k = L.values ∧ L1.size = L.size + 1 := by
  have hI := h.coreInv
  obtain ⟨L1, k, hrun, hI1, hsz, hk, hrefs, hall⟩ := insert_spec hI pos h0 h1 v
  have hkl : k ≤ L.values.length := by simpa [FastList.values] using hk
  refine ⟨L1, k, hrun, ?_, hI.traverse_eq, ?_, specInsert_eraseIdx _ _ _ hkl, hsz⟩
  · rw [hI.size_refs]; exact_mod_cast hk
  · rw [hI1.traverse_eq, values_after_insert hI hrefs hall]

/-- Witness for C19: `insert(L, 40, 99)` on the state after 65 appends. -/
theorem insert_adds_one_witness :
    Reachable twoBlockState ∧ (40 : Int) ≤ twoBlockState.size ∧
      ∃ L1 k, insert twoBlockState 40 99 = some L1 ∧
        traverse L1 = some (specInsert twoBlockState.values k 99) :=
  have hs : twoBlockState.size = 65 := twoBlockState_shape.1
  have h1 : (40 : Int) ≤ twoBlockState.size := by rw [hs]; decide
  match insert_adds_one twoBlockState twoBlockState_reachable 40 (by decide) h1 99 with
  | ⟨L1, k, hrun, _, _, htr, _, _⟩ => ⟨twoBlockState_reachable, h1, L1, k, hrun, htr⟩

/-- C20: `removeAt` deletes exactly the element it returns.  In every state
reached from `createList` by in-range calls, for every in-range `pos` on which
`removeAt` completes (no out-of-bounds access), there is an index `k < size` such
that the value returned is the `k`-th value of the previous traversal and the
traversal afterwards is the previous one with index `k` erased; `size` has
decreased by 1. -/
theorem removeAt_deletes_returned (L : FastList) (h : Reachable L) (pos : Int) (h0 : 0 ≤ pos)
    (h1 : pos < L.size) (r : Int) (L2 : FastList) (hrun : removeAt L pos = some (r, L2)) :
    ∃ k : Nat, (k : Int) < L.size ∧ traverse L = some L.values ∧ L.values[k]? = some r ∧
      traverse L2 = some (L.values.eraseIdx k) ∧ L2.size = L.size - 1 := by
  have hI := h.coreInv
  obtain ⟨hI2, hsz, k, x, hk, hr, hrefs, hfd⟩ := removeAt_complete hI pos h0 h1 hrun
  obtain ⟨hvals, hvk⟩ := values_after_remove hI hk hrefs hfd
  refine ⟨k, ?_, hI.traverse_eq, by rw [hvk, hr], by rw [hI2.traverse_eq, hvals], hsz⟩
  have hlt : k < L.refs.length := (List.getElem?_eq_some_iff.mp hk).1
  rw [hI.size_refs]; exact_mod_cast hlt

end FastLinkedList
namespace FastLinkedList

/-! ## Appending (claim C13) -/

theorem insert_at_size_spec {L : FastList} (hI : CoreInv L) (v : Int) :
    ∃ L1, insert L L.size v = some L1 ∧ CoreInv L1 ∧ L1.size = L.size + 1 ∧
      L1.values = L.values ++ [v] := by
  have hsr := hI.size_refs
  have hnn : 0 ≤ L.size := by omega
  have hg : ¬ (L.size < 0 ∨ L.size > L.size) := by omega
  by_cases hz : L.size = 0
  · obtain ⟨L1, A1, hrun, hI1, hU1, hA1, _, hs1, _, hall⟩ := insertFirst_spec hI v
    have hnil : L.refs = [] := by
      apply List.eq_nil_of_length_eq_zero
      omega
    have hr1 : L1.refs = L.refs.take 0 ++ L.mem.length :: L.refs.drop 0 := by
      rw [CoreInv.refs_eq hU1, hnil]; simp [hA1]
    refine ⟨L1, ?_, hI1, by omega, ?_⟩
    · unfold insert
      rw [if_neg hg, if_pos hz]
      exact hrun
    · rw [values_after_insert hI hr1 hall]
      simp [specInsert, FastList.values, hnil]
  · have hpos : 0 < L.size := by omega
    obtain ⟨L1, hrun, hI1, hs1, _, hr1, hall⟩ := insertAppend_spec hI hpos v
    have hr2 : L1.refs = L.refs.take L.refs.length ++ L.mem.length :: L.refs.drop L.refs.length := by
      rw [hr1]; simp
    refine ⟨L1, ?_, hI1, hs1, ?_⟩
    · unfold insert
      rw [if_neg hg, if_neg hz, if_pos rfl]
      exact hrun
    · rw [values_after_insert hI hr2 hall]
      have : L.refs.length = L.values.length := by simp [FastList.values]
      rw [this]
      simp [specInsert]

theorem appendAll_spec (vs : List Int) : ∀ {L : FastList}, CoreInv L →
    ∃ L2, appendAll L vs = some L2 ∧ CoreInv L2 ∧ L2.values = L.values ++ vs ∧
      L2.size = L.size + (vs.length : Int) := by
  induction vs with
  | nil =>
    intro L hI
    exact ⟨L, rfl, hI, by simp, by simp⟩
  | cons v vs ih =>
    intro L hI
    obtain ⟨L1, hrun, hI1, hs1, hv1⟩ := insert_at_size_spec hI v
    obtain ⟨L2, hrun2, hI2, hv2, hs2⟩ := ih hI1
    refine ⟨L2, ?_, hI2, ?_, ?_⟩
    · simp only [appendAll, hrun, Option.some_bind]
      exact hrun2
    · rw [hv2, hv1]; simp
    · rw [hs2, hs1]; simp only [List.length_cons]; push_cast; omega

theorem createList_values : createList.values = [] := by decide

/-- C13: `insert` at `pos == size` appends.  In every state reached from
`createList` by in-range calls and for every value `v`, `insert(L, size, v)`
completes, the forward traversal afterwards is the previous traversal followed
by `v`, and `size` has grown by exactly 1.  Consequently appending the values
`vs` in turn to such a list makes the traversal the previous one followed by
`vs`, and `build_list` (appends from `createList`) traverses to the appended
values in insertion order, with `size` their number. -/
theorem insert_at_size_appends (L : FastList) (h : Reachable L) (v : Int) (vs : List Int) :
    (∃ L1, insert L L.size v = some L1 ∧ traverse L = some L.values ∧
      traverse L1 = some (L.values ++ [v]) ∧ L1.size = L.size + 1) ∧
    (∃ L2, appendAll L vs = some L2 ∧ traverse L2 = some (L.values ++ vs) ∧
      L2.size = L.size + (vs.length : Int)) ∧
    (∃ L3, build_list vs = some L3 ∧ traverse L3 = some vs ∧ L3.size = (vs.length : Int)) := by
  have hI := h.coreInv
  refine ⟨?_, ?_, ?_⟩
  · obtain ⟨L1, hrun, hI1, hs1, hv1⟩ := insert_at_size_spec hI v
    exact ⟨L1, hrun, hI.traverse_eq, by rw [hI1.traverse_eq, hv1], hs1⟩
  · obtain ⟨L2, hrun, hI2, hv2, hs2⟩ := appendAll_spec vs hI
    exact ⟨L2, hrun, by rw [hI2.traverse_eq, hv2], hs2⟩
  · obtain ⟨L3, hrun, hI3, hv3, hs3⟩ := appendAll_spec vs createList_coreInv
    refine ⟨L3, hrun, by rw [hI3.traverse_eq, hv3, createList_values]; simp, ?_⟩
    rw [hs3]
    have : createList.size = 0 := rfl
    omega

/-- Witness for C13: appending 99, and then 5, 6, 7, to the list after 65
appends. -/
theorem insert_at_size_appends_witness :
    Reachable twoBlockState ∧
      (∃ L1, insert twoBlockState twoBlockState.size 99 = some L1 ∧
        traverse L1 = some (twoBlockState.values ++ [99])) ∧
      (∃ L3, build_list [5, 6, 7] = some L3 ∧ traverse L3 = some [5, 6, 7]) :=
  match insert_at_size_appends twoBlockState twoBlockState_reachable 99 [5, 6, 7] with
  | ⟨⟨L1, hrun, _, htr, _⟩, _, ⟨L3, hb, ht3, _⟩⟩ =>
    ⟨twoBlockState_reachable, ⟨L1, hrun, htr⟩, ⟨L3, hb, ht3⟩⟩

end FastLinkedList
namespace FastLinkedList

/-! ## Positions inside the first block -/

theorem locate_first {L : FastList} (hnb : 1 ≤ L.nBlocks) (pos : Int) (h0 : 0 ≤ pos)
    (h64 : pos < 64) : locate L pos = (0, pos) := by
  rw [locate_eq L pos h0, Int.ediv_eq_zero_of_lt h0 h64, Int.emod_eq_of_lt h0 h64]
  have : ¬ ((0 : Int) ≥ L.nBlocks) := by omega
  simp only [this, if_false]

theorem insert_head_eq {α : Type} (R S : List α) (x : α) (j : Nat) (hj : j ≤ R.length) :
    (R.take j ++ x :: R.drop j) ++ S = (R ++ S).take j ++ x :: (R ++ S).drop j := by
  have := insert_mid_eq [] R S x j hj
  simpa using this

/-- An insertion at a position below 64 in a non-empty list, other than an
append: it goes into block 0, at the offset `pos` clamped to the block's count
(the count of the lower half, 32, when the block was full and is split). -/
theorem insertInside_block0 {L : FastList} (hI : CoreInv L) (hpos : 0 < L.size) (pos : Int)
    (h0 : 0 ≤ pos) (h64 : pos < 64) (v : Int) (A : Block) (Sb : List Block)
    (hU : L.used = A :: Sb) :
    ∃ L1, insertInside L pos v = some L1 ∧ CoreInv L1 ∧ L1.size = L.size + 1 ∧
      L1.refs = L.refs.take (min pos.toNat (if A.cnt = B then 32 else A.cnt.toNat)) ++
        L.mem.length :: L.refs.drop (min pos.toNat (if A.cnt = B then 32 else A.cnt.toNat)) ∧
      AllocData L.mem L1.mem v ∧ (A.cnt < 64 → L1.nBlocks = L.nBlocks) := by
  have hnb := hI.nBlocks_pos hpos
  have hloc := locate_first hnb pos h0 h64
  have hAm : A ∈ L.used := by rw [hU]; simp
  have hA := hI.rep.items_le hAm
  have hblocks : L.blocks = A :: (Sb ++ L.blocks.drop L.nBlocks.toNat) := by
    have := hI.rep.blocks_eq
    rw [hU] at this
    simpa using this
  have hrd : rd L.blocks 0 = some A := by
    rw [hblocks]; simp [rd]
  have hAr := Block.refs_length hA.2.1 (by omega)
  have hz : ¬ ((0 : Int) < 0) := by omega
  have hnil : (0 : Int) = (([] : List Block).length : Int) := by simp
  by_cases hfull : A.cnt = B
  · have h2 : 2 ≤ A.cnt := by rw [hfull]; simp [B]
    obtain ⟨L1, A1, B2, hrun, hI1, hU1, hrefsAB, hA1c, hB2c, hhd, hsize, hnb1, hrefs1, hsd⟩ :=
      split_block_spec hI [] Sb A hU h2 0 hnil
    have hloc1 := @locate_first L1 (by omega) pos h0 h64
    have hA1lt : A1.cnt < 64 := by rw [hA1c, hfull, B]; decide
    have hA1c32 : A1.cnt = 32 := by rw [hA1c, hfull, B]; decide
    have hA1m : A1 ∈ L1.used := by rw [hU1]; simp
    have hA1b := hI1.rep.items_le hA1m
    have hA1r := Block.refs_length hA1b.2.1 (by omega)
    have hR1 : L1.refs = A1.refs ++ (B2.refs ++ (Sb.map Block.refs).flatten) := by
      rw [CoreInv.refs_eq hU1]; simp
    obtain ⟨L2, A2, hrun2, hI2, hU2, hA2r, hsize2, _, hall⟩ :=
      insertIntoBlock_spec hI1 [] (B2 :: Sb) A1 hU1 hA1lt (by omega) 0 hnil pos h0 v
    have hj : min pos.toNat A1.cnt.toNat = min pos.toNat 32 := by rw [hA1c32]; rfl
    refine ⟨L2, ?_, hI2, by omega, ?_, ?_, ?_⟩
    · simp only [insertInside, hloc, hz, if_false, hrd, Option.bind_eq_bind, Option.some_bind,
        hfull, if_true, hrun, hloc1]
      exact hrun2
    · rw [if_pos hfull, CoreInv.refs_eq hU2, ← hrefs1, hR1, ← hj,
        ← insert_head_eq _ _ _ _ (by omega)]
      simp [hA2r, hsd.1]
    · refine ⟨by rw [hall.1, hsd.1], ?_, ?_⟩
      · intro a ha
        rw [hall.2.1 a (by rw [hsd.1]; exact ha), hsd.2 a]
      · have := hall.2.2
        rw [hsd.1] at this
        exact this
    · intro hlt
      simp only [B] at hfull
      omega
  · have hlt : A.cnt < 64 := by
      have := hA.2.2
      simp only [B] at hfull
      omega
    obtain ⟨L2, A2, hrun2, hI2, hU2, hA2r, hsize2, hnb2, hall⟩ :=
      insertIntoBlock_spec hI [] Sb A hU hlt hpos 0 hnil pos h0 v
    have hR0 : L.refs = A.refs ++ (Sb.map Block.refs).flatten := by
      rw [CoreInv.refs_eq hU]; simp
    refine ⟨L2, ?_, hI2, hsize2, ?_, hall, fun _ => hnb2⟩
    · simp only [insertInside, hloc, hz, if_false, hrd, Option.bind_eq_bind, Option.some_bind,
        hfull]
      exact hrun2
    · rw [if_neg hfull, CoreInv.refs_eq hU2, hR0, ← insert_head_eq _ _ _ _ (by omega)]
      simp [hA2r]

theorem used_cons_of_pos {L : FastList} (hI : CoreInv L) (hpos : 0 < L.size) :
    ∃ A Sb, L.used = A :: Sb := by
  have hnb := hI.nBlocks_pos hpos
  obtain ⟨Pb, A, Sb, hU, hb⟩ := used_split_at hI 0 (by omega) (by omega)
  have : Pb = [] := List.eq_nil_of_length_eq_zero (by omega)
  subst this
  exact ⟨A, Sb, hU⟩

/-- The values after `insert(L, 0, v)`. -/
theorem insert_zero_spec {L : FastList} (hI : CoreInv L) (v : Int) :
    ∃ L1, insert L 0 v = some L1 ∧ CoreInv L1 ∧ L1.size = L.size + 1 ∧
      L1.values = v :: L.values ∧ L1.head = L.mem.length ∧ L1.refs = L.mem.length :: L.refs := by
  have hsr := hI.size_refs
  have hnn : 0 ≤ L.size := by omega
  have hg : ¬ ((0 : Int) < 0 ∨ 0 > L.size) := by omega
  have key : ∀ L1, CoreInv L1 → L1.refs = L.refs.take 0 ++ L.mem.length :: L.refs.drop 0 →
      AllocData L.mem L1.mem v →
      L1.values = v :: L.values ∧ L1.head = L.mem.length ∧ L1.refs = L.mem.length :: L.refs := by
    intro L1 hI1 hr hall
    refine ⟨?_, ?_, by rw [hr]; simp⟩
    · rw [values_after_insert hI hr hall]; simp [specInsert]
    · have hc := hI1.chain
      rw [hr] at hc
      simp only [List.take_zero, List.nil_append, List.drop_zero] at hc
      exact hc.1
  by_cases hz : L.size = 0
  · obtain ⟨L1, A1, hrun, hI1, hU1, hA1, _, hs1, _, hall⟩ := insertFirst_spec hI v
    have hnil : L.refs = [] := by
      apply List.eq_nil_of_length_eq_zero
      omega
    have hr1 : L1.refs = L.refs.take 0 ++ L.mem.length :: L.refs.drop 0 := by
      rw [CoreInv.refs_eq hU1, hnil]; simp [hA1]
    refine ⟨L1, ?_, hI1, by omega, key L1 hI1 hr1 hall⟩
    unfold insert
    rw [if_neg hg, if_pos hz]
    exact hrun
  · have hpos : 0 < L.size := by omega
    have hne : ¬ ((0 : Int) = L.size) := by omega
    obtain ⟨A, Sb, hU⟩ := used_cons_of_pos hI hpos
    obtain ⟨L1, hrun, hI1, hs1, hr1, hall, _⟩ :=
      insertInside_block0 hI hpos 0 (le_refl _) (by decide) v A Sb hU
    have hr2 : L1.refs = L.refs.take 0 ++ L.mem.length :: L.refs.drop 0 := by
      rw [hr1]; simp
    refine ⟨L1, ?_, hI1, hs1, key L1 hI1 hr2 hall⟩
    unfold insert
    rw [if_neg hg, if_neg hz, if_neg hne]
    exact hrun

end FastLinkedList
namespace FastLinkedList

/-! ## The block count never grows in a merge -/

theorem try_merge_nBlocks_le {L L1 : FastList} {b : Int} (h : try_merge L b = some L1) :
    L1.nBlocks ≤ L.nBlocks := by
  unfold try_merge at h
  split at h
  · cases h; exact le_refl _
  · simp only [Option.bind_eq_bind, Option.bind_eq_some] at h
    obtain ⟨A, _, C, _, h⟩ := h
    split at h
    · cases h; exact le_refl _
    · simp only [Option.bind_eq_some] at h
      obtain ⟨_, _, _, _, _, _, _, _, _, _, _, _, h⟩ := h
      cases h
      simp

theorem rebalance_nBlocks_le {L L1 : FastList} {b : Int} (h : rebalance L b = some L1) :
    L1.nBlocks ≤ L.nBlocks := by
  unfold rebalance at h
  simp only [Option.bind_eq_bind, Option.bind_eq_some] at h
  obtain ⟨blk, _, h⟩ := h
  split at h
  · simp only [Option.bind_eq_some] at h
    obtain ⟨_, _, h⟩ := h
    cases h
    simp
  · simp only [Option.bind_eq_some] at h
    obtain ⟨L2, h2, h3⟩ := h
    have := try_merge_nBlocks_le h3
    split at h2
    · have := try_merge_nBlocks_le h2
      omega
    · cases h2
      exact this

/-! ## Removal and lookup inside the first block -/

/-- A removal at a position below 64: it acts on block 0, at the offset `pos`
clamped to the block's last slot. -/
theorem removeAt_block0 {L : FastList} (hI : CoreInv L) (pos : Int) (h0 : 0 ≤ pos)
    (h1 : pos < L.size) (h64 : pos < 64) (A : Block) (Sb : List Block) (hU : L.used = A :: Sb)
    (hp : pos = 0 ∨ min pos.toNat (A.cnt.toNat - 1) ≠ 0) :
    ∃ L2 x, removeAt L pos = some (dataAt L.mem x, L2) ∧ CoreInv L2 ∧ L2.size = L.size - 1 ∧
      L.refs[min pos.toNat (A.cnt.toNat - 1)]? = some x ∧
      L2.refs = L.refs.eraseIdx (min pos.toNat (A.cnt.toNat - 1)) ∧
      FreeData L.mem L2.mem x ∧ L2.nBlocks ≤ L.nBlocks := by
  have hpos : 0 < L.size := by omega
  have hnb := hI.nBlocks_pos hpos
  have hloc := locate_first hnb pos h0 h64
  have hmod : pos % 64 = pos := Int.emod_eq_of_lt h0 h64
  have hAm : A ∈ L.used := by rw [hU]; simp
  have hAb := hI.rep.items_le hAm
  have hAp := hI.cnt_pos (Or.inr hpos) hAm
  have hAr := Block.refs_length hAb.2.1 (by omega)
  have hk : min pos.toNat (A.cnt.toNat - 1) < A.refs.length := by omega
  obtain ⟨L1, L2, A1, x, _, hrb, hrun, hI1, hU1, hx, hA1r, _, hsz1, hnb1, hfd, hI2, hrefs2, _, hsz2,
    hsd2⟩ := removeAt_located hI pos h0 h1 [] Sb A hU (by rw [hloc]; simp)
      (by rw [hmod]; rcases hp with h | h
          · exact Or.inl h
          · exact Or.inr (Or.inr h))
  rw [hmod] at hx hA1r
  have hR0 : L.refs = A.refs ++ (Sb.map Block.refs).flatten := by
    rw [CoreInv.refs_eq hU]; simp
  refine ⟨L2, x, hrun, hI2, by omega, ?_, ?_, ?_, ?_⟩
  · rw [hR0, List.getElem?_append_left hk]; exact hx
  · rw [hrefs2, CoreInv.refs_eq hU1, hR0]
    have := erase_mid_eq [] A.refs (Sb.map Block.refs).flatten _ hk
    simp only [List.nil_append, List.length_nil, Nat.zero_add] at this
    rw [← this]
    simp [hA1r]
  · refine ⟨by rw [hsd2.1, hfd.1], ?_, hsd2.dead hfd.2.2⟩
    intro a ha
    rw [hsd2.2 a, hfd.2.1 a ha]
  · have := rebalance_nBlocks_le hrb
    omega

/-- A lookup at a position below 64: it reads block 0, at the offset `pos`
clamped to the block's last slot. -/
theorem get_block0 {L : FastList} (hI : CoreInv L) (pos : Int) (h0 : 0 ≤ pos)
    (h1 : pos < L.size) (h64 : pos < 64) (A : Block) (Sb : List Block) (hU : L.used = A :: Sb) :
    ∃ x, get L pos = some (dataAt L.mem x) ∧
      L.refs[min pos.toNat (A.cnt.toNat - 1)]? = some x := by
  have hpos : 0 < L.size := by omega
  have hnb := hI.nBlocks_pos hpos
  have hloc := locate_first hnb pos h0 h64
  have hAm : A ∈ L.used := by rw [hU]; simp
  have hAb := hI.rep.items_le hAm
  have hAp := hI.cnt_pos (Or.inr hpos) hAm
  have hAr := Block.refs_length hAb.2.1 (by omega)
  have hk : min pos.toNat (A.cnt.toNat - 1) < A.refs.length := by omega
  have hblocks : L.blocks = A :: (Sb ++ L.blocks.drop L.nBlocks.toNat) := by
    have := hI.rep.blocks_eq
    rw [hU] at this
    simpa using this
  have hrd : rd L.blocks 0 = some A := by
    rw [hblocks]; simp [rd]
  have hR0 : L.refs = A.refs ++ (Sb.map Block.refs).flatten := by
    rw [CoreInv.refs_eq hU]; simp
  have hget : A.refs[min pos.toNat (A.cnt.toNat - 1)]? =
      some (A.refs[min pos.toNat (A.cnt.toNat - 1)]) := List.getElem?_eq_getElem hk
  have hmem : A.refs[min pos.toNat (A.cnt.toNat - 1)] ∈ L.refs := by
    rw [hR0]
    exact List.mem_append_left _ (List.getElem_mem hk)
  obtain ⟨n, hn⟩ := lseg_live hI.chain hmem
  have hoff : (if pos ≥ A.cnt then A.cnt - 1 else pos) =
      ((min pos.toNat (A.cnt.toNat - 1) : Nat) : Int) := by
    split <;> omega
  have hitems : rd A.items (if pos ≥ A.cnt then A.cnt - 1 else pos) =
      some (A.refs[min pos.toNat (A.cnt.toNat - 1)]) := by
    rw [rd_of_eq _ _ hoff]
    have : A.refs[min pos.toNat (A.cnt.toNat - 1)]? = A.items[min pos.toNat (A.cnt.toNat - 1)]? := by
      simp only [Block.refs]
      rw [List.getElem?_take_of_lt (by omega)]
    rw [← this, hget]
  refine ⟨A.refs[min pos.toNat (A.cnt.toNat - 1)], ?_, ?_⟩
  · have hg : ¬ (pos < 0 ∨ pos ≥ L.size) := by omega
    simp only [get, hg, if_false, hloc, hrd, Option.bind_eq_bind, Option.some_bind, hitems, hn,
      dataAt_eq hn]
  · rw [hR0, List.getElem?_append_left hk]; exact hget

/-! ## Operations at position 0 (claim C14) -/

/-- C14: operations at position 0 act on the head.  In every state reached from
`createList` by in-range calls, `insert(L, 0, v)` completes and makes the forward
traversal `v` followed by the previous traversal, the new node being `head`;
and when `size > 0`, `removeAt(L, 0)` completes, returns the first value of the
previous traversal and leaves the traversal equal to the previous one without
its first element, `head` being the old second node, or `NULL` when there is
none. -/
theorem position_zero_acts_on_head (L : FastList) (h : Reachable L) (v : Int) :
    (∃ L1, insert L 0 v = some L1 ∧ traverse L = some L.values ∧
      traverse L1 = some (v :: L.values) ∧ L1.head = L.mem.length ∧
      chainNodes L1 = (chainNodes L).map (fun l => L.mem.length :: l)) ∧
    (0 < L.size → ∃ r L2, removeAt L 0 = some (r, L2) ∧ L.values.head? = some r ∧
      traverse L2 = some L.values.tail ∧ chainNodes L2 = (chainNodes L).map List.tail ∧
      L2.head = L.refs.tail.headD 0) := by
  have hI := h.coreInv
  constructor
  · obtain ⟨L1, hrun, hI1, hs1, hv1, hhd, hr1⟩ := insert_zero_spec hI v
    refine ⟨L1, hrun, hI.traverse_eq, by rw [hI1.traverse_eq, hv1], hhd, ?_⟩
    rw [hI1.chainNodes_eq, hI.chainNodes_eq, hr1]
    rfl
  · intro hpos
    obtain ⟨A, Sb, hU⟩ := used_cons_of_pos hI hpos
    obtain ⟨L2, x, hrun, hI2, hs2, hx, hr2, hfd, _⟩ :=
      removeAt_block0 hI 0 (le_refl _) hpos (by decide) A Sb hU (Or.inl rfl)
    have hj : min (0 : Int).toNat (A.cnt.toNat - 1) = 0 := by simp
    rw [hj] at hx hr2
    obtain ⟨hvals, hv0⟩ := values_after_remove hI hx hr2 hfd
    have htail : L.refs.eraseIdx 0 = L.refs.tail := by cases L.refs <;> rfl
    have htailv : L.values.eraseIdx 0 = L.values.tail := by cases L.values <;> rfl
    refine ⟨dataAt L.mem x, L2, hrun, ?_, ?_, ?_, ?_⟩
    · rw [← hv0]; cases L.values <;> simp
    · rw [hI2.traverse_eq, hvals, htailv]
    · rw [hI2.chainNodes_eq, hI.chainNodes_eq, hr2, htail]
      rfl
    · rw [← htail, ← hr2]
      exact lseg_head hI2.chain

/-- Witness for C14: `insert(L, 0, 99)` and `removeAt(L, 0)` on the state after
65 appends. -/
theorem position_zero_acts_on_head_witness :
    Reachable twoBlockState ∧ (0 : Int) < twoBlockState.size ∧
      (∃ L1, insert twoBlockState 0 99 = some L1 ∧
        traverse L1 = some (99 :: twoBlockState.values)) ∧
      (∃ r L2, removeAt twoBlockState 0 = some (r, L2) ∧
        twoBlockState.values.head? = some r ∧ traverse L2 = some twoBlockState.values.tail) :=
  have hs : twoBlockState.size = 65 := twoBlockState_shape.1
  have h1 : (0 : Int) < twoBlockState.size := by rw [hs]; decide
  match position_zero_acts_on_head twoBlockState twoBlockState_reachable 99 with
  | ⟨⟨L1, hrun, _, htr, _, _⟩, hrem⟩ =>
    match hrem h1 with
    | ⟨r, L2, hrun2, hv, htr2, _, _⟩ =>
      ⟨twoBlockState_reachable, h1, ⟨L1, hrun, htr⟩, ⟨r, L2, hrun2, hv, htr2⟩⟩

end FastLinkedList
namespace FastLinkedList

/-! ## split_block on an arbitrary block (claim C15) -/

theorem values_of_sameData {L L1 : FastList} (hr : L1.refs = L.refs)
    (hsd : SameData L.mem L1.mem) : L1.values = L.values := by
  simp only [FastList.values, hr]
  apply List.map_congr_left
  intro a _
  exact hsd.dataAt a

/-- The split of any block of a state satisfying the core invariants.  The chain
is kept when the block holds at least two references or is the last block; it
ends after the block when the block holds one reference. -/
theorem split_block_general {L : FastList} (hI : CoreInv L) (Pb Sb : List Block) (A : Block)
    (hU : L.used = Pb ++ A :: Sb) (bIdx : Int) (hb : bIdx = (Pb.length : Int)) :
    ∃ L1 A1 B2, split_block L bIdx = some L1 ∧ L1.used = Pb ++ A1 :: B2 :: Sb ∧
      A1.refs = A.refs.take (A.cnt - A.cnt.tdiv 2).toNat ∧
      B2.refs = A.refs.drop (A.cnt - A.cnt.tdiv 2).toNat ∧
      A1.cnt = A.cnt - A.cnt.tdiv 2 ∧ B2.cnt = A.cnt.tdiv 2 ∧
      L1.head = L.head ∧ L1.size = L.size ∧ L1.nBlocks = L.nBlocks + 1 ∧
      L1.refs = L.refs ∧ SameData L.mem L1.mem ∧
      (2 ≤ A.cnt ∨ Sb = [] → lseg L1.mem L.refs L1.head 0) ∧
      (A.cnt = 1 → lseg L1.mem ((Pb.map Block.refs).flatten ++ A.refs) L1.head 0) := by
  have hAm : A ∈ L.used := by rw [hU]; simp
  have hA := hI.rep.items_le hAm
  have hlen := hI.rep.used_length
  have hnb : L.nBlocks = ((Pb.length + 1 + Sb.length : Nat) : Int) := by
    rw [← hlen, hU]; simp; omega
  obtain ⟨R, tA, hAe, hAr⟩ := Block.exists_mk hA.2.1 (by omega)
  obtain ⟨R1, R2, hR, hR1⟩ := exists_split_length R (R.length - R.length / 2) (by omega)
  have hR2 : R2.length = R.length / 2 := by
    have := congrArg List.length hR
    simp at this; omega
  have hhalf : R2.length = (R1.length + R2.length) / 2 := by
    have := congrArg List.length hR
    simp at this; omega
  have hAe2 : A = { items := R1 ++ R2 ++ tA, cnt := ((R1.length + R2.length : Nat) : Int) } := by
    rw [hAe, hR]; simp
  have hblocks := hI.rep.blocks_eq
  rw [hU] at hblocks
  have hSb : ∀ blk ∈ Sb, 0 < blk.cnt ∧ blk.cnt ≤ (blk.items.length : Int) := by
    intro blk hblk
    have hne : 1 ≤ Sb.length := List.length_pos_of_mem hblk
    exact mem_used_bounds hI (Or.inl (by rw [hnb]; push_cast; omega)) (by rw [hU]; simp [hblk])
  have hrefs : L.refs = (Pb.map Block.refs).flatten ++ (R1 ++ R2) ++ (Sb.map Block.refs).flatten := by
    rw [CoreInv.refs_eq hU]; simp [hAr, hR]
  have hch := hI.chain
  rw [hrefs] at hch
  have hcond : 2 ≤ A.cnt ∨ Sb = [] → R2 ≠ [] ∨ Sb = [] := by
    intro hc
    rcases hc with h2 | h2
    · left
      intro h
      rw [h] at hR2
      rw [hAe] at h2
      simp at hR2 h2
      omega
    · exact Or.inr h2
  have hone : A.cnt = 1 → R2 = [] ∧ R1 ≠ [] := by
    intro h1
    rw [hAe] at h1
    simp at h1
    constructor
    · apply List.eq_nil_of_length_eq_zero
      rw [hR2, h1]
    · intro h
      rw [h] at hR1
      simp at hR1
      omega
  obtain ⟨m2, d2, rest1, capB, hrun, hcapB, hcle, hd2, hrest1, hsd, hseg, hend⟩ :=
    split_block_explicit L Pb Sb (L.blocks.drop L.nBlocks.toNat) R1 R2 tA bIdx
      (by rw [← hAe2]; exact hblocks) hnb hI.rep.cap_len hb hI.rep.items_len hhalf hSb
      hI.null_dead hch
  have hmv : A.cnt.tdiv 2 = (R2.length : Int) := by
    rw [hAe2]
    show (((R1.length + R2.length : Nat) : Int)).tdiv 2 = _
    rw [Int.tdiv_two_cast, ← hhalf]
  have hu1 : FastList.used { L with
        blocks := Pb ++ { items := R1 ++ R2 ++ tA, cnt := (R1.length : Int) } ::
          { items := R2 ++ d2, cnt := (R2.length : Int) } :: Sb ++ rest1
        nBlocks := L.nBlocks + 1
        capBlocks := capB
        mem := m2 } =
      Pb ++ { items := R1 ++ R2 ++ tA, cnt := (R1.length : Int) } ::
          { items := R2 ++ d2, cnt := (R2.length : Int) } :: Sb := by
    apply @used_of_eq _ _ (rest1)
    · simp
    · simp; omega
  have eA1 : Block.refs { items := R1 ++ R2 ++ tA, cnt := (R1.length : Int) } = R1 := by
    have := refs_mk R1 (R2 ++ tA)
    simpa using this
  have eB2 : Block.refs { items := R2 ++ d2, cnt := (R2.length : Int) } = R2 := refs_mk R2 d2
  have hrefs1 : ((Pb ++ { items := R1 ++ R2 ++ tA, cnt := (R1.length : Int) } ::
          { items := R2 ++ d2, cnt := (R2.length : Int) } :: Sb).map Block.refs).flatten =
      (Pb.map Block.refs).flatten ++ (R1 ++ R2) ++ (Sb.map Block.refs).flatten := by
    rw [List.map_append, List.map_cons, List.map_cons, List.flatten_append, List.flatten_cons,
      List.flatten_cons, eA1, eB2]
    simp only [List.append_assoc]
  have hcut : (A.cnt - A.cnt.tdiv 2).toNat = R1.length := by
    rw [hmv, hAe2]; simp
  refine ⟨_, _, _, hrun, hu1, ?_, ?_, ?_, ?_, rfl, rfl, rfl, ?_, hsd, ?_, ?_⟩
  · rw [eA1, hcut, hAr, hR]; simp
  · rw [eB2, hcut, hAr, hR]; simp
  · rw [hmv, hAe2]; simp
  · rw [hmv]
  · rw [CoreInv.refs_eq hu1, hrefs1, hrefs]
  · intro hc
    show lseg m2 L.refs L.head 0
    rw [hrefs]; exact hseg (hcond hc)
  · intro h1
    obtain ⟨e2, e1⟩ := hone h1
    show lseg m2 ((Pb.map Block.refs).flatten ++ A.refs) L.head 0
    rw [hAr, hR, e2, List.append_nil]
    exact hend e2 e1

/-- C15, amended: the `split_block` contract for a block that holds at least two
references or is the last block.  For every state satisfying the core
invariants and every block index `bIdx` whose block `A` has count `c`, with
`c ≥ 2` or no block after it: `split_block(L, bIdx)` completes, `nBlocks` has
grown by 1, block `bIdx` holds the first `c - c/2` references of `A`, block
`bIdx + 1` holds the last `c/2`, the earlier blocks are unchanged and every later
block is the former block one index lower, the concatenation of the blocks'
references is unchanged, and the chain from `head` visits the same nodes in the
same order (with the same values). -/
theorem split_block_contract (L : FastList) (hI : CoreInv L) (Pb Sb : List Block) (A : Block)
    (hU : L.used = Pb ++ A :: Sb) (bIdx : Int) (hb : bIdx = (Pb.length : Int))
    (hc : 2 ≤ A.cnt ∨ Sb = []) :
    ∃ L1 A1 B2, split_block L bIdx = some L1 ∧ L1.nBlocks = L.nBlocks + 1 ∧
      L1.used = Pb ++ A1 :: B2 :: Sb ∧
      A1.refs = A.refs.take (A.cnt - A.cnt.tdiv 2).toNat ∧
      B2.refs = A.refs.drop (A.cnt - A.cnt.tdiv 2).toNat ∧
      A1.cnt = A.cnt - A.cnt.tdiv 2 ∧ B2.cnt = A.cnt.tdiv 2 ∧
      L1.refs = L.refs ∧ chainNodes L = some L.refs ∧ chainNodes L1 = some L.refs ∧
      traverse L1 = traverse L := by
  obtain ⟨L1, A1, B2, hrun, hU1, hA1, hB2, hA1c, hB2c, hhd, hsz, hnb, hrefs, hsd, hseg⟩ :=
    split_block_general hI Pb Sb A hU bIdx hb
  have hch1 : chainNodes L1 = some L.refs :=
    lseg_chainNodes (hsd.dead hI.null_dead) (hseg.1 hc)
  refine ⟨L1, A1, B2, hrun, hnb, hU1, hA1, hB2, hA1c, hB2c, hrefs, hI.chainNodes_eq, hch1, ?_⟩
  have hv := values_of_sameData hrefs hsd
  have ht : traverse L = some L.values := hI.traverse_eq
  rw [ht]
  simp only [traverse, hch1, Option.map_some']
  simp only [FastList.values, hrefs] at hv
  rw [hv]
  rfl

end FastLinkedList
namespace FastLinkedList

theorem twoBlockState_used : twoBlockState.used = [] ++ twoBlockFirst :: [twoBlockSecond] := by
  obtain ⟨_, hF, hS, _, _⟩ := twoBlockState_blocks
  have hm := twoBlockState_shape.2.2
  cases hu : twoBlockState.used with
  | nil => rw [hu] at hF; simp at hF
  | cons a t =>
    rw [hu] at hF hS hm
    cases t with
    | nil => simp at hS
    | cons b t2 =>
      cases t2 with
      | nil =>
        simp at hF hS
        rw [hF, hS]
        rfl
      | cons c t3 => simp at hm

/-- Witness for C15 (amended): the split of block 0, of 32 nodes, of the state
after 65 appends. -/
theorem split_block_contract_witness :
    CoreInv twoBlockState ∧ twoBlockState.used = [] ++ twoBlockFirst :: [twoBlockSecond] ∧
      (2 ≤ twoBlockFirst.cnt ∨ [twoBlockSecond] = []) ∧
      ∃ L1, split_block twoBlockState 0 = some L1 ∧ L1.nBlocks = twoBlockState.nBlocks + 1 ∧
        traverse L1 = traverse twoBlockState :=
  have hI := twoBlockState_reachable.coreInv
  have hc : 2 ≤ twoBlockFirst.cnt ∨ [twoBlockSecond] = [] :=
    Or.inl (by rw [twoBlockState_blocks.2.2.2.1]; decide)
  match split_block_contract twoBlockState hI [] [twoBlockSecond] twoBlockFirst twoBlockState_used
      0 rfl hc with
  | ⟨L1, _, _, hrun, hnb, _, _, _, _, _, _, _, _, htr⟩ =>
    ⟨hI, twoBlockState_used, hc, L1, hrun, hnb, htr⟩

/-! ## The contract of try_merge (claim C16) -/

/-- C16: the `try_merge` contract.  For every state satisfying the core
invariants and every integer `i`: `try_merge(L, i)` leaves the state unchanged
if `i < 0` or `i + 1 >= nBlocks`; otherwise blocks `i` and `i + 1` exist (`A` and
`C`, after the blocks `Pb` and before the blocks `Sb`), the state is unchanged if
`A.cnt + C.cnt > B`, and if not, `try_merge` completes, block `i` afterwards holds
the references of `A` followed by those of `C` with `cnt` the sum, `nBlocks` has
decreased by 1, the earlier blocks are unchanged and the later blocks are one
index lower, and the concatenation of the block references, the chain from
`head` and the traversal are unchanged. -/
theorem try_merge_contract (L : FastList) (hI : CoreInv L) (i : Int) :
    (i < 0 ∨ i + 1 ≥ L.nBlocks → try_merge L i = some L) ∧
    (0 ≤ i → i + 1 < L.nBlocks →
      ∃ Pb A C Sb, L.used = Pb ++ A :: C :: Sb ∧ i = (Pb.length : Int) ∧
        (A.cnt + C.cnt > B → try_merge L i = some L) ∧
        (A.cnt + C.cnt ≤ B → ∃ L1 A1, try_merge L i = some L1 ∧
          L1.used = Pb ++ A1 :: Sb ∧ A1.refs = A.refs ++ C.refs ∧ A1.cnt = A.cnt + C.cnt ∧
          L1.nBlocks = L.nBlocks - 1 ∧ L1.refs = L.refs ∧ L1.head = L.head ∧
          chainNodes L1 = chainNodes L ∧ traverse L1 = traverse L)) := by
  refine ⟨try_merge_none_left L i, ?_⟩
  intro h0 h1
  obtain ⟨Pb, A, Sb0, hU, hb⟩ := used_split_at hI i h0 (by omega)
  have hlen := hI.rep.used_length
  cases Sb0 with
  | nil =>
    rw [hU] at hlen
    simp at hlen
    omega
  | cons C Sb =>
    refine ⟨Pb, A, C, Sb, hU, hb, fun hsum => try_merge_skip Pb Sb A C hU hsum i hb, ?_⟩
    intro hsum
    obtain ⟨L1, A1, hrun, hI1, hU1, hA1, hA1c, hhd, hsz, hnb, hrefs, hsd⟩ :=
      try_merge_spec hI Pb Sb A C hU hsum i hb
    refine ⟨L1, A1, hrun, hU1, hA1, hA1c, hnb, hrefs, hhd, ?_, ?_⟩
    · rw [hI1.chainNodes_eq, hI.chainNodes_eq, hrefs]
    · rw [hI1.traverse_eq, hI.traverse_eq, values_of_sameData hrefs hsd]

end FastLinkedList
namespace FastLinkedList

/-! ## The block layout after an append (claim C12) -/

theorem cnt_of_refs {L : FastList} (hI : CoreInv L) {A : Block} (hA : A ∈ L.used) :
    A.cnt = (A.refs.length : Int) := by
  have hb := hI.rep.items_le hA
  rw [Block.refs_length hb.2.1 (by omega)]

/-- An append into a last block that is not full: the block layout is kept, the
last block holds one more reference. -/
theorem insertAppend_room {L : FastList} (hI : CoreInv L) (hpos : 0 < L.size) (v : Int)
    (Pb : List Block) (A : Block) (hU : L.used = Pb ++ [A]) (hlt : A.cnt < 64) :
    ∃ L1 A1, insert L L.size v = some L1 ∧ CoreInv L1 ∧ L1.used = Pb ++ [A1] ∧
      A1.cnt = A.cnt + 1 ∧ L1.size = L.size + 1 ∧ L1.nBlocks = L.nBlocks := by
  have hlen := hI.rep.used_length
  have hb : L.nBlocks - 1 = (Pb.length : Int) := by
    rw [← hlen, hU]; simp
  have hAm : A ∈ L.used := by rw [hU]; simp
  have hblocks : L.blocks = Pb ++ A :: (L.blocks.drop L.nBlocks.toNat) := by
    have := hI.rep.blocks_eq
    rw [hU] at this
    simpa using this
  have hrd : rd L.blocks (L.nBlocks - 1) = some A := by
    rw [hblocks]; exact rd_mid _ _ _ hb
  have hfull : ¬ (A.cnt = B) := by simp only [B]; omega
  obtain ⟨L2, A1, hrun2, hI2, hU2, hA1r, _, hsize2, hnb2, _, _⟩ :=
    appendToBlock_spec hI Pb A hU hlt hpos (L.nBlocks - 1) hb v
  have hg : ¬ (L.size < 0 ∨ L.size > L.size) := by omega
  have hz : ¬ (L.size = 0) := by omega
  refine ⟨L2, A1, ?_, hI2, hU2, ?_, hsize2, hnb2⟩
  · unfold insert
    rw [if_neg hg, if_neg hz, if_pos rfl]
    simp only [insertAppend, hrd, Option.bind_eq_bind, Option.some_bind, hfull, if_false]
    exact hrun2
  · rw [cnt_of_refs hI2 (by rw [hU2]; simp), cnt_of_refs hI hAm, hA1r]
    simp

/-- An append after a full last block: the block is split into halves of 32 and
the new reference goes into the upper half. -/
theorem insertAppend_full {L : FastList} (hI : CoreInv L) (v : Int)
    (Pb : List Block) (A : Block) (hU : L.used = Pb ++ [A]) (hfull : A.cnt = 64) :
    ∃ L1 A1 C1, insert L L.size v = some L1 ∧ CoreInv L1 ∧ L1.used = Pb ++ [A1, C1] ∧
      A1.cnt = 32 ∧ C1.cnt = 33 ∧ L1.size = L.size + 1 ∧ L1.nBlocks = L.nBlocks + 1 := by
  have hlen := hI.rep.used_length
  have hb : L.nBlocks - 1 = (Pb.length : Int) := by
    rw [← hlen, hU]; simp
  have hAm : A ∈ L.used := by rw [hU]; simp
  have hpos : 0 < L.size := by
    have := @CoreInv.size_ge_cnt L hI Pb [] A hU
    omega
  have hblocks : L.blocks = Pb ++ A :: (L.blocks.drop L.nBlocks.toNat) := by
    have := hI.rep.blocks_eq
    rw [hU] at this
    simpa using this
  have hrd : rd L.blocks (L.nBlocks - 1) = some A := by
    rw [hblocks]; exact rd_mid _ _ _ hb
  have hfB : A.cnt = B := by rw [hfull]; rfl
  obtain ⟨L1, A1, B2, hrun, hI1, hU1, _, hA1c, hB2c, _, hsize, hnb1, _, _⟩ :=
    split_block_spec hI Pb [] A hU (by omega) (L.nBlocks - 1) hb
  have hB2lt : B2.cnt < 64 := by rw [hB2c, hfull]; decide
  have hU1b : L1.used = (Pb ++ [A1]) ++ [B2] := by rw [hU1]; simp
  obtain ⟨L2, B3, hrun2, hI2, hU2, hB3r, _, hsize2, hnb2, _, _⟩ :=
    appendToBlock_spec hI1 (Pb ++ [A1]) B2 hU1b hB2lt (by omega)
      (L1.nBlocks - 1) (by rw [hnb1]; simp; omega) v
  have hg : ¬ (L.size < 0 ∨ L.size > L.size) := by omega
  have hz : ¬ (L.size = 0) := by omega
  refine ⟨L2, A1, B3, ?_, hI2, by rw [hU2]; simp, ?_, ?_, by omega, by omega⟩
  · unfold insert
    rw [if_neg hg, if_neg hz, if_pos rfl]
    simp only [insertAppend, hrd, Option.bind_eq_bind, Option.some_bind, hfB, if_true, hrun]
    exact hrun2
  · rw [hA1c, hfull]; decide
  · rw [cnt_of_refs hI2 (by rw [hU2]; simp), hB3r]
    have := cnt_of_refs hI1 (show B2 ∈ L1.used by rw [hU1]; simp)
    rw [hB2c, hfull] at this
    simp only [List.length_append, List.length_singleton]
    push_cast
    rw [← this]
    decide

theorem appendAll_append (L : FastList) (xs ys : List Int) :
    appendAll L (xs ++ ys) = (appendAll L xs).bind (fun L1 => appendAll L1 ys) := by
  induction xs generalizing L with
  | nil => rfl
  | cons x xs ih =>
    simp only [List.cons_append, appendAll]
    cases insert L L.size x with
    | none => rfl
    | some L1 => simp only [Option.some_bind]; exact ih L1

/-- Appends into a last block that has room for all of them. -/
theorem appendAll_fill (vs : List Int) : ∀ {L : FastList} (Pb : List Block) (A : Block),
    CoreInv L → L.used = Pb ++ [A] → 0 < L.size → A.cnt + (vs.length : Int) ≤ 64 →
    ∃ L1 A1, appendAll L vs = some L1 ∧ CoreInv L1 ∧ L1.used = Pb ++ [A1] ∧
      A1.cnt = A.cnt + (vs.length : Int) ∧ 0 < L1.size := by
  induction vs with
  | nil =>
    intro L Pb A hI hU hpos _
    exact ⟨L, A, rfl, hI, hU, by simp, hpos⟩
  | cons v vs ih =>
    intro L Pb A hI hU hpos hle
    simp only [List.length_cons] at hle
    push_cast at hle
    obtain ⟨L1, A1, hrun, hI1, hU1, hc1, hs1, _⟩ :=
      insertAppend_room hI hpos v Pb A hU (by omega)
    obtain ⟨L2, A2, hrun2, hI2, hU2, hc2, hp2⟩ := ih Pb A1 hI1 hU1 (by omega) (by omega)
    refine ⟨L2, A2, ?_, hI2, hU2, ?_, hp2⟩
    · simp only [appendAll, hrun, Option.some_bind]
      exact hrun2
    · rw [hc2, hc1]; simp only [List.length_cons]; push_cast; omega

theorem exists_snoc_of_length {α : Type} (l : List α) (n : Nat) (h : l.length = n + 1) :
    ∃ mid x, l = mid ++ [x] ∧ mid.length = n := by
  obtain ⟨mid, lst, hl, hmid⟩ := exists_split_length l n (by omega)
  have hlst : lst.length = 1 := by
    have := congrArg List.length hl
    simp at this; omega
  cases lst with
  | nil => simp at hlst
  | cons a t =>
    cases t with
    | nil => exact ⟨mid, a, hl, hmid⟩
    | cons _ _ => simp at hlst

/-- The first 65 appends: a block of 32 and a block of 33 nodes. -/
theorem build_list_overflow (vs : List Int) (hlen : vs.length = 65) :
    ∃ L A C, build_list vs = some L ∧ CoreInv L ∧ L.used = [A, C] ∧ A.cnt = 32 ∧ C.cnt = 33 ∧
      L.nBlocks = 2 := by
  cases vs with
  | nil => simp at hlen
  | cons v0 rest =>
    have hrl : rest.length = 63 + 1 := by simpa using hlen
    obtain ⟨mid, vl, hrest, hmid⟩ := exists_snoc_of_length rest 63 hrl
    obtain ⟨L1, A1, hrun1, hI1, hU1, hA1r, _, hs1, _, _⟩ := insertFirst_spec createList_coreInv v0
    have hins1 : insert createList createList.size v0 = some L1 := by
      rw [← hrun1]; rfl
    have hc1 : A1.cnt = 1 := by
      rw [cnt_of_refs hI1 (by rw [hU1]; simp), hA1r]; rfl
    obtain ⟨L2, A2, hrun2, hI2, hU2, hc2, hp2⟩ :=
      appendAll_fill mid [] A1 hI1 hU1 (by omega) (by rw [hc1, hmid]; decide)
    have hfull : A2.cnt = 64 := by rw [hc2, hc1, hmid]; decide
    obtain ⟨L3, A3, C3, hrun3, hI3, hU3, hA3, hC3, _, hnb3⟩ :=
      insertAppend_full hI2 vl [] A2 hU2 hfull
    have hnb2 : L2.nBlocks = 1 := by
      rw [← hI2.rep.used_length, hU2]; rfl
    refine ⟨L3, A3, C3, ?_, hI3, hU3, hA3, hC3, by omega⟩
    simp only [build_list, hrest, appendAll, hins1, Option.some_bind]
    rw [appendAll_append, hrun2]
    simp only [Option.some_bind, appendAll, hrun3]

/-- C12: appending `B + 1` values makes two blocks.  For every sequence of
`B + 1 = 65` values, `createList` followed by `insert(L, size, v)` for each value
in turn completes and yields `nBlocks == 2`, with `blocks[0].cnt + blocks[1].cnt
== B + 1` and `blocks[0].cnt <= B` (the counts are 32 and 33). -/
theorem append_overflow_two_blocks (vs : List Int) (h : (vs.length : Int) = B + 1) :
    ∃ L A C, build_list vs = some L ∧ L.nBlocks = 2 ∧
      rd L.blocks 0 = some A ∧ rd L.blocks 1 = some C ∧
      A.cnt + C.cnt = B + 1 ∧ A.cnt ≤ B ∧ A.cnt = 32 ∧ C.cnt = 33 := by
  simp only [B] at h
  obtain ⟨L3, A3, C3, hrun, hI3, hU3, hA3, hC3, hnb⟩ := build_list_overflow vs (by omega)
  have hblocks : L3.blocks = A3 :: C3 :: (L3.blocks.drop L3.nBlocks.toNat) := by
    have := hI3.rep.blocks_eq
    rw [hU3] at this
    simpa using this
  refine ⟨L3, A3, C3, hrun, hnb, ?_, ?_, ?_, ?_, hA3, hC3⟩
  · rw [hblocks]; simp [rd]
  · rw [hblocks]; simp [rd]
  · rw [hA3, hC3]; decide
  · rw [hA3]; decide

/-- Witness for C12: the 65 values `0, .., 64`. -/
theorem append_overflow_two_blocks_witness :
    ((iota 65).length : Int) = B + 1 ∧
      ∃ L, build_list (iota 65) = some L ∧ L.nBlocks = 2 :=
  have h : ((iota 65).length : Int) = B + 1 := by decide
  match append_overflow_two_blocks (iota 65) h with
  | ⟨L, _, _, hrun, hnb, _⟩ => ⟨h, L, hrun, hnb⟩

end FastLinkedList
namespace FastLinkedList

/-! ## Small lists refine the reference list (claim C11) -/

theorem used_single {L : FastList} (hI : CoreInv L) (hpos : 0 < L.size) (hnb : L.nBlocks ≤ 1) :
    ∃ A, L.used = [A] ∧ A.cnt = L.size := by
  obtain ⟨A, Sb, hU⟩ := used_cons_of_pos hI hpos
  have hlen := hI.rep.used_length
  have hSb : Sb = [] := by
    rw [hU] at hlen
    simp at hlen
    exact List.eq_nil_of_length_eq_zero (by omega)
  subst hSb
  refine ⟨A, hU, ?_⟩
  have := hI.size_eq
  rw [hU] at this
  simpa using this.symm

theorem nBlocks_of_used_single {L : FastList} (hI : CoreInv L) {A : Block} (hU : L.used = [A]) :
    L.nBlocks = 1 := by
  rw [← hI.rep.used_length, hU]; rfl

/-- One `insert` on a single-block list with room: the reference insertion. -/
theorem small_insert {L : FastList} (hI : CoreInv L) (hnb : L.nBlocks ≤ 1) (pos v : Int)
    (h0 : 0 ≤ pos) (h1 : pos ≤ L.size) (hroom : L.size < 64) :
    ∃ L1, insert L pos v = some L1 ∧ CoreInv L1 ∧ L1.nBlocks ≤ 1 ∧
      L1.values = specInsert L.values pos.toNat v ∧ L1.size = L.size + 1 := by
  have hsr := hI.size_refs
  have hvl := hI.values_length
  by_cases hz : L.size = 0
  · have hp : pos = 0 := by omega
    subst hp
    obtain ⟨L1, hrun, hI1, hs1, hv1, _, _⟩ := insert_zero_spec hI v
    obtain ⟨L1', A1, hrun', _, _, _, _, _, hnb1, _⟩ := insertFirst_spec hI v
    have hg : ¬ ((0 : Int) < 0 ∨ 0 > L.size) := by omega
    have he : insert L 0 v = some L1' := by
      unfold insert
      rw [if_neg hg, if_pos hz]
      exact hrun'
    rw [hrun] at he
    cases he
    refine ⟨L1, hrun, hI1, by omega, ?_, hs1⟩
    rw [hv1]
    have : L.values = [] := List.eq_nil_of_length_eq_zero (by omega)
    rw [this]
    rfl
  · have hpos : 0 < L.size := by omega
    obtain ⟨A, hU, hAc⟩ := used_single hI hpos hnb
    by_cases he : pos = L.size
    · subst he
      obtain ⟨L1, hrun, hI1, hs1, hv1⟩ := insert_at_size_spec hI v
      obtain ⟨L1', A1, hrun', _, _, _, _, hnb1⟩ :=
        insertAppend_room hI hpos v [] A hU (by omega)
      rw [hrun] at hrun'
      cases hrun'
      refine ⟨L1, hrun, hI1, by omega, ?_, hs1⟩
      rw [hv1]
      have : L.size.toNat = L.values.length := by omega
      rw [this]
      simp [specInsert]
    · have hlt : pos < L.size := by omega
      obtain ⟨L1, hrun, hI1, hs1, hr1, hall, hnb1⟩ :=
        insertInside_block0 hI hpos pos h0 (by omega) v A [] hU
      have hfull : ¬ (A.cnt = B) := by simp only [B]; omega
      rw [if_neg hfull] at hr1
      have hk : min pos.toNat A.cnt.toNat = pos.toNat := by omega
      rw [hk] at hr1
      have hg : ¬ (pos < 0 ∨ pos > L.size) := by omega
      refine ⟨L1, ?_, hI1, ?_, values_after_insert hI hr1 hall, hs1⟩
      · unfold insert
        rw [if_neg hg, if_neg hz, if_neg he]
        exact hrun
      · have := hnb1 (by omega)
        omega

/-- One `removeAt` on a single-block list: the reference lookup and erasure. -/
theorem small_removeAt {L : FastList} (hI : CoreInv L) (hnb : L.nBlocks ≤ 1) (pos : Int)
    (h0 : 0 ≤ pos) (h1 : pos < L.size) (hsmall : L.size ≤ 64) :
    ∃ r L2, removeAt L pos = some (r, L2) ∧ CoreInv L2 ∧ L2.nBlocks ≤ 1 ∧
      L.values[pos.toNat]? = some r ∧ L2.values = L.values.eraseIdx pos.toNat ∧
      L2.size = L.size - 1 := by
  have hpos : 0 < L.size := by omega
  obtain ⟨A, hU, hAc⟩ := used_single hI hpos hnb
  have hk : min pos.toNat (A.cnt.toNat - 1) = pos.toNat := by omega
  obtain ⟨L2, x, hrun, hI2, hs2, hx, hr2, hfd, hnb2⟩ :=
    removeAt_block0 hI pos h0 h1 (by omega) A [] hU (by rw [hk]; omega)
  rw [hk] at hx hr2
  obtain ⟨hvals, hv⟩ := values_after_remove hI hx hr2 hfd
  exact ⟨dataAt L.mem x, L2, hrun, hI2, by omega, hv, hvals, hs2⟩

/-- One `get` on a single-block list: the reference lookup. -/
theorem small_get {L : FastList} (hI : CoreInv L) (hnb : L.nBlocks ≤ 1) (pos : Int)
    (h0 : 0 ≤ pos) (h1 : pos < L.size) (hsmall : L.size ≤ 64) :
    ∃ r, get L pos = some r ∧ L.values[pos.toNat]? = some r := by
  have hpos : 0 < L.size := by omega
  obtain ⟨A, hU, hAc⟩ := used_single hI hpos hnb
  have hk : min pos.toNat (A.cnt.toNat - 1) = pos.toNat := by omega
  obtain ⟨x, hrun, hx⟩ := get_block0 hI pos h0 h1 (by omega) A [] hU
  rw [hk] at hx
  refine ⟨dataAt L.mem x, hrun, ?_⟩
  simp only [FastList.values, List.getElem?_map, hx, Option.map_some']

/-- The observations of a small history are those of the reference list. -/
theorem runCalls_small (cs : List Call) : ∀ {L : FastList}, CoreInv L → L.nBlocks ≤ 1 →
    L.size ≤ 64 → smallHistory L.values cs = true → runCalls L cs = some (refCalls L.values cs) := by
  induction cs with
  | nil => intro L _ _ _ _; rfl
  | cons c cs ih =>
    intro L hI hnb hsmall hh
    have hvl := hI.values_length
    simp only [smallHistory, Bool.and_eq_true, decide_eq_true_eq] at hh
    obtain ⟨⟨hin, hle⟩, hrest⟩ := hh
    cases c with
    | insert pos v =>
      simp only [inRange, decide_eq_true_eq] at hin
      rw [hvl] at hin
      have hlen : ((specInsert L.values pos.toNat v).length : Int) = L.size + 1 := by
        simp only [specInsert, List.length_append, List.length_cons, List.length_take,
          List.length_drop]
        omega
      simp only [refStep, B] at hle hrest
      obtain ⟨L1, hrun, hI1, hnb1, hv1, hs1⟩ :=
        small_insert hI hnb pos v hin.1 hin.2 (by omega)
      have hstep : callStep L (Call.insert pos v) = some (none, L1) := by
        simp only [callStep, hin, and_self, if_true, hrun, Option.map_some']
      have hs64 : L1.size ≤ 64 := by omega
      rw [← hv1] at hrest hlen
      have ih1 := ih hI1 hnb1 hs64 hrest
      simp only [runCalls, hstep, hI1.traverse_eq, ih1, refCalls, refStep]
      rw [← hv1, hlen, hs1]
    | removeAt pos =>
      simp only [inRange, decide_eq_true_eq] at hin
      rw [hvl] at hin
      simp only [refStep, B] at hle hrest
      obtain ⟨r, L2, hrun, hI2, hnb2, hv, hvals, hs2⟩ :=
        small_removeAt hI hnb pos hin.1 hin.2 hsmall
      have hstep : callStep L (Call.removeAt pos) = some (some r, L2) := by
        simp only [callStep, hin, and_self, if_true, hrun, Option.map_some']
      rw [← hvals] at hrest
      have ih1 := ih hI2 hnb2 (by omega) hrest
      have hlen := hI2.values_length
      simp only [runCalls, hstep, hI2.traverse_eq, ih1, refCalls, refStep]
      rw [← hvals, hlen, hv]
    | get pos =>
      simp only [inRange, decide_eq_true_eq] at hin
      rw [hvl] at hin
      simp only [refStep, B] at hle hrest
      obtain ⟨r, hrun, hv⟩ := small_get hI hnb pos hin.1 hin.2 hsmall
      have hstep : callStep L (Call.get pos) = some (some r, L) := by
        simp only [callStep, hin, and_self, if_true, hrun, Option.map_some']
      have ih1 := ih hI hnb hsmall hrest
      simp only [runCalls, hstep, hI.traverse_eq, ih1, refCalls, refStep]
      rw [hvl, hv]

/-- C11: small lists behave exactly like a plain list.  For every sequence of
calls of `insert`, `removeAt` and `get`, starting from `createList`, each in
range and such that the size never exceeds `B` (`smallHistory`, checked on the
reference list), every call completes and the observations after each call (the
value returned by `get` / `removeAt`, the size and the forward traversal) are
those of the same calls on the reference list. -/
theorem small_lists_refine (cs : List Call) (h : smallHistory [] cs = true) :
    runCalls createList cs = some (refCalls [] cs) := by
  have := runCalls_small cs createList_coreInv (by decide) (by decide)
    (by rw [createList_values]; exact h)
  rw [createList_values] at this
  exact this

/-- Witness for C11: the three-element scenario of the specification. -/
theorem small_lists_refine_witness :
    smallHistory [] scenario = true ∧
      runCalls createList scenario =
        some [⟨none, 1, [10]⟩, ⟨none, 2, [10, 20]⟩, ⟨none, 3, [10, 15, 20]⟩,
          ⟨some 15, 3, [10, 15, 20]⟩, ⟨some 10, 2, [15, 20]⟩] :=
  ⟨by decide, (small_lists_refine scenario (by decide)).trans (by decide)⟩

end FastLinkedList
namespace FastLinkedList

/-! ## Block layouts of the histories used below -/

theorem runOps_append (xs ys : List Op) : ∀ L : FastList,
    runOps L (xs ++ ys) = (runOps L xs).bind (fun L1 => runOps L1 ys) := by
  induction xs with
  | nil => intro L; rfl
  | cons x xs ih =>
    intro L
    simp only [List.cons_append, runOps]
    cases step L x with
    | none => rfl
    | some L1 => simp only [Option.some_bind]; exact ih L1

/-- Appending the values `k, k+1, ..` at the positions `k, k+1, ..` to a list of
size `k` is what `appendAll` does. -/
theorem runOps_range (n : Nat) : ∀ (k : Nat) {L : FastList}, CoreInv L → L.size = (k : Int) →
    runOps L ((List.range' k n).map (fun i : Nat => Op.insert (i : Int) (i : Int))) =
      appendAll L ((List.range' k n).map (fun i : Nat => (i : Int))) := by
  induction n with
  | zero => intro k L _ _; rfl
  | succ n ih =>
    intro k L hI hs
    obtain ⟨L1, hrun, hI1, hs1, _⟩ := insert_at_size_spec hI (k : Int)
    have hg : (0 : Int) ≤ (k : Int) ∧ (k : Int) ≤ L.size := by omega
    have hrunk : insert L (k : Int) (k : Int) = some L1 := by
      have h := hrun
      rw [hs] at h
      exact h
    have hstep : step L (Op.insert (k : Int) (k : Int)) = some L1 := by
      simp only [step, hg, and_self, if_true]
      exact hrunk
    simp only [List.range'_succ, List.map_cons, runOps, hstep, appendAll, hrun, Option.some_bind]
    exact ih (k + 1) hI1 (by rw [hs1, hs]; push_cast; rfl)

theorem iota_eq (n : Nat) : iota n = (List.range n).map (fun i : Nat => (i : Int)) := by
  unfold iota
  induction (List.range n) with
  | nil => rfl
  | cons a t ih => simpa using ih

theorem iota_length (n : Nat) : (iota n).length = n := by
  rw [iota_eq, List.length_map, List.length_range]

theorem appends_eq (n : Nat) :
    appends n = (List.range n).map (fun i : Nat => Op.insert (i : Int) (i : Int)) := by
  unfold appends
  induction (List.range n) with
  | nil => rfl
  | cons a t ih => simpa using ih

theorem runOps_appends (n : Nat) : runOps createList (appends n) = build_list (iota n) := by
  rw [iota_eq, appends_eq]
  simp only [build_list, List.range_eq_range']
  exact runOps_range n 0 createList_coreInv rfl

/-- A round of 32 appends after a last block of 33 nodes: the block is filled
and split, leaving blocks of 32 and 33 nodes in its place. -/
theorem appendAll_round (vs : List Int) (hlen : vs.length = 32) {L : FastList} (Pb : List Block)
    (A : Block) (hI : CoreInv L) (hU : L.used = Pb ++ [A]) (hA : A.cnt = 33) :
    ∃ L1 A1 C1, appendAll L vs = some L1 ∧ CoreInv L1 ∧ L1.used = Pb ++ [A1] ++ [C1] ∧
      A1.cnt = 32 ∧ C1.cnt = 33 := by
  obtain ⟨mid, vl, hvs, hmid⟩ := exists_snoc_of_length vs 31 hlen
  have hpos : 0 < L.size := by
    have := @CoreInv.size_ge_cnt L hI Pb [] A hU
    omega
  obtain ⟨L2, A2, hrun2, hI2, hU2, hc2, _⟩ :=
    appendAll_fill mid Pb A hI hU hpos (by rw [hA, hmid]; decide)
  have hfull : A2.cnt = 64 := by rw [hc2, hA, hmid]; decide
  obtain ⟨L3, A3, C3, hrun3, hI3, hU3, hA3, hC3, _, _⟩ := insertAppend_full hI2 vl Pb A2 hU2 hfull
  refine ⟨L3, A3, C3, ?_, hI3, by rw [hU3]; simp, hA3, hC3⟩
  rw [hvs, appendAll_append, hrun2]
  simp only [Option.some_bind, appendAll, hrun3]

/-- After 96 appends: blocks of 32 and 64 nodes. -/
theorem build_list_96 (vs : List Int) (hlen : vs.length = 96) :
    ∃ L A C, build_list vs = some L ∧ CoreInv L ∧ L.used = [A, C] ∧ A.cnt = 32 ∧ C.cnt = 64 := by
  obtain ⟨v1, v2, hvs, h1⟩ := exists_split_length vs 65 (by omega)
  have h2 : v2.length = 31 := by
    have := congrArg List.length hvs
    simp at this; omega
  obtain ⟨L1, A, C, hrun1, hI1, hU1, hA, hC, _⟩ := build_list_overflow v1 h1
  have hpos : 0 < L1.size := by
    have := @CoreInv.size_ge_cnt L1 hI1 [] [C] A hU1
    omega
  obtain ⟨L2, C2, hrun2, hI2, hU2, hc2, _⟩ :=
    appendAll_fill v2 [A] C hI1 hU1 hpos (by rw [hC, h2]; decide)
  refine ⟨L2, A, C2, ?_, hI2, hU2, hA, by rw [hc2, hC, h2]; decide⟩
  simp only [build_list] at hrun1 ⊢
  rw [hvs, appendAll_append, hrun1]
  exact hrun2

/-- After 97 appends: blocks of 32, 32 and 33 nodes. -/
theorem build_list_97 (vs : List Int) (hlen : vs.length = 97) :
    ∃ L A0 A1 A2, build_list vs = some L ∧ CoreInv L ∧ L.used = [A0, A1, A2] ∧
      A0.cnt = 32 ∧ A1.cnt = 32 ∧ A2.cnt = 33 := by
  obtain ⟨v1, v2, hvs, h1⟩ := exists_split_length vs 65 (by omega)
  have h2 : v2.length = 32 := by
    have := congrArg List.length hvs
    simp at this; omega
  obtain ⟨L1, A, C, hrun1, hI1, hU1, hA, hC, _⟩ := build_list_overflow v1 h1
  obtain ⟨L2, A1, A2, hrun2, hI2, hU2, hA1, hA2⟩ := appendAll_round v2 h2 [A] C hI1 hU1 hC
  refine ⟨L2, A, A1, A2, ?_, hI2, hU2, hA, hA1, hA2⟩
  simp only [build_list] at hrun1 ⊢
  rw [hvs, appendAll_append, hrun1]
  exact hrun2

/-- After 161 appends: blocks of 32, 32, 32, 32 and 33 nodes. -/
theorem build_list_161 (vs : List Int) (hlen : vs.length = 161) :
    ∃ L A0 A1 A2 A3 A4, build_list vs = some L ∧ CoreInv L ∧ L.used = [A0, A1, A2, A3, A4] ∧
      A0.cnt = 32 ∧ A1.cnt = 32 ∧ A2.cnt = 32 ∧ A3.cnt = 32 ∧ A4.cnt = 33 := by
  obtain ⟨v1, w1, hvs, h1⟩ := exists_split_length vs 97 (by omega)
  have hw1 : w1.length = 64 := by
    have := congrArg List.length hvs
    simp at this; omega
  obtain ⟨v2, v3, hw, h2⟩ := exists_split_length w1 32 (by omega)
  have h3 : v3.length = 32 := by
    have := congrArg List.length hw
    simp at this; omega
  obtain ⟨L1, A0, A1, A2, hrun1, hI1, hU1, hA0, hA1, hA2⟩ := build_list_97 v1 h1
  obtain ⟨L2, A2', A3, hrun2, hI2, hU2, hA2', hA3⟩ :=
    appendAll_round v2 h2 [A0, A1] A2 hI1 hU1 hA2
  obtain ⟨L3, A3', A4, hrun3, hI3, hU3, hA3', hA4⟩ :=
    appendAll_round v3 h3 [A0, A1, A2'] A3 hI2 hU2 hA3
  refine ⟨L3, A0, A1, A2', A3', A4, ?_, hI3, hU3, hA0, hA1, hA2', hA3', hA4⟩
  simp only [build_list] at hrun1 ⊢
  rw [hvs, hw, appendAll_append, hrun1]
  simp only [Option.some_bind]
  rw [appendAll_append, hrun2]
  exact hrun3

end FastLinkedList
namespace FastLinkedList

/-! ## The state with blocks of 1 and 64 nodes -/

theorem rebalance_eq {L : FastList} {b : Int} {blk : Block} (hrd : rd L.blocks b = some blk)
    (h : ¬ (blk.cnt = 0 ∧ L.nBlocks > 1)) :
    rebalance L b =
      (if b > 0 then try_merge L (b - 1) else some L).bind (fun L2 => try_merge L2 b) := by
  simp only [rebalance, hrd, Option.bind_eq_bind, Option.some_bind, h, if_false]

theorem rd_blocks_of_used {L : FastList} (hr : Rep L) (Pb Sb : List Block) (A : Block)
    (hU : L.used = Pb ++ A :: Sb) (b : Int) (hb : b = (Pb.length : Int)) :
    rd L.blocks b = some A := by
  have hblocks : L.blocks = Pb ++ A :: (Sb ++ L.blocks.drop L.nBlocks.toNat) := by
    have := hr.blocks_eq
    rw [hU] at this
    simpa using this
  rw [hblocks]
  exact rd_mid _ _ _ hb

/-- A removal at the front of a two-block list whose blocks do not fit one block
afterwards: block 0 loses a node, nothing is merged. -/
theorem removeAt_front_keep {L : FastList} (hI : CoreInv L) (A C : Block) (hU : L.used = [A, C])
    (hA : 2 ≤ A.cnt) (hsum : A.cnt - 1 + C.cnt > 64) :
    ∃ r L2 A1, removeAt L 0 = some (r, L2) ∧ CoreInv L2 ∧ L2.used = [A1, C] ∧
      A1.cnt = A.cnt - 1 ∧ 0 < L.size := by
  have hUa : L.used = [] ++ A :: [C] := hU
  have hpos : 0 < L.size := by
    have := @CoreInv.size_ge_cnt L hI [] [C] A hUa
    omega
  have hnb := hI.nBlocks_pos hpos
  have hloc := locate_first hnb 0 (le_refl _) (by decide)
  obtain ⟨L1, L2, A1, x, _, hrb, hrun, hI1, hU1, _, _, hA1c, _, _, _, hI2, _⟩ :=
    removeAt_located hI 0 (le_refl _) hpos [] [C] A hUa (by rw [hloc]; rfl) (Or.inl rfl)
  have hrd : rd L1.blocks 0 = some A1 := rd_blocks_of_used hI1.rep [] [C] A1 hU1 0 rfl
  have hne : ¬ (A1.cnt = 0 ∧ L1.nBlocks > 1) := by omega
  have hskip : try_merge L1 0 = some L1 :=
    try_merge_skip [] [] A1 C hU1 (by simp only [B]; omega) 0 rfl
  have hrb2 : rebalance L1 0 = some L1 := by
    rw [rebalance_eq hrd hne]
    simp only [gt_iff_lt, lt_self_iff_false, if_false, Option.some_bind]
    exact hskip
  have he : L2 = L1 := by
    have h := hrb
    simp only [List.length_nil, Nat.cast_zero] at h
    rw [hrb2] at h
    cases h
    rfl
  subst he
  exact ⟨dataAt L.mem x, L2, A1, hrun, hI2, hU1, hA1c, hpos⟩

theorem removeFront_iter (n : Nat) : ∀ {L : FastList} (A C : Block), CoreInv L →
    L.used = [A, C] → (n : Int) + 1 ≤ A.cnt → A.cnt - (n : Int) + C.cnt > 64 →
    ∃ L2 A1, runOps L (List.replicate n (Op.removeAt 0)) = some L2 ∧ CoreInv L2 ∧
      L2.used = [A1, C] ∧ A1.cnt = A.cnt - (n : Int) := by
  induction n with
  | zero =>
    intro L A C hI hU _ _
    exact ⟨L, A, rfl, hI, hU, by simp⟩
  | succ n ih =>
    intro L A C hI hU hle hsum
    push_cast at hle hsum
    obtain ⟨r, L1, A1, hrun, hI1, hU1, hc1, hpos⟩ :=
      removeAt_front_keep hI A C hU (by omega) (by omega)
    obtain ⟨L2, A2, hrun2, hI2, hU2, hc2⟩ := ih A1 C hI1 hU1 (by omega) (by omega)
    have hg : (0 : Int) ≤ 0 ∧ 0 < L.size := ⟨le_refl _, hpos⟩
    refine ⟨L2, A2, ?_, hI2, hU2, by rw [hc2, hc1]; push_cast; omega⟩
    simp only [List.replicate_succ, runOps, step, hg, and_self, if_true, hrun]
    exact hrun2

/-- After 96 appends and 31 removals at the front: blocks of 1 and 64 nodes. -/
theorem shrinkHistory_layout :
    ∃ L A C, runOps createList shrinkHistory = some L ∧ CoreInv L ∧ L.used = [A, C] ∧
      A.cnt = 1 ∧ C.cnt = 64 ∧ L.size = 65 ∧ L.nBlocks = 2 := by
  obtain ⟨L1, A, C, hrun1, hI1, hU1, hA, hC⟩ := build_list_96 (iota 96) (iota_length 96)
  obtain ⟨L2, A2, hrun2, hI2, hU2, hc2⟩ :=
    removeFront_iter 31 A C hI1 hU1 (by rw [hA]; decide) (by rw [hA, hC]; decide)
  have hA2 : A2.cnt = 1 := by rw [hc2, hA]; decide
  refine ⟨L2, A2, C, ?_, hI2, hU2, hA2, hC, ?_, ?_⟩
  · simp only [shrinkHistory]
    rw [runOps_append, runOps_appends, hrun1]
    exact hrun2
  · rw [hI2.size_eq, hU2]
    simp [hA2, hC]
  · rw [← hI2.rep.used_length, hU2]; rfl

/-! ## Where removeAt and split_block go wrong (claims C15, C17, C18) -/

/-- C18 (`removeAt` stays inside the block structure) fails on the code.  After
96 appends and 31 calls `removeAt(L, 0)` the list has size 65 and two blocks, of
1 and 64 nodes.  For the in-range position 1, `locate` gives block 0 and offset
1, the offset is clamped to 0 in that block, and since `pos != 0` the code looks
up the last node of block `b - 1 = -1`: there is no such block, the read is
outside the block array, and neither the unlinking step nor `removeAt` has a
defined result. -/
theorem removeAt_previous_block_missing :
    ∃ L blk, runOps createList shrinkHistory = some L ∧ L.size = 65 ∧ L.nBlocks = 2 ∧
      locate L 1 = (0, 1) ∧ rd L.blocks (locate L 1).1 = some blk ∧
      clampOff blk (locate L 1).2 = 0 ∧ rd L.blocks ((locate L 1).1 - 1) = none ∧
      unlinkFromBlock L 1 (locate L 1).1 (locate L 1).2 = none ∧ removeAt L 1 = none := by
  obtain ⟨L, A, C, hrun, hI, hU, hA, hC, hs, hnb⟩ := shrinkHistory_layout
  have hloc : locate L 1 = (0, 1) := locate_first (by omega) 1 (by decide) (by decide)
  have hrd : rd L.blocks 0 = some A := rd_blocks_of_used hI.rep [] [C] A hU 0 rfl
  have hoob : unlinkFromBlock L 1 0 1 = none :=
    unlinkFromBlock_oob L 1 1 (by decide) (by
      intro blk hblk
      rw [hrd] at hblk
      cases hblk
      rw [hA]
      decide)
  refine ⟨L, A, hrun, hs, hnb, hloc, by rw [hloc]; exact hrd, ?_, ?_, by rw [hloc]; exact hoob, ?_⟩
  · rw [hloc]
    simp only [clampOff, hA]
    decide
  · rw [hloc]
    exact rd_neg _ (by decide)
  · have hg : ¬ ((1 : Int) < 0 ∨ 1 ≥ L.size) := by omega
    have hz : ¬ ((0 : Int) < 0) := by decide
    simp only [removeAt, hg, if_false, hloc, hz, Option.bind_eq_bind, hoob, Option.none_bind]

/-- C15 as stated fails: a block with a single reference that is followed by
another block.  After 96 appends and 31 calls `removeAt(L, 0)` the state
satisfies the core invariants, its blocks hold 1 and 64 nodes and the chain from
`head` visits its 65 nodes.  `split_block(L, 0)` completes and leaves blocks of
1, 0 and 64 references, but it sets the `next` of block 0's node to `NULL` (the
upper half is empty, so `nextAfterA` is `NULL`): the chain from `head` now visits
one node only. -/
theorem split_block_cuts_chain :
    ∃ L L1, runOps createList shrinkHistory = some L ∧ CoreInv L ∧
      L.used.map Block.cnt = [1, 64] ∧ (chainNodes L).map List.length = some 65 ∧
      split_block L 0 = some L1 ∧ L1.used.map Block.cnt = [1, 0, 64] ∧
      L1.refs = L.refs ∧ (chainNodes L1).map List.length = some 1 := by
  obtain ⟨L, A, C, hrun, hI, hU, hA, hC, hs, hnb⟩ := shrinkHistory_layout
  obtain ⟨L1, A1, B2, hsplit, hU1, _, _, hA1c, hB2c, _, _, _, hrefs, hsd, _, hcut⟩ :=
    split_block_general hI [] [C] A hU 0 rfl
  have hAr : A.refs.length = 1 := by
    have := cnt_of_refs hI (show A ∈ L.used by rw [hU]; simp)
    omega
  have hch1 : chainNodes L1 = some ((([] : List Block).map Block.refs).flatten ++ A.refs) :=
    lseg_chainNodes (hsd.dead hI.null_dead) (hcut hA)
  refine ⟨L, L1, hrun, hI, by rw [hU]; simp [hA, hC], ?_, hsplit, ?_, hrefs, ?_⟩
  · rw [hI.chainNodes_eq]
    have := hI.size_refs
    have h65 : L.refs.length = 65 := by omega
    simp only [Option.map_some', h65]
  · rw [hU1]
    simp only [List.nil_append, List.map_cons, List.map_nil, hA1c, hB2c, hA, hC]
    decide
  · rw [hch1]
    simp [hAr]

end FastLinkedList
namespace FastLinkedList

theorem threeBlockState_facts :
    runOps createList (appends 97) = some threeBlockState ∧ CoreInv threeBlockState ∧
      threeBlockState.nBlocks = 3 ∧ threeBlockState.used.map Block.cnt = [32, 32, 33] := by
  obtain ⟨L, A0, A1, A2, hrun, hI, hU, h0, h1, h2⟩ := build_list_97 (iota 97) (iota_length 97)
  have hr : runOps createList (appends 97) = some L := by rw [runOps_appends, hrun]
  have he : threeBlockState = L := by
    unfold threeBlockState
    rw [hr]
    rfl
  rw [he]
  refine ⟨hr, hI, ?_, ?_⟩
  · rw [← hI.rep.used_length, hU]; rfl
  · rw [hU]; simp [h0, h1, h2]

/-- Witness for C16: on the state after 97 appends (blocks of 32, 32 and 33
nodes) `try_merge(L, 0)` merges blocks 0 and 1. -/
theorem try_merge_contract_witness :
    CoreInv threeBlockState ∧ (0 : Int) + 1 < threeBlockState.nBlocks ∧
      ∃ L1, try_merge threeBlockState 0 = some L1 ∧
        L1.nBlocks = threeBlockState.nBlocks - 1 ∧ traverse L1 = traverse threeBlockState :=
  have hI : CoreInv threeBlockState := threeBlockState_facts.2.1
  have h1 : (0 : Int) + 1 < threeBlockState.nBlocks := by
    rw [threeBlockState_facts.2.2.1]; decide
  match (try_merge_contract threeBlockState hI 0).2 (le_refl _) h1 with
  | ⟨Pb, A, C, Sb, hU, hb, _, hmerge⟩ =>
    have hPb : Pb = [] := List.eq_nil_of_length_eq_zero (by omega)
    have hm := threeBlockState_facts.2.2.2
    have hsum : A.cnt + C.cnt ≤ B := by
      rw [hU, hPb] at hm
      simp at hm
      rw [hm.1, hm.2.1]
      decide
    match hmerge hsum with
    | ⟨L1, _, hrun, _, _, _, hnb, _, _, _, htr⟩ => ⟨hI, h1, L1, hrun, hnb, htr⟩

/-- C17 (merge policy of `removeAt`) fails on the code.  After 161 appends the
state satisfies the core invariants and its blocks hold 32, 32, 32, 32 and 33
nodes.  `removeAt(L, 64)` locates block 1, which keeps 31 nodes and is merged
into its left neighbour (63 nodes).  The block that now holds the located
block's references is block 0, and it does not fit its right neighbour
(63 + 32 > 64): the policy of the specification leaves blocks of 63, 32, 32 and
33 nodes.  The code calls `try_merge(L, b)` with the old index `b = 1`, which
now names the two blocks after the merged one, and merges them: 63, 64 and 33. -/
theorem merge_policy_stale_index :
    ∃ L, runOps createList (appends 161) = some L ∧ CoreInv L ∧ L.size = 161 ∧
      L.used.map Block.cnt = [32, 32, 32, 32, 33] ∧ (locate L 64).1 = 1 ∧
      (removeAt L 64).map (fun p => p.2.used.map Block.cnt) = some [63, 64, 33] ∧
      (removeAtPolicy L 64).map (fun p => p.2.used.map Block.cnt) = some [63, 32, 32, 33] := by
  obtain ⟨L, A0, A1, A2, A3, A4, hrun, hI, hU, h0, h1, h2, h3, h4⟩ :=
    build_list_161 (iota 161) (iota_length 161)
  have hr : runOps createList (appends 161) = some L := by rw [runOps_appends, hrun]
  have hs : L.size = 161 := by
    rw [hI.size_eq, hU]
    simp [h0, h1, h2, h3, h4]
  have hnb : L.nBlocks = 5 := by
    rw [← hI.rep.used_length, hU]; rfl
  have hloc : locate L 64 = (1, 0) := by
    rw [locate_eq L 64 (by decide), hnb]
    decide
  have hUa : L.used = [A0] ++ A1 :: [A2, A3, A4] := hU
  obtain ⟨L1, L2, B1, x, hunlink, hrb, hrem, hI1, hU1, _, _, hB1c, _, hnb1, _, hI2, _⟩ :=
    removeAt_located hI 64 (by decide) (by rw [hs]; decide) [A0] [A2, A3, A4] A1 hUa
      (by rw [hloc]; rfl) (Or.inr (Or.inl (by simp)))
  have hB1 : B1.cnt = 31 := by rw [hB1c, h1]; decide
  have hC1 : CoreInv L1 := by
    apply hI1.toCore
    intro blk hblk hz
    exfalso
    rw [hU1] at hblk
    simp only [List.cons_append, List.nil_append, List.mem_cons, List.mem_singleton,
      List.not_mem_nil, or_false] at hblk
    rcases hblk with h | h | h | h | h <;> rw [h] at hz <;> omega
  have hrd : rd L1.blocks 1 = some B1 :=
    rd_blocks_of_used hI1.rep [A0] [A2, A3, A4] B1 hU1 1 rfl
  have hne : ¬ (B1.cnt = 0 ∧ L1.nBlocks > 1) := by omega
  -- the left merge happens
  obtain ⟨La, M, hma, hIa, hUa1, _, hMc, _, _, hnba, _⟩ :=
    try_merge_spec hC1 [] [A2, A3, A4] A0 B1 hU1 (by rw [h0, hB1]; decide) 0 rfl
  have hM : M.cnt = 63 := by rw [hMc, h0, hB1]; decide
  -- the code: try_merge at the old index 1
  obtain ⟨Lb, N, hmb, hIb, hUb, _, hNc, _⟩ :=
    try_merge_spec hIa [M] [A4] A2 A3 hUa1 (by rw [h2, h3]; decide) 1 rfl
  have hN : N.cnt = 64 := by rw [hNc, h2, h3]; decide
  have hcode : rebalance L1 1 = some Lb := by
    rw [rebalance_eq hrd hne]
    have h10 : ((1 : Int) > 0) := by decide
    have h11 : (1 : Int) - 1 = 0 := by decide
    simp only [h10, if_true, h11, hma, Option.some_bind]
    exact hmb
  -- the policy: try_merge at the index of the merged block
  have hskip : try_merge La 0 = some La :=
    try_merge_skip [] [A3, A4] M A2 hUa1 (by rw [hM, h2]; decide) 0 rfl
  have hpol : rebalancePolicy L1 1 = some La := by
    have h10 : ((1 : Int) > 0) := by decide
    have h11 : (1 : Int) - 1 = 0 := by decide
    have hlt : La.nBlocks < L1.nBlocks := by omega
    simp only [rebalancePolicy, h10, if_true, h11, hma, Option.bind_eq_bind, Option.some_bind,
      hlt]
    exact hskip
  have he : L2 = Lb := by
    have h := hrb
    simp only [List.length_singleton, Nat.cast_one] at h
    rw [hcode] at h
    cases h
    rfl
  have hunlink1 : unlinkFromBlock L 64 1 0 = some (dataAt L.mem x, L1) := hunlink
  refine ⟨L, hr, hI, hs, by rw [hU]; simp [h0, h1, h2, h3, h4], by rw [hloc], ?_, ?_⟩
  · rw [hrem, he]
    simp only [Option.map_some', hUb]
    simp [hM, hN, h4]
  · have hg : ¬ ((64 : Int) < 0 ∨ 64 ≥ L.size) := by omega
    have hz : ¬ ((1 : Int) < 0) := by decide
    simp only [removeAtPolicy, hg, if_false, hloc, hz, Option.bind_eq_bind, hunlink1,
      Option.some_bind, hpol, Option.map_some', hUa1]
    simp [hM, h2, h3, h4]

end FastLinkedList
namespace FastLinkedList

theorem twoBlockState_values : twoBlockState.values = iota 65 := by
  obtain ⟨L, hrun, _, hv, _⟩ := appendAll_spec (iota 65) createList_coreInv
  have hr : runOps createList (appends 65) = some L := by
    rw [runOps_appends]
    unfold build_list
    exact hrun
  have he : twoBlockState = L := by
    have h := twoBlockState_run
    rw [hr] at h
    exact (Option.some.inj h).symm
  rw [he, hv, createList_values]
  rfl

theorem iota_getElem? (n k : Nat) (v : Int) (h : (iota n)[k]? = some v) : (k : Int) = v := by
  rw [iota_eq, List.getElem?_map] at h
  cases hk : (List.range n)[k]? with
  | none => rw [hk] at h; cases h
  | some j =>
    rw [hk] at h
    have hj := (List.getElem?_eq_some_iff.mp hk).2
    simp only [List.getElem_range] at hj
    simp only [Option.map_some', Option.some.injEq] at h
    omega

/-- Witness for C20: `removeAt(L, 40)` on the state after 65 appends, whose
traversal is `0, .., 64` and whose blocks hold 32 and 33 nodes.  The call takes
the predecessor path inside block 0, returns 31, and the traversal afterwards is
`0, .., 64` with index 31 erased: the 64 other values, in their order. -/
theorem removeAt_deletes_returned_witness :
    Reachable twoBlockState ∧ (40 : Int) < twoBlockState.size ∧
      twoBlockState.values = iota 65 ∧
      ∃ L2, removeAt twoBlockState 40 = some (31, L2) ∧ (iota 65)[31]? = some 31 ∧
        traverse L2 = some ((iota 65).eraseIdx 31) ∧ L2.size = 64 := by
  have hI := twoBlockState_reachable.coreInv
  have hs : twoBlockState.size = 65 := twoBlockState_shape.1
  have h1 : (40 : Int) < twoBlockState.size := by rw [hs]; decide
  have hFc : twoBlockFirst.cnt = 32 := twoBlockState_blocks.2.2.2.1
  have hv := twoBlockState_values
  have hj : min (40 : Int).toNat (twoBlockFirst.cnt.toNat - 1) = 31 := by rw [hFc]; decide
  obtain ⟨L2, x, hrun, _, _, hx, _, _, _⟩ :=
    removeAt_block0 hI 40 (by decide) h1 (by decide) twoBlockFirst [twoBlockSecond]
      twoBlockState_used (Or.inr (by rw [hj]; decide))
  rw [hj] at hx
  have hx31 : (iota 65)[31]? = some (dataAt twoBlockState.mem x) := by
    rw [← hv]
    simp only [FastList.values, List.getElem?_map, hx, Option.map_some']
  have hr : dataAt twoBlockState.mem x = 31 := (iota_getElem? 65 31 _ hx31).symm
  rw [hr] at hrun hx31
  obtain ⟨k, _, _, hvk, htr, hsz⟩ :=
    removeAt_deletes_returned twoBlockState twoBlockState_reachable 40 (by decide) h1 31 L2 hrun
  rw [hv] at hvk htr
  have hk : k = 31 := by
    have := iota_getElem? 65 k 31 hvk
    omega
  rw [hk] at htr
  exact ⟨twoBlockState_reachable, h1, hv, L2, hrun, hx31, htr, by rw [hsz, hs]; decide⟩

end FastLinkedList
